import Mathlib

/-!
# Round-trip plugin: greedy nearest-neighbour tour construction

A shallow embedding of `RoundTripPlugin::NearestNeighbour`
(`plugins/round_trip.hpp`) together with the properties of the tours it
builds, the legs it hands to the shortest-path search and the candidate it
retains; of `RoundTripPlugin::HandleRequest`, which calls it; and of
`PBFDescriptor::Run` (`Descriptors/ProtobufDescriptor.h`).

Conventions of the embedding.

* `EdgeWeight` and the other `int` values are integers (`Int`); the only
  machine-integer fact that matters is `std::numeric_limits<int>::max()`,
  which is `INT_MAX`.
* A `PhantomNode` is identified with the index of its location: the phantom
  `phantom_node_vector[i][0]` is represented by `i`, and
  `number_of_locations` is `phantom_node_vector.size()`.
* `std::vector` values are lists; `v[i] = x` is `List.set`, `emplace_back` is
  appending at the end.
* `search_engine_ptr->shortest_path` is a parameter `oracle` mapping the leg
  list it receives to the `shortest_path_length` it writes into `raw_route`.
* Reading `segment_end_coordinates.back()` of an empty vector has no defined
  result: the embedding returns `none` for the whole call at that point.
* Each call of the oracle is logged in `NNState.calls`, in call order,
  together with the start index and the `loc_permutation` of that iteration.
-/

namespace RoundTrip

/-- The value of `std::numeric_limits<int>::max()` for a 32-bit `int`. -/
def INT_MAX : Int := 2147483647

/-- Modelled from the spec: the no-path length `INVALID_EDGE_WEIGHT`, a
constant declared in `typedefs.h`, is the designated "infinite" sentinel,
the maximum representable cost `std::numeric_limits<int>::max()`. -/
def INVALID_EDGE_WEIGHT : Int := INT_MAX

/-- One leg: `PhantomNodes{source_phantom, target_phantom}`. -/
structure PhantomNodes where
  source_phantom : Nat
  target_phantom : Nat
deriving DecidableEq, Repr

/-- The fields of `InternalRouteResult` that `NearestNeighbour` reads or
writes. -/
structure InternalRouteResult where
  segment_end_coordinates : List PhantomNodes
  shortest_path_length : Int
deriving DecidableEq, Repr

/-- A default-constructed `InternalRouteResult`, as `HandleRequest` passes
it in: no legs. Its length is overwritten at line 94 before it is read. -/
def InternalRouteResult.default : InternalRouteResult :=
  { segment_end_coordinates := [], shortest_path_length := INVALID_EDGE_WEIGHT }

/-- The entry `dist_table[row * number_of_locations + index]`, which the
row iterators of the source dereference. -/
def entry (number_of_locations : Nat) (dist_table : List Int) (row index : Nat) : Int :=
  dist_table.getD (row * number_of_locations + index) 0

/-- Lines 116-118: the body of the row scan of the start check. -/
def countStep (number_of_locations : Nat) (dist_table : List Int) (start_node : Nat)
    (count_unreachables index : Nat) : Nat :=
  if entry number_of_locations dist_table start_node index = 0
      ∨ entry number_of_locations dist_table start_node index = INT_MAX
  then count_unreachables + 1 else count_unreachables

/-- Lines 112-119: the number of entries of row `start_node` (the diagonal
entry included) that are `0` or `INT_MAX`. -/
def countUnreachables (number_of_locations : Nat) (dist_table : List Int)
    (start_node : Nat) : Nat :=
  (List.range number_of_locations).foldl
    (countStep number_of_locations dist_table start_node) 0

/-- Lines 147-152: the body of the nearest-neighbour scan; `acc` is the pair
`(min_dist, min_id)`. -/
def nearestStep (number_of_locations : Nat) (dist_table : List Int)
    (is_lonely_island : List Int) (visited : List Bool) (curr_node : Nat)
    (acc : Int × Int) (index : Nat) : Int × Int :=
  if is_lonely_island.getD index 0 < 1 ∧ visited.getD index false = false
      ∧ entry number_of_locations dist_table curr_node index < acc.1
  then (entry number_of_locations dist_table curr_node index, (index : Int))
  else acc

/-- Lines 140-153: the scan of row `curr_node` for the nearest neighbour.
The result is the pair `(min_dist, min_id)`. -/
def findNearest (number_of_locations : Nat) (dist_table : List Int)
    (is_lonely_island : List Int) (visited : List Bool) (curr_node : Nat) : Int × Int :=
  (List.range number_of_locations).foldl
    (nearestStep number_of_locations dist_table is_lonely_island visited curr_node)
    (INT_MAX, -1)

/-- Lines 158-160: the body of the marking loop. -/
def markStep (visited : List Bool) (is_lonely_island : List Int) (loc : Nat) : List Int :=
  if visited.getD loc false = false then is_lonely_island.set loc 1 else is_lonely_island

/-- Lines 157-161: every location that is not visited is marked as a lonely
island. -/
def markUnvisited (visited : List Bool) (is_lonely_island : List Int) : List Int :=
  (List.range visited.length).foldl (markStep visited) is_lonely_island

/-- The variables of one iteration of the start loop that the via-point
loop reads and writes. -/
structure TourState where
  is_lonely_island : List Int
  loc_permutation : List Int
  visited : List Bool
  segment_end_coordinates : List PhantomNodes
  curr_node : Nat
deriving DecidableEq, Repr

/-- Lines 138-174: the via-point loop. `remaining` is the number of
iterations still to run, `via_point` the loop counter; the loop is entered
with `remaining = number_of_locations - 1` and `via_point = 1`. -/
def viaLoop (number_of_locations : Nat) (dist_table : List Int) :
    Nat → Nat → TourState → TourState
  | 0, _, s => s
  | remaining + 1, via_point, s =>
    let min_id := (findNearest number_of_locations dist_table s.is_lonely_island
      s.visited s.curr_node).2
    if min_id = -1 then
      { s with is_lonely_island := markUnvisited s.visited s.is_lonely_island }
    else
      viaLoop number_of_locations dist_table remaining (via_point + 1)
        { is_lonely_island := s.is_lonely_island.set min_id.toNat (-1)
          loc_permutation := s.loc_permutation.set min_id.toNat (via_point : Int)
          visited := s.visited.set min_id.toNat true
          segment_end_coordinates :=
            s.segment_end_coordinates ++ [⟨s.curr_node, min_id.toNat⟩]
          curr_node := min_id.toNat }

/-- Lines 126-135: the state in which the via-point loop is entered for
`start_node`. -/
def initTour (number_of_locations : Nat) (is_lonely_island : List Int)
    (start_node : Nat) : TourState :=
  { is_lonely_island := is_lonely_island.set start_node (-1)
    loc_permutation := (List.replicate number_of_locations (-1 : Int)).set start_node 0
    visited := (List.replicate number_of_locations false).set start_node true
    segment_end_coordinates := []
    curr_node := start_node }

/-- One logged call of `shortest_path`: the start index of the iteration,
its `loc_permutation`, and `raw_route` as the call leaves it. -/
structure Candidate where
  start_node : Nat
  loc_permutation : List Int
  raw_route : InternalRouteResult
deriving DecidableEq, Repr

/-- The variables that live across iterations of the start loop, and the
log of oracle calls. -/
structure NNState where
  is_lonely_island : List Int
  min_route : InternalRouteResult
  min_loc_permutation : List Int
  calls : List Candidate
deriving DecidableEq, Repr

/-- Lines 126-187: the tour built from `start_node`, the call of the oracle
on its legs and the comparison with the retained route. The result is
`none` when line 177 reads `back()` of an empty leg list. -/
def buildTour (oracle : List PhantomNodes → Int) (number_of_locations : Nat)
    (dist_table : List Int) (st : NNState) (start_node : Nat) : Option NNState :=
  let t := viaLoop number_of_locations dist_table (number_of_locations - 1) 1
    (initTour number_of_locations st.is_lonely_island start_node)
  match t.segment_end_coordinates.getLast? with
  | none => none
  | some last =>
    let segment_end_coordinates :=
      t.segment_end_coordinates ++ [⟨last.target_phantom, start_node⟩]
    let raw_route : InternalRouteResult :=
      { segment_end_coordinates := segment_end_coordinates
        shortest_path_length := oracle segment_end_coordinates }
    let cand : Candidate :=
      { start_node := start_node, loc_permutation := t.loc_permutation,
        raw_route := raw_route }
    if raw_route.shortest_path_length < st.min_route.shortest_path_length then
      some { is_lonely_island := t.is_lonely_island
             min_route := raw_route
             min_loc_permutation := t.loc_permutation
             calls := st.calls ++ [cand] }
    else
      some { st with is_lonely_island := t.is_lonely_island
                     calls := st.calls ++ [cand] }

/-- Lines 105-187: the body of the start loop for `start_node`. The two
`continue` statements return the state for the next iteration. -/
def tryStart (oracle : List PhantomNodes → Int) (number_of_locations : Nat)
    (dist_table : List Int) (st : NNState) (start_node : Nat) : Option NNState :=
  if 0 ≤ st.is_lonely_island.getD start_node 0 then
    if st.is_lonely_island.getD start_node 0 ≠ 0 then
      some st
    else if number_of_locations
        ≤ countUnreachables number_of_locations dist_table start_node then
      some { st with is_lonely_island := st.is_lonely_island.set start_node 1 }
    else
      buildTour oracle number_of_locations dist_table st start_node
  else
    buildTour oracle number_of_locations dist_table st start_node

/-- Line 104: the start loop, `remaining` iterations from `start_node` on. -/
def startLoop (oracle : List PhantomNodes → Int) (number_of_locations : Nat)
    (dist_table : List Int) : Nat → Nat → NNState → Option NNState
  | 0, _, st => some st
  | remaining + 1, start_node, st =>
    match tryStart oracle number_of_locations dist_table st start_node with
    | none => none
    | some st1 => startLoop oracle number_of_locations dist_table remaining (start_node + 1) st1

/-- Lines 93-100: the state in which the start loop is entered. -/
def initState (number_of_locations : Nat) (min_route : InternalRouteResult)
    (min_loc_permutation : List Int) : NNState :=
  { is_lonely_island := List.replicate number_of_locations 0
    min_route := { min_route with shortest_path_length := INT_MAX }
    min_loc_permutation := min_loc_permutation
    calls := [] }

/-- The function `RoundTripPlugin::NearestNeighbour`. `min_route` and
`min_loc_permutation` are the in/out parameters; the result holds their
final values. -/
def NearestNeighbour (oracle : List PhantomNodes → Int) (number_of_locations : Nat)
    (dist_table : List Int) (min_route : InternalRouteResult)
    (min_loc_permutation : List Int) : Option NNState :=
  startLoop oracle number_of_locations dist_table number_of_locations 0
    (initState number_of_locations min_route min_loc_permutation)

/-- The call as `HandleRequest` makes it (lines 245-248): a default
`min_route` and an empty `min_loc_permutation`. -/
def runNN (oracle : List PhantomNodes → Int) (number_of_locations : Nat)
    (dist_table : List Int) : Option NNState :=
  NearestNeighbour oracle number_of_locations dist_table InternalRouteResult.default []

/-! ## Specifications and invariants -/

/-- What the scan has found after the indices below `n`. -/
def NearestSpec (N : Nat) (dist : List Int) (isl : List Int) (vis : List Bool)
    (curr n : Nat) (acc : Int × Int) : Prop :=
  (acc = (INT_MAX, -1) ∧
      ∀ j, j < n → ¬ (isl.getD j 0 < 1 ∧ vis.getD j false = false
        ∧ entry N dist curr j < INT_MAX)) ∨
  (∃ k, k < n ∧ acc = (entry N dist curr k, (k : Int)) ∧ isl.getD k 0 < 1
      ∧ vis.getD k false = false ∧ entry N dist curr k < INT_MAX
      ∧ (∀ j, j < n → isl.getD j 0 < 1 → vis.getD j false = false →
          entry N dist curr k ≤ entry N dist curr j)
      ∧ (∀ j, j < k → isl.getD j 0 < 1 → vis.getD j false = false →
          entry N dist curr k < entry N dist curr j))

/-- The legs between consecutive locations of a visiting order. -/
def consecutiveLegs : List Nat → List PhantomNodes
  | a :: b :: rest => ⟨a, b⟩ :: consecutiveLegs (b :: rest)
  | _ => []

/-- The invariant of the via-point loop for the tour started at `start`:
`order` lists the visited locations in visiting order, `isl0` is
`is_lonely_island` as it was when the loop was entered. -/
structure TourInv (N : Nat) (dist : List Int) (start : Nat) (isl0 : List Int)
    (s : TourState) (order : List Nat) : Prop where
  len_isl : s.is_lonely_island.length = N
  len_perm : s.loc_permutation.length = N
  len_vis : s.visited.length = N
  nodup : order.Nodup
  bound : ∀ x ∈ order, x < N
  head : order.head? = some start
  last : order.getLast? = some s.curr_node
  vis : ∀ j, j < N → (s.visited.getD j false = true ↔ j ∈ order)
  pos : ∀ (m x : Nat), order[m]? = some x → s.loc_permutation.getD x (-1) = (m : Int)
  unpos : ∀ j, j < N → j ∉ order → s.loc_permutation.getD j (-1) = -1
  segs : s.segment_end_coordinates = consecutiveLegs order
  conn : ∀ x ∈ order, s.is_lonely_island.getD x 0 = -1
  elig : ∀ x ∈ order, x ≠ start →
    isl0.getD x 0 < 1 ∧ ∃ c ∈ order, c ≠ x ∧ entry N dist c x < INT_MAX

/-- What the via-point loop leaves behind: the invariant, and the reason it
ended. Either all `N` locations are visited, or the scan of the row of the
last visited location found nothing, in which case every location that is
not visited is marked as a lonely island. -/
structure TourResult (N : Nat) (dist : List Int) (start : Nat) (isl0 : List Int)
    (t : TourState) (order : List Nat) : Prop where
  inv : TourInv N dist start isl0 t order
  fin : order.length = N ∨
    (order.length < N ∧ ∀ j, j < N → j ∉ order →
      t.is_lonely_island.getD j 0 = 1 ∧
      ¬ (isl0.getD j 0 < 1 ∧ entry N dist t.curr_node j < INT_MAX))

/-- The rule of lines 184-187: the candidate replaces the retained pair
`(min_route, min_loc_permutation)` exactly when it is strictly shorter. -/
def pick (best : InternalRouteResult × List Int) (c : Candidate) :
    InternalRouteResult × List Int :=
  if c.raw_route.shortest_path_length < best.1.shortest_path_length then
    (c.raw_route, c.loc_permutation)
  else best

/-- The description of one logged call: the tour `order` built from
`c.start_node` when `is_lonely_island` was `isl`, and the legs handed to
the oracle. -/
structure TourCall (oracle : List PhantomNodes → Int) (N : Nat) (dist : List Int)
    (isl : List Int) (t : TourState) (order : List Nat) (c : Candidate) : Prop where
  len : isl.length = N
  lt : c.start_node < N
  startok : isl.getD c.start_node 0 ≤ 0
  res : TourResult N dist c.start_node (isl.set c.start_node (-1)) t order
  two : 2 ≤ order.length
  cperm : c.loc_permutation = t.loc_permutation
  clegs : c.raw_route.segment_end_coordinates =
    consecutiveLegs order ++ [⟨t.curr_node, c.start_node⟩]
  clen : c.raw_route.shortest_path_length = oracle c.raw_route.segment_end_coordinates

/-- The invariant of the start loop, relative to the state `st0` in which
iteration `s0` was entered: `new` are the calls logged since then. -/
structure LoopInv (oracle : List PhantomNodes → Int) (N : Nat) (dist : List Int)
    (st0 : NNState) (s0 k : Nat) (st : NNState) (new : List Candidate) : Prop where
  len : st.is_lonely_island.length = N
  calls : st.calls = st0.calls ++ new
  ok : ∀ c ∈ new, ∃ isl t order, TourCall oracle N dist isl t order c
  starts : ∀ c ∈ new, s0 ≤ c.start_node ∧ c.start_node < k
  sorted : new.Pairwise (fun a b => a.start_node < b.start_node)
  best : (st.min_route, st.min_loc_permutation)
    = new.foldl pick (st0.min_route, st0.min_loc_permutation)

/-- The position vector `p` (a `loc_permutation`) describes the visiting
order `order`: `p` has one entry per location, `order` has no location
twice and none outside `[0, N)`, the location at place `m` of `order` has
position `m`, and the locations that are not in `order` have position `-1`. -/
def IsTourOrder (N : Nat) (p : List Int) (order : List Nat) : Prop :=
  p.length = N ∧ order.Nodup ∧ (∀ x ∈ order, x < N) ∧
  (∀ (m x : Nat), order[m]? = some x → p.getD x (-1) = (m : Int)) ∧
  (∀ j, j < N → j ∉ order → p.getD j (-1) = -1)

/-- The tour of a logged call is complete: every location has a position. -/
def Complete (N : Nat) (c : Candidate) : Prop :=
  ∀ j, j < N → c.loc_permutation.getD j (-1) ≠ -1

/-- An oracle used in the examples: the length of a route is its number of
legs. -/
def legCount (legs : List PhantomNodes) : Int := (legs.length : Int)

/-- An example: three locations, location 2 cannot be reached from
location 1. -/
def tableA : List Int := [0, 1, 10, 1, 0, INT_MAX, 1, 1, 0]

/-- The final state of `NearestNeighbour` on `tableA` with `legCount`. -/
def resultA : NNState :=
  { is_lonely_island := [-1, -1, 1]
    min_route := { segment_end_coordinates := [⟨0, 1⟩, ⟨1, 0⟩], shortest_path_length := 2 }
    min_loc_permutation := [0, 1, -1]
    calls :=
      [ { start_node := 0, loc_permutation := [0, 1, -1],
          raw_route := { segment_end_coordinates := [⟨0, 1⟩, ⟨1, 0⟩],
                         shortest_path_length := 2 } },
        { start_node := 1, loc_permutation := [1, 0, -1],
          raw_route := { segment_end_coordinates := [⟨1, 0⟩, ⟨0, 1⟩],
                         shortest_path_length := 2 } } ] }

/-- An example: the row of location 1 consists of `0` and `INT_MAX`, and
location 1 is the nearest neighbour of location 0. -/
def tableC : List Int := [0, 1, 5, 0, 0, INT_MAX, 1, 1, 0]

/-- The final state of `NearestNeighbour` on `tableC` with `legCount`. -/
def resultC : NNState :=
  { is_lonely_island := [-1, -1, 1]
    min_route := { segment_end_coordinates := [⟨0, 1⟩, ⟨1, 0⟩], shortest_path_length := 2 }
    min_loc_permutation := [0, 1, -1]
    calls :=
      [ { start_node := 0, loc_permutation := [0, 1, -1],
          raw_route := { segment_end_coordinates := [⟨0, 1⟩, ⟨1, 0⟩],
                         shortest_path_length := 2 } },
        { start_node := 1, loc_permutation := [1, 0, -1],
          raw_route := { segment_end_coordinates := [⟨1, 0⟩, ⟨0, 1⟩],
                         shortest_path_length := 2 } } ] }

/-- An example: location 0 is cut off from locations 1 and 2 in both
directions. -/
def tableD : List Int := [0, INT_MAX, INT_MAX, INT_MAX, 0, 1, INT_MAX, 1, 0]

/-- The final state of `NearestNeighbour` on `tableD` with `legCount`. -/
def resultD : NNState :=
  { is_lonely_island := [1, -1, -1]
    min_route := { segment_end_coordinates := [⟨1, 2⟩, ⟨2, 1⟩], shortest_path_length := 2 }
    min_loc_permutation := [-1, 0, 1]
    calls :=
      [ { start_node := 1, loc_permutation := [-1, 0, 1],
          raw_route := { segment_end_coordinates := [⟨1, 2⟩, ⟨2, 1⟩],
                         shortest_path_length := 2 } },
        { start_node := 2, loc_permutation := [-1, 1, 0],
          raw_route := { segment_end_coordinates := [⟨2, 1⟩, ⟨1, 2⟩],
                         shortest_path_length := 2 } } ] }

/-- An oracle used in the examples: the length of a route is the sum of the
table entries of its legs. -/
def tableOracle (N : Nat) (dist : List Int) (legs : List PhantomNodes) : Int :=
  (legs.map (fun leg => entry N dist leg.source_phantom leg.target_phantom)).sum

/-- An example: five locations, location 3 is cut off (its row and its
column are `INT_MAX` off the diagonal), the other four reach each other. -/
def tableS : List Int :=
  [0, 2, 9, INT_MAX, 4,
   2, 0, 3, INT_MAX, 7,
   9, 3, 0, INT_MAX, 5,
   INT_MAX, INT_MAX, INT_MAX, 0, INT_MAX,
   4, 7, 5, INT_MAX, 0]

/-- An example: every entry of the row and of the column of location 2 is
`0`. -/
def tableF : List Int := [0, 1, 0, 1, 0, 0, 0, 0, 0]

/-- The final state of `NearestNeighbour` on `tableF` with `legCount`. -/
def resultF : NNState :=
  { is_lonely_island := [-1, -1, -1]
    min_route := { segment_end_coordinates := [⟨0, 2⟩, ⟨2, 1⟩, ⟨1, 0⟩],
                   shortest_path_length := 3 }
    min_loc_permutation := [0, 2, 1]
    calls :=
      [ { start_node := 0, loc_permutation := [0, 2, 1],
          raw_route := { segment_end_coordinates := [⟨0, 2⟩, ⟨2, 1⟩, ⟨1, 0⟩],
                         shortest_path_length := 3 } },
        { start_node := 1, loc_permutation := [2, 0, 1],
          raw_route := { segment_end_coordinates := [⟨1, 2⟩, ⟨2, 0⟩, ⟨0, 1⟩],
                         shortest_path_length := 3 } },
        { start_node := 2, loc_permutation := [1, 2, 0],
          raw_route := { segment_end_coordinates := [⟨2, 0⟩, ⟨0, 1⟩, ⟨1, 2⟩],
                         shortest_path_length := 3 } } ] }

/-- An example: every entry off the diagonal is `0`, the diagonal entries
are `5`. -/
def tableG : List Int := [5, 0, 0, 5]

/-- The final state of `NearestNeighbour` on `tableG` with `legCount`. -/
def resultG : NNState :=
  { is_lonely_island := [-1, -1]
    min_route := { segment_end_coordinates := [⟨0, 1⟩, ⟨1, 0⟩], shortest_path_length := 2 }
    min_loc_permutation := [0, 1]
    calls :=
      [ { start_node := 0, loc_permutation := [0, 1],
          raw_route := { segment_end_coordinates := [⟨0, 1⟩, ⟨1, 0⟩],
                         shortest_path_length := 2 } },
        { start_node := 1, loc_permutation := [1, 0],
          raw_route := { segment_end_coordinates := [⟨1, 0⟩, ⟨0, 1⟩],
                         shortest_path_length := 2 } } ] }

/-- An example: three locations, every entry is `0` or `INT_MAX`. -/
def tableH : List Int := [0, INT_MAX, 0, INT_MAX, 0, INT_MAX, 0, INT_MAX, 0]

/-- An example: the diagonal entry of location 0 is `5`, the other entries
of its row are `0` and `INT_MAX`, and its column is `INT_MAX` off the
diagonal. -/
def tableK : List Int := [5, 0, INT_MAX, INT_MAX, 0, 1, INT_MAX, 1, 0]

/-- The final state of `NearestNeighbour` on `tableK` with `legCount`. -/
def resultK : NNState :=
  { is_lonely_island := [1, -1, -1]
    min_route := { segment_end_coordinates := [⟨1, 2⟩, ⟨2, 1⟩], shortest_path_length := 2 }
    min_loc_permutation := [-1, 0, 1]
    calls :=
      [ { start_node := 0, loc_permutation := [0, 1, 2],
          raw_route := { segment_end_coordinates := [⟨0, 1⟩, ⟨1, 2⟩, ⟨2, 0⟩],
                         shortest_path_length := 3 } },
        { start_node := 1, loc_permutation := [-1, 0, 1],
          raw_route := { segment_end_coordinates := [⟨1, 2⟩, ⟨2, 1⟩],
                         shortest_path_length := 2 } },
        { start_node := 2, loc_permutation := [-1, 1, 0],
          raw_route := { segment_end_coordinates := [⟨2, 1⟩, ⟨1, 2⟩],
                         shortest_path_length := 2 } } ] }

/-- The part of a logged call that does not depend on the answer of the
oracle: the start index, the `loc_permutation` and the leg list. -/
def Candidate.tour (c : Candidate) : Nat × List Int × List PhantomNodes :=
  (c.start_node, c.loc_permutation, c.raw_route.segment_end_coordinates)

/-- The part of the state of the start loop that does not depend on the
answers of the oracle: `is_lonely_island` and the tours of the logged
calls. -/
def trace (st : NNState) : List Int × List (Nat × List Int × List PhantomNodes) :=
  (st.is_lonely_island, st.calls.map Candidate.tour)

/-- An oracle used in the examples: no path for a route whose first leg
goes from location 0 to location 1, length `2` otherwise. -/
def blockedOracle (legs : List PhantomNodes) : Int :=
  if legs.head? = some ⟨0, 1⟩ then INVALID_EDGE_WEIGHT else 2

/-- The final state of `NearestNeighbour` on `tableA` with
`blockedOracle`. -/
def resultBlocked : NNState :=
  { is_lonely_island := [-1, -1, 1]
    min_route := { segment_end_coordinates := [⟨1, 0⟩, ⟨0, 1⟩], shortest_path_length := 2 }
    min_loc_permutation := [1, 0, -1]
    calls :=
      [ { start_node := 0, loc_permutation := [0, 1, -1],
          raw_route := { segment_end_coordinates := [⟨0, 1⟩, ⟨1, 0⟩],
                         shortest_path_length := INVALID_EDGE_WEIGHT } },
        { start_node := 1, loc_permutation := [1, 0, -1],
          raw_route := { segment_end_coordinates := [⟨1, 0⟩, ⟨0, 1⟩],
                         shortest_path_length := 2 } } ] }

/-- An oracle used in the examples: every route has length `7`. -/
def constOracle (_legs : List PhantomNodes) : Int := 7

/-- An example: the tour of start 0 visits all three locations, the tours
of starts 1 and 2 end at location 2 and at location 1, from which location
0 is not reached. -/
def tableP : List Int := [0, 1, 5, 9, 0, 1, INT_MAX, 1, 0]

/-- The final state of `NearestNeighbour` on `tableP` with `constOracle`. -/
def resultP : NNState :=
  { is_lonely_island := [1, -1, -1]
    min_route := { segment_end_coordinates := [⟨0, 1⟩, ⟨1, 2⟩, ⟨2, 0⟩],
                   shortest_path_length := 7 }
    min_loc_permutation := [0, 1, 2]
    calls :=
      [ { start_node := 0, loc_permutation := [0, 1, 2],
          raw_route := { segment_end_coordinates := [⟨0, 1⟩, ⟨1, 2⟩, ⟨2, 0⟩],
                         shortest_path_length := 7 } },
        { start_node := 1, loc_permutation := [-1, 0, 1],
          raw_route := { segment_end_coordinates := [⟨1, 2⟩, ⟨2, 1⟩],
                         shortest_path_length := 7 } },
        { start_node := 2, loc_permutation := [-1, 1, 0],
          raw_route := { segment_end_coordinates := [⟨2, 1⟩, ⟨1, 2⟩],
                         shortest_path_length := 7 } } ] }

/-- The state of the start loop on `tableA` with `legCount` after the
iteration of start 0, which has marked location 2 as a lonely island. -/
def stateA1 : NNState :=
  { is_lonely_island := [-1, -1, 1]
    min_route := { segment_end_coordinates := [⟨0, 1⟩, ⟨1, 0⟩], shortest_path_length := 2 }
    min_loc_permutation := [0, 1, -1]
    calls :=
      [ { start_node := 0, loc_permutation := [0, 1, -1],
          raw_route := { segment_end_coordinates := [⟨0, 1⟩, ⟨1, 0⟩],
                         shortest_path_length := 2 } } ] }

/-- An example: four locations that all reach each other, with a symmetric
table. -/
def tableT : List Int := [0, 1, 2, 3, 1, 0, 4, 5, 2, 4, 0, 6, 3, 5, 6, 0]

/-- The final state of `NearestNeighbour` on `tableT` with the oracle
`tableOracle 4 tableT`. -/
def resultT : NNState :=
  { is_lonely_island := [-1, -1, -1, -1]
    min_route := { segment_end_coordinates := [⟨0, 1⟩, ⟨1, 2⟩, ⟨2, 3⟩, ⟨3, 0⟩],
                   shortest_path_length := 14 }
    min_loc_permutation := [0, 1, 2, 3]
    calls :=
      [ { start_node := 0, loc_permutation := [0, 1, 2, 3],
          raw_route := { segment_end_coordinates := [⟨0, 1⟩, ⟨1, 2⟩, ⟨2, 3⟩, ⟨3, 0⟩],
                         shortest_path_length := 14 } },
        { start_node := 1, loc_permutation := [1, 0, 2, 3],
          raw_route := { segment_end_coordinates := [⟨1, 0⟩, ⟨0, 2⟩, ⟨2, 3⟩, ⟨3, 1⟩],
                         shortest_path_length := 14 } },
        { start_node := 2, loc_permutation := [1, 2, 0, 3],
          raw_route := { segment_end_coordinates := [⟨2, 0⟩, ⟨0, 1⟩, ⟨1, 3⟩, ⟨3, 2⟩],
                         shortest_path_length := 14 } },
        { start_node := 3, loc_permutation := [1, 2, 3, 0],
          raw_route := { segment_end_coordinates := [⟨3, 0⟩, ⟨0, 1⟩, ⟨1, 2⟩, ⟨2, 3⟩],
                         shortest_path_length := 14 } } ] }

/-- The state of the via-point loop on `tableA` for start 0 after its first
iteration: locations 0 and 1 are visited, location 2 has unknown status. -/
def tourA1 : TourState :=
  { is_lonely_island := [-1, -1, 0]
    loc_permutation := [0, 1, -1]
    visited := [true, true, false]
    segment_end_coordinates := [⟨0, 1⟩]
    curr_node := 1 }

/-- The state of the start loop on `tableP` with `constOracle` after the
iteration of start 0, whose tour has visited all three locations. -/
def stateP1 : NNState :=
  { is_lonely_island := [-1, -1, -1]
    min_route := { segment_end_coordinates := [⟨0, 1⟩, ⟨1, 2⟩, ⟨2, 0⟩],
                   shortest_path_length := 7 }
    min_loc_permutation := [0, 1, 2]
    calls :=
      [ { start_node := 0, loc_permutation := [0, 1, 2],
          raw_route := { segment_end_coordinates := [⟨0, 1⟩, ⟨1, 2⟩, ⟨2, 0⟩],
                         shortest_path_length := 7 } } ] }

/-- An example: two locations; location 1 reaches location 0 with cost `5`,
location 0 does not reach location 1. -/
def tableU : List Int := [0, INT_MAX, 5, 0]

/-- The state of the start loop on `tableU` when the turn of start 1 comes:
start 0 has been marked as a lonely island by the start check. -/
def stateU1 : NNState :=
  { is_lonely_island := [1, 0]
    min_route := { segment_end_coordinates := [], shortest_path_length := INT_MAX }
    min_loc_permutation := []
    calls := [] }

/-! ## `PBFDescriptor::Run`

The embedding of `PBFDescriptor::Run` (`Descriptors/ProtobufDescriptor.h`).
The description factories, the facade, `GenerateRouteNames` and
`EncodeObjectToBase64` are declared in other headers (`Descriptor.h` and
the headers it includes); what they yield is a parameter of the embedding. A
`Description` stands for a `DescriptionFactory` after it has been fed and
run (lines 107-127 for the main route, lines 186-196 for the alternative).
Points carry the fixed-point coordinates; the division by
`COORDINATE_PRECISION` is not modelled. -/

/-- The fields of a `PhantomNode` that `PBFDescriptor::Run` reads. -/
structure PBF.PhantomNode where
  name_id : Nat
  lat : Int
  lon : Int
deriving DecidableEq, Repr

/-- One leg of a raw route. -/
structure PBF.PhantomNodes where
  source_phantom : PBF.PhantomNode
  target_phantom : PBF.PhantomNode
deriving DecidableEq, Repr

/-- The fields of `RawRouteData` that `PBFDescriptor::Run` reads itself. -/
structure PBF.RawRouteData where
  segment_end_coordinates : List PBF.PhantomNodes
  shortest_path_length : Int
  alternative_path_length : Int
  check_sum : Nat
deriving DecidableEq, Repr

/-- One instruction as `Descriptor::BuildTextualDescription` yields it. -/
structure PBF.Instruction where
  instructionId : String
  streetName : String
  length : Int
  position : Nat
  time : Int
  lengthStr : String
  earthDirection : String
  azimuth : Int
deriving DecidableEq, Repr

/-- What a description factory yields after `Run`: the encoded geometry, the
instructions built from it, the summary that `BuildRouteSummary` computes,
and the via indices. -/
structure PBF.Description where
  geometry : String
  instructions : List PBF.Instruction
  distance : Nat
  duration : Nat
  source_name_id : Nat
  target_name_id : Nat
  via_indices : List Nat
deriving DecidableEq, Repr

/-- The result of `GenerateRouteNames`. -/
structure PBF.RouteNames where
  shortest_path_name_1 : String
  shortest_path_name_2 : String
  alternative_path_name_1 : String
  alternative_path_name_2 : String
deriving DecidableEq, Repr

/-- The message `protobufResponse::RouteInstructions`. -/
structure PBF.RouteInstructions where
  instruction_id : String
  street_name : String
  length : Int
  position : Nat
  time : Int
  length_str : String
  earth_direction : String
  azimuth : Int
deriving DecidableEq, Repr

/-- The message `protobufResponse::RouteSummary`. -/
structure PBF.RouteSummary where
  total_distance : Nat
  total_time : Nat
  start_point : String
  end_point : String
deriving DecidableEq, Repr

/-- The message `protobufResponse::Point`. -/
structure PBF.Point where
  lat : Int
  lon : Int
deriving DecidableEq, Repr

/-- The message `protobufResponse::Route`. -/
structure PBF.Route where
  route_geometry : Option String
  route_instructions : List PBF.RouteInstructions
  route_summary : Option PBF.RouteSummary
  via_points : List PBF.Point
  via_indices : List Nat
  route_name : List String
deriving DecidableEq, Repr

/-- The message `protobufResponse::Hint`. -/
structure PBF.Hint where
  check_sum : Nat
  location : List String
deriving DecidableEq, Repr

/-- The message `protobufResponse::Response`. -/
structure PBF.Response where
  status : Option Nat
  status_message : Option String
  main_route : Option PBF.Route
  alternative_route : Option PBF.Route
  hint : Option PBF.Hint
deriving DecidableEq, Repr

/-- The part of the descriptor configuration that `Run` tests. -/
structure PBF.Config where
  geometry : Bool
  instructions : Bool
deriving DecidableEq, Repr

/-- A freshly constructed `protobufResponse::Route`. -/
def PBF.Route.empty : PBF.Route :=
  { route_geometry := none, route_instructions := [], route_summary := none,
    via_points := [], via_indices := [], route_name := [] }

/-- Lines 39-60: `AddInstructionToRoute`. -/
def PBF.AddInstructionToRoute (route : PBF.Route) (i : PBF.Instruction) : PBF.Route :=
  { route with
    route_instructions := route.route_instructions ++
      [{ instruction_id := i.instructionId, street_name := i.streetName,
         length := i.length, position := i.position, time := i.time,
         length_str := i.lengthStr, earth_direction := i.earthDirection,
         azimuth := i.azimuth }] }

/-- Lines 62-80: `BuildTextualDescription`, given the instructions that
`Descriptor::BuildTextualDescription` yields. -/
def PBF.BuildTextualDescription (instructions : List PBF.Instruction)
    (route : PBF.Route) : PBF.Route :=
  instructions.foldl PBF.AddInstructionToRoute route

/-- Lines 145-150 and 216-223: the summary message of a description. -/
def PBF.summaryOf (GetEscapedNameForNameID : Nat → String) (d : PBF.Description) :
    PBF.RouteSummary :=
  { total_distance := d.distance
    total_time := d.duration
    start_point := GetEscapedNameForNameID d.source_name_id
    end_point := GetEscapedNameForNameID d.target_name_id }

/-- Lines 126-176: the local `mainRoute` as it is when line 182 is reached,
`first` being `segment_end_coordinates.front()`. -/
def PBF.mainRouteOf (config : PBF.Config) (GetEscapedNameForNameID : Nat → String)
    (raw_route : PBF.RawRouteData) (first : PBF.PhantomNodes) (main : PBF.Description) :
    PBF.Route :=
  let mainRoute := PBF.Route.empty
  let mainRoute :=
    if config.geometry then { mainRoute with route_geometry := some main.geometry }
    else mainRoute
  let mainRoute :=
    if config.instructions then PBF.BuildTextualDescription main.instructions mainRoute
    else mainRoute
  let routeSummary := PBF.summaryOf GetEscapedNameForNameID main
  let mainRoute := { mainRoute with route_summary := some routeSummary }
  let mainRoute := { mainRoute with
    via_points := mainRoute.via_points ++
      [(⟨first.source_phantom.lat, first.source_phantom.lon⟩ : PBF.Point)] }
  let mainRoute := { mainRoute with
    via_points := mainRoute.via_points ++
      raw_route.segment_end_coordinates.map
        (fun (nodes : PBF.PhantomNodes) =>
          (⟨nodes.target_phantom.lat, nodes.target_phantom.lon⟩ : PBF.Point)) }
  { mainRoute with via_indices := mainRoute.via_indices ++ main.via_indices }

/-- Lines 184-234: the local `alternativeRoute` as it is when line 236 is
reached. Line 224 copies `routeSummary`, the summary of the main route,
into it; `alternativeRouteSummary` is built and not used. -/
def PBF.alternativeRouteOf (config : PBF.Config) (GetEscapedNameForNameID : Nat → String)
    (main alt : PBF.Description) (route_names : PBF.RouteNames) : PBF.Route :=
  let alternativeRoute := PBF.Route.empty
  let alternativeRoute :=
    if config.geometry then { alternativeRoute with route_geometry := some alt.geometry }
    else alternativeRoute
  let alternativeRoute :=
    if config.instructions then
      PBF.BuildTextualDescription alt.instructions alternativeRoute
    else alternativeRoute
  let routeSummary := PBF.summaryOf GetEscapedNameForNameID main
  let alternativeRoute := { alternativeRoute with route_summary := some routeSummary }
  let alternativeRoute := { alternativeRoute with
    via_indices := alternativeRoute.via_indices ++ alt.via_indices }
  { alternativeRoute with
    route_name := alternativeRoute.route_name ++
      [route_names.alternative_path_name_1, route_names.alternative_path_name_2] }

/-- Lines 242-251: the hint message; `encode` stands for the string that
`EncodeObjectToBase64` leaves in `res`. -/
def PBF.hintOf (encode : PBF.PhantomNode → String) (raw_route : PBF.RawRouteData)
    (last : PBF.PhantomNodes) : PBF.Hint :=
  { check_sum := raw_route.check_sum
    location := raw_route.segment_end_coordinates.map (fun n => encode n.source_phantom)
      ++ [encode last.target_phantom] }

/-- What `PBFDescriptor::Run` leaves behind: the response that is
serialised, and the local `alternativeRoute`, which lines 184-234 build when
there is an alternative and which the function does not read afterwards. -/
structure PBF.RunResult where
  response : PBF.Response
  alternativeRoute : Option PBF.Route
deriving DecidableEq, Repr

/-- Lines 86-260: `PBFDescriptor::Run`, up to the serialisation of the
response. `main` and `alt` are the two description factories after they have
been run. The result is `none` when `front()` or `back()` is read on an
empty `segment_end_coordinates`. Line 236 copies the local `mainRoute` into
`alternative_route` of the response. -/
def PBF.Run (config : PBF.Config) (GetEscapedNameForNameID : Nat → String)
    (encode : PBF.PhantomNode → String) (raw_route : PBF.RawRouteData)
    (main alt : PBF.Description) (route_names : PBF.RouteNames) : Option PBF.RunResult :=
  if INVALID_EDGE_WEIGHT = raw_route.shortest_path_length then
    some { response :=
             { status := some 207
               status_message := some "Cannot find route between points"
               main_route := none, alternative_route := none, hint := none }
           alternativeRoute := none }
  else
    match raw_route.segment_end_coordinates.head?,
        raw_route.segment_end_coordinates.getLast? with
    | some first, some last =>
      let mainRoute := PBF.mainRouteOf config GetEscapedNameForNameID raw_route first main
      let alternative : Option PBF.Route × Option PBF.Route :=
        if INVALID_EDGE_WEIGHT ≠ raw_route.alternative_path_length then
          (some (PBF.alternativeRouteOf config GetEscapedNameForNameID main alt route_names),
            some mainRoute)
        else (none, none)
      let mainRoute := { mainRoute with
        route_name := mainRoute.route_name ++
          [route_names.shortest_path_name_1, route_names.shortest_path_name_2] }
      some { response :=
               { status := some 0
                 status_message := some "Found route between points"
                 main_route := some mainRoute
                 alternative_route := alternative.2
                 hint := some (PBF.hintOf encode raw_route last) }
             alternativeRoute := alternative.1 }
    | _, _ => none

/-- An example configuration: geometry and instructions are requested. -/
def PBF.exampleConfig : PBF.Config := { geometry := true, instructions := true }

/-- An example name table of the facade. -/
def PBF.exampleName (name_id : Nat) : String :=
  if name_id = 1 then "First Street" else if name_id = 2 then "Second Street"
  else "Third Street"

/-- An example encoder of phantom nodes. -/
def PBF.exampleEncode (node : PBF.PhantomNode) : String :=
  if node.name_id = 1 then "hint-1" else "hint-2"

/-- An example raw route: one leg, a shortest path of length `100` and an
alternative path of length `150`. -/
def PBF.exampleRaw : PBF.RawRouteData :=
  { segment_end_coordinates := [⟨⟨1, 10, 20⟩, ⟨2, 30, 40⟩⟩]
    shortest_path_length := 100
    alternative_path_length := 150
    check_sum := 7 }

/-- The description of the shortest path of the example. -/
def PBF.exampleMain : PBF.Description :=
  { geometry := "main-geometry"
    instructions := [⟨"10", "First Street", 1000, 0, 100, "1000m", "N", 0⟩]
    distance := 1000, duration := 100
    source_name_id := 1, target_name_id := 2
    via_indices := [0, 5] }

/-- The description of the alternative path of the example. -/
def PBF.exampleAlt : PBF.Description :=
  { geometry := "alternative-geometry"
    instructions := [⟨"10", "Third Street", 1500, 0, 150, "1500m", "E", 90⟩]
    distance := 1500, duration := 150
    source_name_id := 3, target_name_id := 2
    via_indices := [0, 9] }

/-- The route names of the example. -/
def PBF.exampleNames : PBF.RouteNames :=
  { shortest_path_name_1 := "First Street", shortest_path_name_2 := "Second Street"
    alternative_path_name_1 := "Third Street", alternative_path_name_2 := "Second Street" }

/-- The route that the response of the example carries as
`alternative_route`. -/
def PBF.exampleCarried : PBF.Route :=
  { route_geometry := some "main-geometry"
    route_instructions := [⟨"10", "First Street", 1000, 0, 100, "1000m", "N", 0⟩]
    route_summary := some ⟨1000, 100, "First Street", "Second Street"⟩
    via_points := [⟨10, 20⟩, ⟨30, 40⟩]
    via_indices := [0, 5]
    route_name := [] }

/-- The local `alternativeRoute` of the example. -/
def PBF.exampleLocal : PBF.Route :=
  { route_geometry := some "alternative-geometry"
    route_instructions := [⟨"10", "Third Street", 1500, 0, 150, "1500m", "E", 90⟩]
    route_summary := some ⟨1000, 100, "First Street", "Second Street"⟩
    via_points := []
    via_indices := [0, 9]
    route_name := ["Third Street", "Second Street"] }

/-! ## `RoundTripPlugin::HandleRequest`

The embedding of `HandleRequest` (`plugins/round_trip.hpp`, lines 200-268).
`check_all_coordinates`, the facade, the search engine and the JSON
descriptor are declared in other headers (`plugin_base.hpp`,
`search_engine.hpp`, `json_descriptor.hpp`);
they are the fields of `Collaborators`. A phantom node is an opaque
handle here (a number). The calls of the collaborators are recorded, in
order, in `HandleResult.events`. The value of `TIMER_MSEC` is a field of
`Collaborators`; the two log lines are not modelled. -/

/-- A value that `HandleRequest` stores in `json_result.values`. -/
inductive JsonValue where
  | number (n : Int)
  | array (values : List Int)
  | text (s : String)
deriving DecidableEq, Repr

/-- The assignment `json_result.values[key] = value`. -/
def assignValue (values : List (String × JsonValue)) (key : String) (value : JsonValue) :
    List (String × JsonValue) :=
  values.filter (fun kv => kv.1 != key) ++ [(key, value)]

/-- The request: the members of `RouteParameters` that `HandleRequest`
reads. -/
structure RouteParameters where
  coordinates : List (Int × Int)
  hints : List String
  check_sum : Nat
deriving DecidableEq, Repr

/-- The functions that `HandleRequest` calls and that are defined
elsewhere. `shortest_path` receives `phantom_node_vector` and the legs as
pairs of location indices. -/
structure Collaborators where
  check_all_coordinates : List (Int × Int) → Bool
  GetCheckSum : Nat
  GetNumberOfNodes : Nat
  DecodeFromBase64 : String → Nat
  is_valid : Nat → Nat → Bool
  IncrementalFindPhantomNodeForCoordinate : (Int × Int) → List Nat
  distance_table : List (List Nat) → Option (List Int)
  shortest_path : List (List Nat) → List PhantomNodes → Int
  descriptor_Run : InternalRouteResult → List (String × JsonValue) →
    List (String × JsonValue)
  timer_msec : Int

/-- A call of a collaborator. -/
inductive Event where
  | decodeHint (i : Nat)
  | findPhantomNode (i : Nat)
  | distanceTable
  | nearestNeighbour
  | describe
deriving DecidableEq, Repr

/-- What a call of `HandleRequest` leaves behind: the status it returns,
`json_result`, and the calls of collaborators it has made. -/
structure HandleResult where
  status : Int
  json_result : List (String × JsonValue)
  events : List Event
deriving DecidableEq, Repr

/-- Lines 226-231: the phantom nodes found for coordinate `i`, without the
first one when there are several. -/
def lookupPhantom (facade : Collaborators) (route_parameters : RouteParameters)
    (i : Nat) : List Nat :=
  let found := facade.IncrementalFindPhantomNodeForCoordinate
    (route_parameters.coordinates.getD i (0, 0))
  if 1 < found.length then found.tail else found

/-- Lines 213-232: the body of the loop over the coordinates; `acc` is
`phantom_node_vector` and the calls made so far. -/
def phantomStep (facade : Collaborators) (route_parameters : RouteParameters)
    (checksum_OK : Bool) (acc : List (List Nat) × List Event) (i : Nat) :
    List (List Nat) × List Event :=
  if checksum_OK = true ∧ i < route_parameters.hints.length
      ∧ route_parameters.hints.getD i "" ≠ "" then
    let current_phantom_node := facade.DecodeFromBase64 (route_parameters.hints.getD i "")
    if facade.is_valid current_phantom_node facade.GetNumberOfNodes = true then
      (acc.1.set i ((acc.1.getD i []) ++ [current_phantom_node]),
        acc.2 ++ [Event.decodeHint i])
    else
      (acc.1.set i ((acc.1.getD i []) ++ lookupPhantom facade route_parameters i),
        acc.2 ++ [Event.decodeHint i, Event.findPhantomNode i])
  else
    (acc.1.set i ((acc.1.getD i []) ++ lookupPhantom facade route_parameters i),
      acc.2 ++ [Event.findPhantomNode i])

/-- Lines 208-233: `phantom_node_vector` after the loop over the
coordinates, and the calls of collaborators made by the loop. -/
def findPhantoms (facade : Collaborators) (route_parameters : RouteParameters) :
    List (List Nat) × List Event :=
  let checksum_OK : Bool := route_parameters.check_sum == facade.GetCheckSum
  (List.range route_parameters.coordinates.length).foldl
    (phantomStep facade route_parameters checksum_OK)
    (List.replicate route_parameters.coordinates.length [], [])

/-- Lines 200-268: `RoundTripPlugin::HandleRequest`. The result is `none`
when the call has no defined result. That is the case when a lookup of
lines 226-231 has found no phantom node, so that `phantom_node_vector[i]` is
empty: line 232 reads its `front()`, and lines 170 and 177 read its element
`[0]` (an entry filled from a hint is never empty, so an empty entry after
the loop is one that a lookup left empty). It is also the case when
`NearestNeighbour` has no defined result. -/
def HandleRequest (facade : Collaborators) (route_parameters : RouteParameters)
    (json_result : List (String × JsonValue)) : Option HandleResult :=
  if facade.check_all_coordinates route_parameters.coordinates = false then
    some { status := 400, json_result := json_result, events := [] }
  else
    let found := findPhantoms facade route_parameters
    let phantom_node_vector := found.1
    if [] ∈ phantom_node_vector then none else
    match facade.distance_table phantom_node_vector with
    | none =>
      some { status := 400, json_result := json_result
             events := found.2 ++ [Event.distanceTable] }
    | some result_table =>
      match NearestNeighbour (facade.shortest_path phantom_node_vector)
          phantom_node_vector.length result_table InternalRouteResult.default [] with
      | none => none
      | some r =>
        let json_result := facade.descriptor_Run r.min_route json_result
        let json_result := assignValue json_result "nn_loc_permutation"
          (JsonValue.array r.min_loc_permutation)
        let json_result := assignValue json_result "nn_distance"
          (JsonValue.number r.min_route.shortest_path_length)
        let json_result := assignValue json_result "nn_runtime"
          (JsonValue.number facade.timer_msec)
        some { status := 200, json_result := json_result
               events := found.2 ++
                 [Event.distanceTable, Event.nearestNeighbour, Event.describe] }

/-- An example of collaborators: every coordinate list is accepted, the
phantom node found for a coordinate is its latitude, the distance table is
`tableU` whatever the phantom nodes are, every route has length `7`, and
the descriptor writes nothing. -/
def facadeU : Collaborators :=
  { check_all_coordinates := fun _ => true
    GetCheckSum := 0
    GetNumberOfNodes := 100
    DecodeFromBase64 := fun _ => 0
    is_valid := fun _ _ => true
    IncrementalFindPhantomNodeForCoordinate := fun c => [c.1.toNat]
    distance_table := fun _ => some tableU
    shortest_path := fun _ _ => 7
    descriptor_Run := fun _ json_result => json_result
    timer_msec := 0 }

/-- An example request: two coordinates, no hints. -/
def requestU : RouteParameters :=
  { coordinates := [(1, 1), (2, 2)], hints := [], check_sum := 0 }

/-! ## Vector reads and writes -/

theorem getD_set {α : Type} (l : List α) (i j : Nat) (a d : α) :
    (l.set i a).getD j d = if i = j ∧ i < l.length then a else l.getD j d := by
  simp only [List.getD_eq_getElem?_getD, List.getElem?_set]
  by_cases h : i = j
  · subst h
    by_cases h2 : i < l.length
    · simp [h2]
    · have h3 : l[i]? = none := by simp; omega
      simp [h2, h3]
  · simp [h]

theorem getD_set_ne {α : Type} (l : List α) (i j : Nat) (a d : α) (h : i ≠ j) :
    (l.set i a).getD j d = l.getD j d := by
  rw [getD_set]; simp [h]

theorem getD_set_self {α : Type} (l : List α) (i : Nat) (a d : α) (h : i < l.length) :
    (l.set i a).getD i d = a := by
  rw [getD_set]; simp [h]

theorem getD_replicate_lt {α : Type} (n j : Nat) (a d : α) (h : j < n) :
    (List.replicate n a).getD j d = a := by
  simp [List.getD_eq_getElem?_getD, List.getElem?_replicate, h]

/-! ## The body of the start loop -/

/-- The body of the start loop with the nested tests of lines 107-123
written as one chain. -/
theorem tryStart_flat (oracle : List PhantomNodes → Int) (N : Nat) (dist : List Int)
    (st : NNState) (start : Nat) :
    tryStart oracle N dist st start =
      if 0 ≤ st.is_lonely_island.getD start 0 ∧ st.is_lonely_island.getD start 0 ≠ 0 then
        some st
      else if 0 ≤ st.is_lonely_island.getD start 0
          ∧ N ≤ countUnreachables N dist start then
        some { st with is_lonely_island := st.is_lonely_island.set start 1 }
      else buildTour oracle N dist st start := by
  unfold tryStart
  by_cases h0 : 0 ≤ st.is_lonely_island.getD start 0
  · by_cases h1 : st.is_lonely_island.getD start 0 ≠ 0
    · rw [if_pos h0, if_pos h1, if_pos ⟨h0, h1⟩]
    · by_cases h2 : N ≤ countUnreachables N dist start
      · rw [if_pos h0, if_neg h1, if_pos h2, if_neg (fun hc => h1 hc.2), if_pos ⟨h0, h2⟩]
      · rw [if_pos h0, if_neg h1, if_neg h2, if_neg (fun hc => h1 hc.2),
          if_neg (fun hc => h2 hc.2)]
  · rw [if_neg h0, if_neg (fun hc => h0 hc.1), if_neg (fun hc => h0 hc.1)]

/-! ## The start check -/

theorem countUnreachables_aux (N : Nat) (dist : List Int) (start n : Nat) :
    (List.range n).foldl (countStep N dist start) 0 ≤ n ∧
    ((List.range n).foldl (countStep N dist start) 0 = n ↔
      ∀ j, j < n → (entry N dist start j = 0 ∨ entry N dist start j = INT_MAX)) := by
  induction n with
  | zero => simp
  | succ n ih =>
    rw [List.range_succ, List.foldl_append]
    simp only [List.foldl_cons, List.foldl_nil]
    obtain ⟨hle, hiff⟩ := ih
    by_cases hs : entry N dist start n = 0 ∨ entry N dist start n = INT_MAX
    · have hstep : countStep N dist start ((List.range n).foldl (countStep N dist start) 0) n
          = (List.range n).foldl (countStep N dist start) 0 + 1 := by
        unfold countStep; rw [if_pos hs]
      rw [hstep]
      refine ⟨by omega, ?_⟩
      constructor
      · intro h j hj
        have h1 : (List.range n).foldl (countStep N dist start) 0 = n := by omega
        rcases Nat.lt_succ_iff_lt_or_eq.mp hj with h2 | h2
        · exact hiff.mp h1 j h2
        · rw [h2]; exact hs
      · intro h
        have h1 := hiff.mpr (fun j hj => h j (Nat.lt_succ_of_lt hj))
        omega
    · have hstep : countStep N dist start ((List.range n).foldl (countStep N dist start) 0) n
          = (List.range n).foldl (countStep N dist start) 0 := by
        unfold countStep; rw [if_neg hs]
      rw [hstep]
      refine ⟨by omega, ?_⟩
      constructor
      · intro h; omega
      · intro h; exact absurd (h n (Nat.lt_succ_self n)) hs

/-- The start check succeeds exactly when the whole row, the diagonal entry
included, consists of `0` and `INT_MAX`. -/
theorem countUnreachables_ge_iff (N : Nat) (dist : List Int) (start : Nat) :
    N ≤ countUnreachables N dist start ↔
      ∀ j, j < N → (entry N dist start j = 0 ∨ entry N dist start j = INT_MAX) := by
  obtain ⟨hle, hiff⟩ := countUnreachables_aux N dist start N
  unfold countUnreachables
  rw [← hiff]
  omega

/-! ## The nearest-neighbour scan -/

theorem findNearest_aux (N : Nat) (dist : List Int) (isl : List Int) (vis : List Bool)
    (curr n : Nat) :
    NearestSpec N dist isl vis curr n
      ((List.range n).foldl (nearestStep N dist isl vis curr) (INT_MAX, -1)) := by
  induction n with
  | zero => left; simp
  | succ n ih =>
    rw [List.range_succ, List.foldl_append]
    simp only [List.foldl_cons, List.foldl_nil]
    generalize (List.range n).foldl (nearestStep N dist isl vis curr) (INT_MAX, -1) = acc at ih
    unfold nearestStep
    rcases ih with ⟨hacc, hnone⟩ | ⟨k, hk, hacc, hisl, hvis, hlt, hmin, hfirst⟩
    · by_cases hc : isl.getD n 0 < 1 ∧ vis.getD n false = false ∧ entry N dist curr n < acc.1
      · rw [if_pos hc]
        right
        refine ⟨n, Nat.lt_succ_self n, rfl, hc.1, hc.2.1, ?_, ?_, ?_⟩
        · have := hc.2.2; rw [hacc] at this; exact this
        · intro j hj hji hjv
          rcases Nat.lt_succ_iff_lt_or_eq.mp hj with h2 | h2
          · have := hnone j h2
            have h3 : ¬ entry N dist curr j < INT_MAX := fun h => this ⟨hji, hjv, h⟩
            have h4 := hc.2.2; rw [hacc] at h4
            simp only at h4
            omega
          · rw [h2]
        · intro j hj hji hjv
          have := hnone j hj
          have h3 : ¬ entry N dist curr j < INT_MAX := fun h => this ⟨hji, hjv, h⟩
          have h4 := hc.2.2; rw [hacc] at h4
          simp only at h4
          omega
      · rw [if_neg hc]
        left
        refine ⟨hacc, ?_⟩
        intro j hj
        rcases Nat.lt_succ_iff_lt_or_eq.mp hj with h2 | h2
        · exact hnone j h2
        · rw [h2]; rw [hacc] at hc; exact hc
    · by_cases hc : isl.getD n 0 < 1 ∧ vis.getD n false = false ∧ entry N dist curr n < acc.1
      · rw [if_pos hc]
        right
        have h4 := hc.2.2; rw [hacc] at h4; simp only at h4
        refine ⟨n, Nat.lt_succ_self n, rfl, hc.1, hc.2.1, by omega, ?_, ?_⟩
        · intro j hj hji hjv
          rcases Nat.lt_succ_iff_lt_or_eq.mp hj with h2 | h2
          · have := hmin j h2 hji hjv; omega
          · rw [h2]
        · intro j hj hji hjv
          have := hmin j hj hji hjv; omega
      · rw [if_neg hc]
        right
        refine ⟨k, Nat.lt_succ_of_lt hk, hacc, hisl, hvis, hlt, ?_, hfirst⟩
        intro j hj hji hjv
        rcases Nat.lt_succ_iff_lt_or_eq.mp hj with h2 | h2
        · exact hmin j h2 hji hjv
        · rw [h2]
          rw [hacc] at hc
          simp only at hc
          by_contra hcon
          exact hc ⟨by rw [← h2]; exact hji, by rw [← h2]; exact hjv, by omega⟩

/-- The result of the scan of row `curr`: either nothing was found and no
index is eligible, or the index found is eligible, has the smallest entry
among the eligible ones and is the lowest index with that entry. -/
theorem findNearest_spec (N : Nat) (dist : List Int) (isl : List Int) (vis : List Bool)
    (curr : Nat) :
    NearestSpec N dist isl vis curr N (findNearest N dist isl vis curr) :=
  findNearest_aux N dist isl vis curr N

/-! ## The marking loop -/

theorem markUnvisited_aux (vis : List Bool) (isl : List Int) (n : Nat) :
    ((List.range n).foldl (markStep vis) isl).length = isl.length ∧
    ∀ j, ((List.range n).foldl (markStep vis) isl).getD j 0 =
      if j < n ∧ j < isl.length ∧ vis.getD j false = false then 1 else isl.getD j 0 := by
  induction n with
  | zero => simp
  | succ n ih =>
    rw [List.range_succ, List.foldl_append]
    simp only [List.foldl_cons, List.foldl_nil]
    obtain ⟨hlen, hget⟩ := ih
    generalize (List.range n).foldl (markStep vis) isl = cur at hlen hget
    unfold markStep
    by_cases hv : vis.getD n false = false
    · rw [if_pos hv]
      refine ⟨by simp [hlen], ?_⟩
      intro j
      rw [getD_set, hget j, hlen]
      by_cases hj : n = j
      · subst hj
        by_cases hl : n < isl.length
        · rw [if_pos ⟨rfl, hl⟩, if_pos ⟨Nat.lt_succ_self n, hl, hv⟩]
        · rw [if_neg (fun h => hl h.2), if_neg (fun h => hl h.2.1), if_neg (fun h => hl h.2.1)]
      · rw [if_neg (fun h => hj h.1)]
        have hiff : (j < n + 1) ↔ j < n := by omega
        simp only [hiff]
    · rw [if_neg hv]
      refine ⟨hlen, ?_⟩
      intro j
      rw [hget j]
      by_cases hj : j = n
      · subst hj
        rw [if_neg (fun h => hv h.2.2), if_neg (fun h => hv h.2.2)]
      · have hiff : (j < n + 1) ↔ j < n := by omega
        simp only [hiff]

theorem markUnvisited_length (vis : List Bool) (isl : List Int) :
    (markUnvisited vis isl).length = isl.length :=
  (markUnvisited_aux vis isl vis.length).1

theorem markUnvisited_getD (vis : List Bool) (isl : List Int) (j : Nat)
    (h : vis.length = isl.length) :
    (markUnvisited vis isl).getD j 0 =
      if j < isl.length ∧ vis.getD j false = false then 1 else isl.getD j 0 := by
  unfold markUnvisited
  rw [(markUnvisited_aux vis isl vis.length).2 j, h]
  by_cases hj : j < isl.length <;> simp [hj]

/-! ## The via-point loop -/

theorem consecutiveLegs_concat (order : List Nat) (c j : Nat)
    (h : order.getLast? = some c) :
    consecutiveLegs (order ++ [j]) = consecutiveLegs order ++ [⟨c, j⟩] := by
  induction order with
  | nil => simp at h
  | cons a rest ih =>
    cases rest with
    | nil =>
      simp at h
      subst h
      simp [consecutiveLegs]
    | cons b rest2 =>
      have h2 : (b :: rest2).getLast? = some c := by
        rw [List.getLast?_cons_cons] at h; exact h
      show (⟨a, b⟩ : PhantomNodes) :: consecutiveLegs (b :: rest2 ++ [j]) = _
      rw [ih h2]
      rfl

theorem consecutiveLegs_length (order : List Nat) :
    (consecutiveLegs order).length = order.length - 1 := by
  induction order with
  | nil => simp [consecutiveLegs]
  | cons a rest ih =>
    cases rest with
    | nil => simp [consecutiveLegs]
    | cons b rest2 =>
      simp only [consecutiveLegs, List.length_cons] at ih ⊢
      omega

theorem TourInv.ne_nil {N : Nat} {dist : List Int} {start : Nat} {isl0 : List Int}
    {s : TourState} {order : List Nat} (h : TourInv N dist start isl0 s order) :
    order ≠ [] := by
  intro hnil
  have := h.head
  rw [hnil] at this
  simp at this

theorem TourInv.curr_mem {N : Nat} {dist : List Int} {start : Nat} {isl0 : List Int}
    {s : TourState} {order : List Nat} (h : TourInv N dist start isl0 s order) :
    s.curr_node ∈ order :=
  List.mem_of_getLast?_eq_some h.last

theorem TourInv.start_mem {N : Nat} {dist : List Int} {start : Nat} {isl0 : List Int}
    {s : TourState} {order : List Nat} (h : TourInv N dist start isl0 s order) :
    start ∈ order :=
  List.mem_of_mem_head? h.head

/-- One successful iteration of the via-point loop keeps the invariant. -/
theorem TourInv.via_step {N : Nat} {dist : List Int} {start : Nat} {isl0 : List Int}
    {s : TourState} {order : List Nat} (h : TourInv N dist start isl0 s order)
    (hkeep : ∀ j, j ∉ order → s.is_lonely_island.getD j 0 = isl0.getD j 0)
    (k : Nat) (hk : k < N) (hisl : s.is_lonely_island.getD k 0 < 1)
    (hvis : s.visited.getD k false = false)
    (hlt : entry N dist s.curr_node k < INT_MAX) :
    TourInv N dist start isl0
      { is_lonely_island := s.is_lonely_island.set k (-1)
        loc_permutation := s.loc_permutation.set k (order.length : Int)
        visited := s.visited.set k true
        segment_end_coordinates := s.segment_end_coordinates ++ [⟨s.curr_node, k⟩]
        curr_node := k } (order ++ [k]) ∧
    (∀ j, j ∉ order ++ [k] → (s.is_lonely_island.set k (-1)).getD j 0 = isl0.getD j 0) := by
  have hknot : k ∉ order := by
    intro hmem
    have := (h.vis k hk).mpr hmem
    rw [hvis] at this
    exact Bool.noConfusion this
  have hkstart : k ≠ start := fun he => hknot (he ▸ h.start_mem)
  refine ⟨?_, ?_⟩
  · refine
      { len_isl := by simp [h.len_isl]
        len_perm := by simp [h.len_perm]
        len_vis := by simp [h.len_vis]
        nodup := ?_, bound := ?_, head := ?_, last := ?_, vis := ?_, pos := ?_
        unpos := ?_, segs := ?_, conn := ?_, elig := ?_ }
    · rw [List.nodup_append]
      refine ⟨h.nodup, List.nodup_singleton k, ?_⟩
      intro a ha hb
      rw [List.mem_singleton] at hb
      exact hknot (hb ▸ ha)
    · intro x hx
      rcases List.mem_append.mp hx with hx | hx
      · exact h.bound x hx
      · rw [List.mem_singleton] at hx; rw [hx]; exact hk
    · rw [List.head?_append_of_ne_nil _ h.ne_nil]; exact h.head
    · simp
    · intro j hj
      show (s.visited.set k true).getD j false = true ↔ j ∈ order ++ [k]
      rw [getD_set, List.mem_append, List.mem_singleton]
      by_cases hjk : k = j
      · subst hjk
        rw [if_pos ⟨rfl, by rw [h.len_vis]; exact hk⟩]
        simp
      · rw [if_neg (fun hc => hjk hc.1), h.vis j hj]
        constructor
        · intro hm; exact Or.inl hm
        · intro hm
          rcases hm with hm | hm
          · exact hm
          · exact absurd hm.symm hjk
    · intro m x hmx
      show (s.loc_permutation.set k (order.length : Int)).getD x (-1) = (m : Int)
      by_cases hm : m < order.length
      · rw [List.getElem?_append_left hm] at hmx
        have hxmem : x ∈ order := List.getElem?_mem hmx
        have hxk : k ≠ x := fun he => hknot (he ▸ hxmem)
        rw [getD_set_ne _ _ _ _ _ hxk]
        exact h.pos m x hmx
      · have hm2 : order.length ≤ m := Nat.le_of_not_lt hm
        rw [List.getElem?_append_right hm2] at hmx
        have hm3 : m - order.length = 0 := by
          by_contra hne
          have : [k][m - order.length]? = none := by
            rw [List.getElem?_eq_none_iff]; simp; omega
          rw [this] at hmx
          exact Option.noConfusion hmx
        rw [hm3] at hmx
        simp at hmx
        subst hmx
        rw [getD_set_self _ _ _ _ (by rw [h.len_perm]; exact hk)]
        have : m = order.length := by omega
        rw [this]
    · intro j hj hjn
      show (s.loc_permutation.set k (order.length : Int)).getD j (-1) = -1
      have hjk : k ≠ j := fun he => hjn (by rw [he]; simp)
      rw [getD_set_ne _ _ _ _ _ hjk]
      exact h.unpos j hj (fun hm => hjn (List.mem_append_left _ hm))
    · show s.segment_end_coordinates ++ [⟨s.curr_node, k⟩] = consecutiveLegs (order ++ [k])
      rw [consecutiveLegs_concat order s.curr_node k h.last, h.segs]
    · intro x hx
      show (s.is_lonely_island.set k (-1)).getD x 0 = -1
      by_cases hxk : k = x
      · subst hxk
        exact getD_set_self _ _ _ _ (by rw [h.len_isl]; exact hk)
      · rw [getD_set_ne _ _ _ _ _ hxk]
        rcases List.mem_append.mp hx with hx | hx
        · exact h.conn x hx
        · rw [List.mem_singleton] at hx; exact absurd hx.symm hxk
    · intro x hx hxs
      rcases List.mem_append.mp hx with hx | hx
      · obtain ⟨h1, c, hc, hcx, hce⟩ := h.elig x hx hxs
        exact ⟨h1, c, List.mem_append_left _ hc, hcx, hce⟩
      · rw [List.mem_singleton] at hx
        subst hx
        refine ⟨by rw [← hkeep x hknot]; exact hisl, s.curr_node,
          List.mem_append_left _ h.curr_mem, ?_, hlt⟩
        intro he
        exact hknot (he ▸ h.curr_mem)
  · intro j hj
    have hjk : k ≠ j := fun he => hj (by rw [he]; simp)
    rw [getD_set_ne _ _ _ _ _ hjk]
    exact hkeep j (fun hm => hj (List.mem_append_left _ hm))

theorem viaLoop_spec (N : Nat) (dist : List Int) (start : Nat) (isl0 : List Int)
    (remaining : Nat) :
    ∀ (via_point : Nat) (s : TourState) (order : List Nat),
      TourInv N dist start isl0 s order →
      (∀ j, j ∉ order → s.is_lonely_island.getD j 0 = isl0.getD j 0) →
      order.length = via_point → via_point + remaining = N →
      ∃ order2, TourResult N dist start isl0 (viaLoop N dist remaining via_point s) order2
        ∧ order <+: order2 := by
  induction remaining with
  | zero =>
    intro via_point s order h _ hlen hsum
    exact ⟨order, ⟨h, Or.inl (by omega)⟩, List.prefix_refl order⟩
  | succ remaining ih =>
    intro via_point s order h hkeep hlen hsum
    have hspec := findNearest_spec N dist s.is_lonely_island s.visited s.curr_node
    simp only [viaLoop]
    rcases hspec with ⟨hacc, hnone⟩ | ⟨k, hk, hacc, hisl, hvis, hlt, _, _⟩
    · rw [hacc]
      simp only [if_true]
      refine ⟨order, ⟨?_, Or.inr ⟨by omega, ?_⟩⟩, List.prefix_refl order⟩
      · exact
          { len_isl := by
              show (markUnvisited s.visited s.is_lonely_island).length = N
              rw [markUnvisited_length]; exact h.len_isl
            len_perm := h.len_perm
            len_vis := h.len_vis
            nodup := h.nodup
            bound := h.bound
            head := h.head
            last := h.last
            vis := h.vis
            pos := h.pos
            unpos := h.unpos
            segs := h.segs
            conn := by
              intro x hx
              show (markUnvisited s.visited s.is_lonely_island).getD x 0 = -1
              rw [markUnvisited_getD _ _ _ (by rw [h.len_vis, h.len_isl])]
              have hv := (h.vis x (h.bound x hx)).mpr hx
              rw [if_neg (fun hc => by rw [hv] at hc; exact Bool.noConfusion hc.2)]
              exact h.conn x hx
            elig := h.elig }
      · intro j hj hjn
        have hv : s.visited.getD j false = false := by
          cases hb : s.visited.getD j false with
          | false => rfl
          | true => exact absurd ((h.vis j hj).mp hb) hjn
        constructor
        · show (markUnvisited s.visited s.is_lonely_island).getD j 0 = 1
          rw [markUnvisited_getD _ _ _ (by rw [h.len_vis, h.len_isl])]
          rw [if_pos ⟨by rw [h.len_isl]; exact hj, hv⟩]
        · intro hc
          exact hnone j hj ⟨by rw [hkeep j hjn]; exact hc.1, hv, hc.2⟩
    · rw [hacc]
      have hne : ((k : Int) = -1) = False := by
        apply propext; constructor
        · intro hc; omega
        · intro hc; exact False.elim hc
      simp only [hne, if_false, Int.toNat_ofNat]
      obtain ⟨hinv, hkeep2⟩ := h.via_step hkeep k hk hisl hvis hlt
      rw [hlen] at hinv
      obtain ⟨order2, hres, hpre⟩ := ih (via_point + 1) _ (order ++ [k]) hinv hkeep2
        (by simp [hlen]) (by omega)
      exact ⟨order2, hres, List.IsPrefix.trans (List.prefix_append order [k]) hpre⟩

/-- The state in which the via-point loop is entered satisfies the
invariant, with the start as the only visited location. -/
theorem initTour_inv (N : Nat) (dist : List Int) (isl : List Int) (start : Nat)
    (hlen : isl.length = N) (hs : start < N) :
    TourInv N dist start (isl.set start (-1)) (initTour N isl start) [start] := by
  refine
    { len_isl := by simp [initTour, hlen]
      len_perm := by simp [initTour]
      len_vis := by simp [initTour]
      nodup := List.nodup_singleton start
      bound := by intro x hx; rw [List.mem_singleton] at hx; rw [hx]; exact hs
      head := rfl
      last := rfl
      vis := ?_, pos := ?_, unpos := ?_
      segs := rfl
      conn := ?_, elig := ?_ }
  · intro j hj
    show ((List.replicate N false).set start true).getD j false = true ↔ j ∈ [start]
    rw [getD_set, List.mem_singleton]
    by_cases hjs : start = j
    · rw [if_pos ⟨hjs, by simp; exact hs⟩]; simp [hjs]
    · rw [if_neg (fun hc => hjs hc.1), getD_replicate_lt _ _ _ _ hj]
      constructor
      · intro hc; exact Bool.noConfusion hc
      · intro hc; exact absurd hc.symm hjs
  · intro m x hmx
    show ((List.replicate N (-1 : Int)).set start 0).getD x (-1) = (m : Int)
    have hm : m = 0 := by
      by_contra hne
      have : [start][m]? = none := by
        rw [List.getElem?_eq_none_iff]; simp; omega
      rw [this] at hmx
      exact Option.noConfusion hmx
    subst hm
    simp at hmx
    subst hmx
    rw [getD_set_self _ _ _ _ (by simp; exact hs)]
    rfl
  · intro j hj hjn
    show ((List.replicate N (-1 : Int)).set start 0).getD j (-1) = -1
    have hjs : start ≠ j := fun he => hjn (by rw [he]; simp)
    rw [getD_set_ne _ _ _ _ _ hjs, getD_replicate_lt _ _ _ _ hj]
  · intro x hx
    rw [List.mem_singleton] at hx
    subst hx
    show (isl.set x (-1)).getD x 0 = -1
    exact getD_set_self _ _ _ _ (by rw [hlen]; exact hs)
  · intro x hx hxs
    rw [List.mem_singleton] at hx
    exact absurd hx hxs

/-- The via-point loop as the start loop runs it for `start`. -/
theorem viaLoop_start (N : Nat) (dist : List Int) (isl : List Int) (start : Nat)
    (hlen : isl.length = N) (hs : start < N) :
    ∃ order, TourResult N dist start (isl.set start (-1))
      (viaLoop N dist (N - 1) 1 (initTour N isl start)) order := by
  obtain ⟨order, hres, _⟩ := viaLoop_spec N dist start (isl.set start (-1)) (N - 1) 1
    (initTour N isl start) [start] (initTour_inv N dist isl start hlen hs)
    (fun j _ => rfl) rfl (by omega)
  exact ⟨order, hres⟩

theorem consecutiveLegs_getLast (order : List Nat) (leg : PhantomNodes)
    (h : (consecutiveLegs order).getLast? = some leg) :
    order.getLast? = some leg.target_phantom := by
  induction order with
  | nil => simp [consecutiveLegs] at h
  | cons a rest ih =>
    cases rest with
    | nil => simp [consecutiveLegs] at h
    | cons b rest2 =>
      rw [List.getLast?_cons_cons]
      cases rest2 with
      | nil =>
        simp [consecutiveLegs] at h
        subst h
        rfl
      | cons c rest3 =>
        apply ih
        have hstep : consecutiveLegs (a :: b :: c :: rest3)
            = ⟨a, b⟩ :: ⟨b, c⟩ :: consecutiveLegs (c :: rest3) := rfl
        have hstep2 : consecutiveLegs (b :: c :: rest3)
            = ⟨b, c⟩ :: consecutiveLegs (c :: rest3) := rfl
        rw [hstep, List.getLast?_cons_cons] at h
        rw [hstep2]
        exact h

/-- A visiting order without repetition that has `N` entries below `N`
contains every index below `N`. -/
theorem mem_of_complete (N : Nat) (order : List Nat) (hnd : order.Nodup)
    (hb : ∀ x ∈ order, x < N) (hlen : order.length = N) :
    ∀ j, j < N → j ∈ order := by
  have hsub : order ⊆ List.range N := fun x hx => List.mem_range.mpr (hb x hx)
  have hperm : order.Perm (List.range N) :=
    (List.subperm_of_subset hnd hsub).perm_of_length_le (by simp [hlen])
  intro j hj
  exact hperm.mem_iff.mpr (List.mem_range.mpr hj)

/-- A visiting order without repetition that has fewer than `N` entries
misses an index below `N`. -/
theorem exists_not_mem_of_incomplete (N : Nat) (order : List Nat)
    (hlen : order.length < N) : ∃ j, j < N ∧ j ∉ order := by
  by_contra hcon
  have hall : ∀ j, j < N → j ∈ order := by
    intro j hj
    by_contra hj2
    exact hcon ⟨j, hj, hj2⟩
  have hsub : List.range N ⊆ order := fun x hx => hall x (List.mem_range.mp hx)
  have := (List.subperm_of_subset (List.nodup_range N) hsub).length_le
  simp at this
  omega

/-- The three ways an iteration of the start loop can end with a defined
state. -/
theorem tryStart_cases (oracle : List PhantomNodes → Int) (N : Nat) (dist : List Int)
    (st st2 : NNState) (start : Nat) (hlen : st.is_lonely_island.length = N)
    (hs : start < N) (h : tryStart oracle N dist st start = some st2) :
    (0 < st.is_lonely_island.getD start 0 ∧ st2 = st) ∨
    (st.is_lonely_island.getD start 0 = 0 ∧
      (∀ j, j < N → (entry N dist start j = 0 ∨ entry N dist start j = INT_MAX)) ∧
      st2 = { st with is_lonely_island := st.is_lonely_island.set start 1 }) ∨
    ((st.is_lonely_island.getD start 0 < 0 ∨ (st.is_lonely_island.getD start 0 = 0 ∧
        ¬ ∀ j, j < N → (entry N dist start j = 0 ∨ entry N dist start j = INT_MAX))) ∧
      ∃ t order c, TourCall oracle N dist st.is_lonely_island t order c ∧
        c.start_node = start ∧
        st2.is_lonely_island = t.is_lonely_island ∧
        st2.calls = st.calls ++ [c] ∧
        (st2.min_route, st2.min_loc_permutation)
          = pick (st.min_route, st.min_loc_permutation) c) := by
  rw [tryStart_flat] at h
  unfold buildTour at h
  by_cases h1 : 0 ≤ st.is_lonely_island.getD start 0 ∧ st.is_lonely_island.getD start 0 ≠ 0
  · rw [if_pos h1] at h
    left
    refine ⟨by omega, ?_⟩
    injection h with h; exact h.symm
  · rw [if_neg h1] at h
    by_cases h2 : 0 ≤ st.is_lonely_island.getD start 0
        ∧ N ≤ countUnreachables N dist start
    · rw [if_pos h2] at h
      right; left
      refine ⟨by omega, (countUnreachables_ge_iff N dist start).mp h2.2, ?_⟩
      injection h with h; exact h.symm
    · rw [if_neg h2] at h
      right; right
      constructor
      · rw [← countUnreachables_ge_iff]
        by_cases h3 : st.is_lonely_island.getD start 0 < 0
        · exact Or.inl h3
        · right
          have h4 : 0 ≤ st.is_lonely_island.getD start 0 := by omega
          exact ⟨by omega, fun hc => h2 ⟨h4, hc⟩⟩
      · have hok : st.is_lonely_island.getD start 0 ≤ 0 := by omega
        obtain ⟨order, hres⟩ := viaLoop_start N dist st.is_lonely_island start hlen hs
        generalize viaLoop N dist (N - 1) 1 (initTour N st.is_lonely_island start) = t
          at h hres
        simp only at h
        cases hlast : t.segment_end_coordinates.getLast? with
        | none => rw [hlast] at h; exact Option.noConfusion h
        | some last =>
          rw [hlast] at h
          simp only at h
          have hseg := hres.inv.segs
          have htarget : last.target_phantom = t.curr_node := by
            have h5 := consecutiveLegs_getLast order last (by rw [← hseg]; exact hlast)
            rw [hres.inv.last] at h5
            injection h5 with h5; exact h5.symm
          have htwo : 2 ≤ order.length := by
            have h6 := consecutiveLegs_length order
            rw [← hseg] at h6
            have h7 : t.segment_end_coordinates ≠ [] := by
              intro hnil; rw [hnil] at hlast; simp at hlast
            have h8 : 0 < t.segment_end_coordinates.length := List.length_pos.mpr h7
            omega
          refine ⟨t, order,
            ⟨start, t.loc_permutation,
              ⟨t.segment_end_coordinates ++ [⟨last.target_phantom, start⟩],
                oracle (t.segment_end_coordinates ++ [⟨last.target_phantom, start⟩])⟩⟩,
            ?_, rfl, ?_, ?_, ?_⟩
          · exact
              { len := hlen
                lt := hs
                startok := hok
                res := hres
                two := htwo
                cperm := rfl
                clegs := by
                  show t.segment_end_coordinates ++ [⟨last.target_phantom, start⟩] = _
                  rw [hseg, htarget]
                clen := rfl }
          · split at h <;> (injection h with h; rw [← h])
          · split at h <;> (injection h with h; rw [← h])
          · unfold pick
            split at h
            · rename_i hlt
              injection h with h; rw [← h]
              simp only
              rw [if_pos hlt]
            · rename_i hlt
              injection h with h; rw [← h]
              simp only
              rw [if_neg hlt]

/-! ## The start loop -/

/-- A property that every iteration of the start loop preserves holds when
the loop is left. -/
theorem startLoop_induction (oracle : List PhantomNodes → Int) (N : Nat) (dist : List Int)
    (P : Nat → NNState → Prop)
    (hstep : ∀ k st st2, k < N → P k st → tryStart oracle N dist st k = some st2 →
      P (k + 1) st2) :
    ∀ (remaining s0 : Nat) (st st2 : NNState), s0 + remaining ≤ N → P s0 st →
      startLoop oracle N dist remaining s0 st = some st2 → P (s0 + remaining) st2 := by
  intro remaining
  induction remaining with
  | zero =>
    intro s0 st st2 _ hP h
    simp only [startLoop] at h
    injection h with h
    rw [← h]; exact hP
  | succ remaining ih =>
    intro s0 st st2 hle hP h
    simp only [startLoop] at h
    cases hts : tryStart oracle N dist st s0 with
    | none => rw [hts] at h; exact Option.noConfusion h
    | some st1 =>
      rw [hts] at h
      simp only at h
      have h1 := hstep s0 st st1 (by omega) hP hts
      have h2 := ih (s0 + 1) st1 st2 (by omega) h1 h
      have he : s0 + 1 + remaining = s0 + (remaining + 1) := by omega
      rw [he] at h2
      exact h2

/-- The start loop is defined, and the property holds when it is left, if
every iteration is defined and preserves the property. -/
theorem startLoop_progress (oracle : List PhantomNodes → Int) (N : Nat) (dist : List Int)
    (P : Nat → NNState → Prop)
    (hstep : ∀ k st, k < N → P k st →
      ∃ st2, tryStart oracle N dist st k = some st2 ∧ P (k + 1) st2) :
    ∀ (remaining s0 : Nat) (st : NNState), s0 + remaining ≤ N → P s0 st →
      ∃ st2, startLoop oracle N dist remaining s0 st = some st2 ∧ P (s0 + remaining) st2 := by
  intro remaining
  induction remaining with
  | zero =>
    intro s0 st _ hP
    exact ⟨st, rfl, hP⟩
  | succ remaining ih =>
    intro s0 st hle hP
    obtain ⟨st1, hts, h1⟩ := hstep s0 st (by omega) hP
    obtain ⟨st2, h2, h3⟩ := ih (s0 + 1) st1 (by omega) h1
    refine ⟨st2, ?_, ?_⟩
    · simp only [startLoop]
      rw [hts]
      exact h2
    · have he : s0 + 1 + remaining = s0 + (remaining + 1) := by omega
      rw [← he]; exact h3

/-- Running `a + b` iterations is running `a` iterations and then `b`. -/
theorem startLoop_add (oracle : List PhantomNodes → Int) (N : Nat) (dist : List Int)
    (a b : Nat) : ∀ (s0 : Nat) (st : NNState),
      startLoop oracle N dist (a + b) s0 st =
        (startLoop oracle N dist a s0 st).bind (startLoop oracle N dist b (s0 + a)) := by
  induction a with
  | zero => intro s0 st; simp [startLoop]
  | succ a ih =>
    intro s0 st
    have he : a + 1 + b = (a + b) + 1 := by omega
    rw [he]
    simp only [startLoop]
    cases tryStart oracle N dist st s0 with
    | none => rfl
    | some st1 =>
      simp only
      rw [ih (s0 + 1) st1]
      have he2 : s0 + 1 + a = s0 + (a + 1) := by omega
      rw [he2]

theorem LoopInv.at_entry (oracle : List PhantomNodes → Int) (N : Nat) (dist : List Int)
    (st0 : NNState) (s0 : Nat) (hlen : st0.is_lonely_island.length = N) :
    LoopInv oracle N dist st0 s0 s0 st0 [] :=
  { len := hlen
    calls := by simp
    ok := by intro c hc; simp at hc
    starts := by intro c hc; simp at hc
    sorted := List.Pairwise.nil
    best := rfl }

theorem LoopInv.start_step {oracle : List PhantomNodes → Int} {N : Nat} {dist : List Int}
    {st0 : NNState} {s0 k : Nat} {st : NNState} {new : List Candidate}
    (h : LoopInv oracle N dist st0 s0 k st new) (hk : k < N) (hs : s0 ≤ k) (st2 : NNState)
    (hts : tryStart oracle N dist st k = some st2) :
    ∃ new2, LoopInv oracle N dist st0 s0 (k + 1) st2 new2 := by
  have hstarts : ∀ c ∈ new, s0 ≤ c.start_node ∧ c.start_node < k + 1 := by
    intro c hc
    have := h.starts c hc
    omega
  rcases tryStart_cases oracle N dist st st2 k h.len hk hts with
    ⟨_, h2⟩ | ⟨_, _, h2⟩ | ⟨_, t, order, c, hcall, hcs, hisl, hcalls, hbest⟩
  · subst h2
    exact ⟨new, { h with starts := hstarts }⟩
  · subst h2
    exact ⟨new,
      { len := by simp [h.len]
        calls := h.calls
        ok := h.ok
        starts := hstarts
        sorted := h.sorted
        best := h.best }⟩
  · refine ⟨new ++ [c], ?_⟩
    exact
      { len := by rw [hisl]; exact hcall.res.inv.len_isl
        calls := by rw [hcalls, h.calls, List.append_assoc]
        ok := by
          intro c2 hc2
          rcases List.mem_append.mp hc2 with hc2 | hc2
          · exact h.ok c2 hc2
          · rw [List.mem_singleton] at hc2
            rw [hc2]
            exact ⟨st.is_lonely_island, t, order, hcall⟩
        starts := by
          intro c2 hc2
          rcases List.mem_append.mp hc2 with hc2 | hc2
          · exact hstarts c2 hc2
          · rw [List.mem_singleton] at hc2
            rw [hc2, hcs]
            omega
        sorted := by
          rw [List.pairwise_append]
          refine ⟨h.sorted, List.pairwise_singleton _ _, ?_⟩
          intro a ha b hb
          rw [List.mem_singleton] at hb
          rw [hb, hcs]
          exact (h.starts a ha).2
        best := by
          rw [List.foldl_append, ← h.best, hbest]
          rfl }

/-- The invariant holds for every defined run of the start loop. -/
theorem startLoop_inv (oracle : List PhantomNodes → Int) (N : Nat) (dist : List Int)
    (remaining s0 : Nat) (st0 st2 : NNState) (hle : s0 + remaining ≤ N)
    (hlen : st0.is_lonely_island.length = N)
    (h : startLoop oracle N dist remaining s0 st0 = some st2) :
    ∃ new, LoopInv oracle N dist st0 s0 (s0 + remaining) st2 new := by
  have := startLoop_induction oracle N dist
    (fun k st => s0 ≤ k ∧ ∃ new, LoopInv oracle N dist st0 s0 k st new)
    (by
      intro k st st3 hk hP hts
      obtain ⟨hs, new, hinv⟩ := hP
      exact ⟨by omega, hinv.start_step hk hs st3 hts⟩)
    remaining s0 st0 st2 hle ⟨le_refl s0, [], LoopInv.at_entry oracle N dist st0 s0 hlen⟩ h
  exact this.2

/-- The invariant for a whole call of `NearestNeighbour` as `HandleRequest`
makes it. -/
theorem runNN_inv (oracle : List PhantomNodes → Int) (N : Nat) (dist : List Int)
    (r : NNState) (h : runNN oracle N dist = some r) :
    LoopInv oracle N dist (initState N InternalRouteResult.default []) 0 N r r.calls := by
  obtain ⟨new, hinv⟩ := startLoop_inv oracle N dist N 0
    (initState N InternalRouteResult.default []) r (by omega)
    (by simp [initState]) h
  have hc : r.calls = new := by
    rw [hinv.calls]; simp [initState]
  rw [hc]
  have he : 0 + N = N := by omega
  rw [he] at hinv
  exact hinv

/-! ## The retained candidate -/

/-- The retained pair after a list of candidates: it is the pair the loop
started with, or the first candidate of the list that is strictly shorter
than the starting pair and than all candidates before it, and not longer
than the candidates after it. -/
theorem pick_foldl_cases (l : List Candidate) (b : InternalRouteResult × List Int) :
    (l.foldl pick b = b ∧
      ∀ c ∈ l, b.1.shortest_path_length ≤ c.raw_route.shortest_path_length) ∨
    (∃ pre c post, l = pre ++ c :: post ∧
      l.foldl pick b = (c.raw_route, c.loc_permutation) ∧
      c.raw_route.shortest_path_length < b.1.shortest_path_length ∧
      (∀ c2 ∈ pre, c.raw_route.shortest_path_length < c2.raw_route.shortest_path_length) ∧
      (∀ c2 ∈ post, c.raw_route.shortest_path_length ≤ c2.raw_route.shortest_path_length)) := by
  induction l using List.reverseRecOn with
  | nil => left; simp
  | append_singleton l x ih =>
    rw [List.foldl_append]
    simp only [List.foldl_cons, List.foldl_nil]
    rcases ih with ⟨heq, hall⟩ | ⟨pre, c, post, hl, heq, hlt, hpre, hpost⟩
    · rw [heq]
      unfold pick
      by_cases hx : x.raw_route.shortest_path_length < b.1.shortest_path_length
      · rw [if_pos hx]
        right
        refine ⟨l, x, [], rfl, rfl, hx, ?_, by simp⟩
        intro c2 hc2
        have := hall c2 hc2
        omega
      · rw [if_neg hx]
        left
        refine ⟨rfl, ?_⟩
        intro c2 hc2
        rcases List.mem_append.mp hc2 with hc2 | hc2
        · exact hall c2 hc2
        · rw [List.mem_singleton] at hc2; rw [hc2]; omega
    · rw [heq]
      unfold pick
      simp only
      by_cases hx : x.raw_route.shortest_path_length < c.raw_route.shortest_path_length
      · rw [if_pos hx]
        right
        refine ⟨l, x, [], rfl, rfl, by omega, ?_, by simp⟩
        intro c2 hc2
        rw [hl] at hc2
        rcases List.mem_append.mp hc2 with hc2 | hc2
        · have := hpre c2 hc2; omega
        · rcases List.mem_cons.mp hc2 with hc2 | hc2
          · rw [hc2]; exact hx
          · have := hpost c2 hc2; omega
      · rw [if_neg hx]
        right
        refine ⟨pre, c, post ++ [x], by rw [hl]; simp, rfl, hlt, hpre, ?_⟩
        intro c2 hc2
        rcases List.mem_append.mp hc2 with hc2 | hc2
        · exact hpost c2 hc2
        · rw [List.mem_singleton] at hc2; rw [hc2]; omega

/-- In a log whose start indices increase, the candidates with a lower
start index than a logged candidate are the ones logged before it. -/
theorem mem_pre_of_start_lt (pre post : List Candidate) (c c2 : Candidate)
    (hs : (pre ++ c :: post).Pairwise (fun a b => a.start_node < b.start_node))
    (hmem : c2 ∈ pre ++ c :: post) (hlt : c2.start_node < c.start_node) : c2 ∈ pre := by
  rw [List.pairwise_append] at hs
  obtain ⟨_, hcp, _⟩ := hs
  rw [List.pairwise_cons] at hcp
  rcases List.mem_append.mp hmem with h | h
  · exact h
  · rcases List.mem_cons.mp h with h | h
    · rw [h] at hlt; omega
    · have := hcp.1 c2 h; omega

/-- In a log whose start indices increase, a candidate is determined by
its start index. -/
theorem eq_of_start_eq (l : List Candidate) (c c2 : Candidate)
    (hs : l.Pairwise (fun a b => a.start_node < b.start_node))
    (h1 : c ∈ l) (h2 : c2 ∈ l) (he : c.start_node = c2.start_node) : c = c2 := by
  induction l with
  | nil => simp at h1
  | cons a rest ih =>
    rw [List.pairwise_cons] at hs
    rcases List.mem_cons.mp h1 with h1 | h1 <;> rcases List.mem_cons.mp h2 with h2 | h2
    · rw [h1, h2]
    · have := hs.1 c2 h2; rw [← h1] at this; omega
    · have := hs.1 c h1; rw [← h2] at this; omega
    · exact ih hs.2 h1 h2

/-- The retained pair of a log whose start indices increase. -/
theorem retained_cases (l : List Candidate) (b : InternalRouteResult × List Int)
    (hs : l.Pairwise (fun a b => a.start_node < b.start_node)) :
    (l.foldl pick b = b ∧
      ∀ c ∈ l, b.1.shortest_path_length ≤ c.raw_route.shortest_path_length) ∨
    (∃ c ∈ l, l.foldl pick b = (c.raw_route, c.loc_permutation) ∧
      c.raw_route.shortest_path_length < b.1.shortest_path_length ∧
      (∀ c2 ∈ l, c.raw_route.shortest_path_length ≤ c2.raw_route.shortest_path_length) ∧
      (∀ c2 ∈ l, c2.start_node < c.start_node →
        c.raw_route.shortest_path_length < c2.raw_route.shortest_path_length)) := by
  rcases pick_foldl_cases l b with h | ⟨pre, c, post, hl, heq, hlt, hpre, hpost⟩
  · exact Or.inl h
  · right
    refine ⟨c, by rw [hl]; simp, heq, hlt, ?_, ?_⟩
    · intro c2 hc2
      rw [hl] at hc2
      rcases List.mem_append.mp hc2 with hc2 | hc2
      · exact le_of_lt (hpre c2 hc2)
      · rcases List.mem_cons.mp hc2 with hc2 | hc2
        · rw [hc2]
        · exact hpost c2 hc2
    · intro c2 hc2 hlt2
      rw [hl] at hc2 hs
      exact hpre c2 (mem_pre_of_start_lt pre post c c2 hs hc2 hlt2)

/-! ## Logged calls -/

theorem consecutiveLegs_getElem (order : List Nat) :
    ∀ (m a b : Nat), order[m]? = some a → order[m + 1]? = some b →
      (consecutiveLegs order)[m]? = some ⟨a, b⟩ := by
  induction order with
  | nil => intro m a b h; simp at h
  | cons x rest ih =>
    intro m a b ha hb
    cases rest with
    | nil => simp at hb
    | cons y rest2 =>
      have hstep : consecutiveLegs (x :: y :: rest2)
          = ⟨x, y⟩ :: consecutiveLegs (y :: rest2) := rfl
      rw [hstep]
      cases m with
      | zero =>
        simp at ha hb
        subst ha; subst hb
        simp
      | succ m =>
        rw [List.getElem?_cons_succ] at ha hb ⊢
        exact ih m a b ha hb

theorem consecutiveLegs_getElem_inv (order : List Nat) :
    ∀ (m : Nat) (leg : PhantomNodes), (consecutiveLegs order)[m]? = some leg →
      order[m]? = some leg.source_phantom ∧ order[m + 1]? = some leg.target_phantom := by
  induction order with
  | nil => intro m leg h; simp [consecutiveLegs] at h
  | cons x rest ih =>
    intro m leg h
    cases rest with
    | nil => simp [consecutiveLegs] at h
    | cons y rest2 =>
      have hstep : consecutiveLegs (x :: y :: rest2)
          = ⟨x, y⟩ :: consecutiveLegs (y :: rest2) := rfl
      rw [hstep] at h
      cases m with
      | zero =>
        simp at h
        subst h
        simp
      | succ m =>
        rw [List.getElem?_cons_succ] at h
        have := ih m leg h
        exact ⟨by rw [List.getElem?_cons_succ]; exact this.1,
          by rw [List.getElem?_cons_succ]; exact this.2⟩

/-- The `loc_permutation` of a logged call describes the tour built for
it, which begins at the start index of the call. -/
theorem TourCall.isTourOrder {oracle : List PhantomNodes → Int} {N : Nat} {dist : List Int}
    {isl : List Int} {t : TourState} {order : List Nat} {c : Candidate}
    (h : TourCall oracle N dist isl t order c) :
    IsTourOrder N c.loc_permutation order ∧ order.head? = some c.start_node := by
  have hi := h.res.inv
  rw [h.cperm]
  exact ⟨⟨hi.len_perm, hi.nodup, hi.bound, hi.pos, hi.unpos⟩, hi.head⟩

/-- The legs of a logged call are the consecutive legs of the closed tour
`order ++ [start]`. -/
theorem TourCall.legs_closed {oracle : List PhantomNodes → Int} {N : Nat} {dist : List Int}
    {isl : List Int} {t : TourState} {order : List Nat} {c : Candidate}
    (h : TourCall oracle N dist isl t order c) :
    c.raw_route.segment_end_coordinates = consecutiveLegs (order ++ [c.start_node]) := by
  rw [h.clegs, consecutiveLegs_concat order t.curr_node c.start_node h.res.inv.last]

/-- A position vector describes at most one start: the location with
position `0`. -/
theorem IsTourOrder.start_unique {N : Nat} {p : List Int} {o1 o2 : List Nat} {s1 s2 : Nat}
    (h1 : IsTourOrder N p o1) (h2 : IsTourOrder N p o2)
    (hs1 : o1.head? = some s1) (hs2 : o2.head? = some s2) : s1 = s2 := by
  obtain ⟨_, _, hb1, hp1, _⟩ := h1
  obtain ⟨_, _, _, hp2, hu2⟩ := h2
  have hm1 : s1 ∈ o1 := List.mem_of_mem_head? hs1
  have e1 : o1[0]? = some s1 := by rw [← List.head?_eq_getElem?]; exact hs1
  have e2 : o2[0]? = some s2 := by rw [← List.head?_eq_getElem?]; exact hs2
  have hz1 := hp1 0 s1 e1
  by_cases hmem : s1 ∈ o2
  · obtain ⟨m, hm⟩ := List.mem_iff_getElem?.mp hmem
    have := hp2 m s1 hm
    rw [hz1] at this
    have hm0 : m = 0 := by omega
    rw [hm0, e2] at hm
    injection hm with hm
    exact hm.symm
  · have := hu2 s1 (hb1 s1 hm1) hmem
    rw [hz1] at this
    omega

/-- The first leg of a logged call departs from the start of the call. -/
theorem TourCall.first_leg {oracle : List PhantomNodes → Int} {N : Nat} {dist : List Int}
    {isl : List Int} {t : TourState} {order : List Nat} {c : Candidate}
    (h : TourCall oracle N dist isl t order c) :
    ∃ b, c.raw_route.segment_end_coordinates.head? = some ⟨c.start_node, b⟩ := by
  have htwo := h.two
  have e0 : order[0]? = some c.start_node := by
    rw [← List.head?_eq_getElem?]; exact h.res.inv.head
  have h1 : 1 < order.length := by omega
  refine ⟨order[1], ?_⟩
  rw [List.head?_eq_getElem?, h.legs_closed]
  apply consecutiveLegs_getElem
  · rw [List.getElem?_append_left (by omega)]; exact e0
  · rw [List.getElem?_append_left h1]
    exact List.getElem?_eq_getElem h1

/-- The start loop from `0` to `N`, cut at the turn of start `i`. -/
theorem runNN_split (oracle : List PhantomNodes → Int) (N : Nat) (dist : List Int)
    (i : Nat) (hi : i < N) (st r : NNState)
    (hturn : startLoop oracle N dist i 0 (initState N InternalRouteResult.default [])
      = some st)
    (h : runNN oracle N dist = some r) :
    ∃ st1, tryStart oracle N dist st i = some st1 ∧
      startLoop oracle N dist (N - i - 1) (i + 1) st1 = some r := by
  unfold runNN NearestNeighbour at h
  have h2 : startLoop oracle N dist (i + (N - i)) 0
      (initState N InternalRouteResult.default []) = some r := by
    rw [show i + (N - i) = N by omega]; exact h
  rw [startLoop_add, hturn] at h2
  simp only [Option.bind, Nat.zero_add] at h2
  have h3 : startLoop oracle N dist ((N - i - 1) + 1) i st = some r := by
    rw [show N - i - 1 + 1 = N - i by omega]; exact h2
  simp only [startLoop] at h3
  cases hts : tryStart oracle N dist st i with
  | none => rw [hts] at h3; exact Option.noConfusion h3
  | some st1 =>
    rw [hts] at h3
    exact ⟨st1, rfl, h3⟩

/-- A location that the tour of a logged call has not visited has no
position, and is marked as a lonely island when the iteration ends. -/
theorem TourCall.of_not_mem {oracle : List PhantomNodes → Int} {N : Nat} {dist : List Int}
    {isl : List Int} {t : TourState} {order : List Nat} {c : Candidate}
    (h : TourCall oracle N dist isl t order c) (i : Nat) (hi : i < N) (hn : i ∉ order) :
    c.loc_permutation.getD i (-1) = -1 ∧ t.is_lonely_island.getD i 0 = 1 := by
  refine ⟨by rw [h.cperm]; exact h.res.inv.unpos i hi hn, ?_⟩
  rcases h.res.fin with hfull | ⟨_, hstuck⟩
  · exact absurd (mem_of_complete N order h.res.inv.nodup h.res.inv.bound hfull i hi) hn
  · exact (hstuck i hi hn).1

/-- A location marked as a lonely island is not visited by the tour of a
later call and stays marked. -/
theorem TourCall.absorb {oracle : List PhantomNodes → Int} {N : Nat} {dist : List Int}
    {isl : List Int} {t : TourState} {order : List Nat} {c : Candidate}
    (h : TourCall oracle N dist isl t order c) (i : Nat) (hisl : isl.getD i 0 = 1) :
    i ≠ c.start_node ∧ i ∉ order ∧ c.loc_permutation.getD i (-1) = -1
      ∧ t.is_lonely_island.getD i 0 = 1 := by
  have hi : i < N := by
    by_contra hge
    have : isl.getD i 0 = 0 := by
      rw [List.getD_eq_getElem?_getD, List.getElem?_eq_none_iff.mpr (by rw [h.len]; omega)]
      rfl
    omega
  have hne : i ≠ c.start_node := by
    intro he
    have := h.startok
    rw [← he] at this
    omega
  have hn : i ∉ order := by
    intro hmem
    obtain ⟨h1, _⟩ := h.res.inv.elig i hmem hne
    rw [getD_set_ne _ _ _ _ _ (Ne.symm hne)] at h1
    omega
  exact ⟨hne, hn, h.of_not_mem i hi hn⟩

/-- A location that no other location reaches (its column is `INT_MAX` off
the diagonal) is not visited by a tour that starts elsewhere. -/
theorem TourCall.avoid {oracle : List PhantomNodes → Int} {N : Nat} {dist : List Int}
    {isl : List Int} {t : TourState} {order : List Nat} {c : Candidate}
    (h : TourCall oracle N dist isl t order c) (i : Nat) (hi : i < N)
    (hne : i ≠ c.start_node)
    (hcol : ∀ j, j < N → j ≠ i → entry N dist j i = INT_MAX) :
    i ∉ order ∧ c.loc_permutation.getD i (-1) = -1 ∧ t.is_lonely_island.getD i 0 = 1 := by
  have hn : i ∉ order := by
    intro hmem
    obtain ⟨_, c2, hc2, hc2i, hlt⟩ := h.res.inv.elig i hmem hne
    have := hcol c2 (h.res.inv.bound c2 hc2) hc2i
    omega
  exact ⟨hn, h.of_not_mem i hi hn⟩

/-- An iteration of the start loop is defined unless it builds a tour that
visits nothing but its start. -/
theorem tryStart_defined (oracle : List PhantomNodes → Int) (N : Nat) (dist : List Int)
    (st : NNState) (start : Nat)
    (hlen : st.is_lonely_island.length = N) (hs : start < N)
    (htour : ∀ order, TourResult N dist start (st.is_lonely_island.set start (-1))
      (viaLoop N dist (N - 1) 1 (initTour N st.is_lonely_island start)) order →
      ¬ (0 ≤ st.is_lonely_island.getD start 0 ∧ st.is_lonely_island.getD start 0 ≠ 0) →
      ¬ (0 ≤ st.is_lonely_island.getD start 0 ∧ N ≤ countUnreachables N dist start) →
      2 ≤ order.length) :
    ∃ st2, tryStart oracle N dist st start = some st2 := by
  rw [tryStart_flat]
  unfold buildTour
  by_cases h1 : 0 ≤ st.is_lonely_island.getD start 0 ∧ st.is_lonely_island.getD start 0 ≠ 0
  · rw [if_pos h1]; exact ⟨_, rfl⟩
  · rw [if_neg h1]
    by_cases h2 : 0 ≤ st.is_lonely_island.getD start 0
        ∧ N ≤ countUnreachables N dist start
    · rw [if_pos h2]; exact ⟨_, rfl⟩
    · rw [if_neg h2]
      obtain ⟨order, hres⟩ := viaLoop_start N dist st.is_lonely_island start hlen hs
      have htwo := htour order hres h1 h2
      generalize viaLoop N dist (N - 1) 1 (initTour N st.is_lonely_island start) = t
        at hres
      simp only
      cases hlast : t.segment_end_coordinates.getLast? with
      | none =>
        exfalso
        have hnil := List.getLast?_eq_none_iff.mp hlast
        have hl := consecutiveLegs_length order
        rw [← hres.inv.segs, hnil] at hl
        simp at hl
        omega
      | some last =>
        simp only
        split <;> exact ⟨_, rfl⟩

/-- A location whose row consists of `0` and `INT_MAX` and whose column is
`INT_MAX` off the diagonal is never visited and ends marked as a lonely
island. -/
theorem cutOff_never_visited (oracle : List PhantomNodes → Int) (N : Nat)
    (dist : List Int) (i : Nat) (r : NNState) (hi : i < N)
    (hrow : ∀ j, j < N → (entry N dist i j = 0 ∨ entry N dist i j = INT_MAX))
    (hcol : ∀ j, j < N → j ≠ i → entry N dist j i = INT_MAX)
    (h : runNN oracle N dist = some r) :
    r.is_lonely_island.getD i 0 = 1 ∧
    ∀ c ∈ r.calls, c.start_node ≠ i ∧ c.loc_permutation.getD i (-1) = -1 := by
  have key := startLoop_induction oracle N dist
    (fun k st => st.is_lonely_island.length = N ∧
      (k ≤ i → (st.is_lonely_island.getD i 0 = 0 ∨ st.is_lonely_island.getD i 0 = 1)) ∧
      (i < k → st.is_lonely_island.getD i 0 = 1) ∧
      ∀ c ∈ st.calls, c.start_node ≠ i ∧ c.loc_permutation.getD i (-1) = -1)
    (by
      intro k st st2 hk hP hts
      obtain ⟨hlen, hbefore, hafter, hcalls⟩ := hP
      rcases tryStart_cases oracle N dist st st2 k hlen hk hts with
        ⟨hpos, h2⟩ | ⟨hzero, _, h2⟩ | ⟨hc, t, order, c, hcall, hcs, hisl, hcalls2, _⟩
      · subst h2
        refine ⟨hlen, fun hle => hbefore (by omega), ?_, hcalls⟩
        intro hlt
        by_cases hki : k = i
        · subst hki
          rcases hbefore (le_refl k) with h0 | h1
          · omega
          · exact h1
        · exact hafter (by omega)
      · subst h2
        refine ⟨by simp [hlen], ?_, ?_, hcalls⟩
        · intro hle
          have hne : k ≠ i := by omega
          show (st.is_lonely_island.set k 1).getD i 0 = 0 ∨ _
          rw [getD_set_ne _ _ _ _ _ hne]
          exact hbefore (by omega)
        · intro hlt
          show (st.is_lonely_island.set k 1).getD i 0 = 1
          by_cases hki : k = i
          · subst hki
            exact getD_set_self _ _ _ _ (by rw [hlen]; exact hk)
          · rw [getD_set_ne _ _ _ _ _ hki]
            exact hafter (by omega)
      · have hki : k ≠ i := by
          intro hki
          subst hki
          rcases hbefore (le_refl k) with h0 | h1
          · rcases hc with hc | ⟨_, hc⟩
            · omega
            · exact hc hrow
          · rcases hc with hc | ⟨hc, _⟩ <;> omega
        have hav := hcall.avoid i hi (by rw [hcs]; exact Ne.symm hki) hcol
        refine ⟨by rw [hisl]; exact hcall.res.inv.len_isl, ?_, ?_, ?_⟩
        · intro _; right; rw [hisl]; exact hav.2.2
        · intro _; rw [hisl]; exact hav.2.2
        · intro c2 hc2
          rw [hcalls2] at hc2
          rcases List.mem_append.mp hc2 with hc2 | hc2
          · exact hcalls c2 hc2
          · rw [List.mem_singleton] at hc2
            rw [hc2]
            exact ⟨by rw [hcs]; exact hki, hav.2.1⟩)
    N 0 (initState N InternalRouteResult.default []) r (by omega)
    ⟨by simp [initState], fun _ => Or.inl (by
        show (List.replicate N (0 : Int)).getD i 0 = 0
        exact getD_replicate_lt N i 0 0 hi),
      fun hlt => by omega, by intro c hc; simp [initState] at hc⟩ h
  have he : 0 + N = N := by omega
  rw [he] at key
  exact ⟨key.2.2.1 hi, key.2.2.2⟩

theorem two_le_length_of_mem {a b : Nat} {l : List Nat} (ha : a ∈ l) (hb : b ∈ l)
    (hab : a ≠ b) : 2 ≤ l.length := by
  match l, ha, hb with
  | [], ha, _ => simp at ha
  | [x], ha, hb =>
    rw [List.mem_singleton] at ha hb
    exact absurd (ha.trans hb.symm) hab
  | _ :: _ :: _, _, _ => simp

theorem exists_third (N i k : Nat) (hN : 3 ≤ N) : ∃ b, b < N ∧ b ≠ i ∧ b ≠ k := by
  by_cases h0 : 0 ≠ i ∧ 0 ≠ k
  · exact ⟨0, by omega, h0.1, h0.2⟩
  · by_cases h1 : 1 ≠ i ∧ 1 ≠ k
    · exact ⟨1, by omega, h1.1, h1.2⟩
    · exact ⟨2, by omega, by omega, by omega⟩

/-- When location `i` is cut off and the other locations reach each other
and are not marked as lonely islands, the tour built from a start other
than `i` visits exactly the other locations. -/
theorem TourResult.covers {N : Nat} {dist : List Int} {start : Nat} {isl0 : List Int}
    {t : TourState} {order : List Nat} (h : TourResult N dist start isl0 t order)
    (i : Nat) (hne : i ≠ start)
    (hcol : ∀ j, j < N → j ≠ i → entry N dist j i = INT_MAX)
    (hreach : ∀ a b, a < N → b < N → a ≠ i → b ≠ i → a ≠ b →
      entry N dist a b ≠ 0 ∧ entry N dist a b < INT_MAX)
    (hisl : ∀ j, j < N → j ≠ i → isl0.getD j 0 < 1) :
    i ∉ order ∧ ∀ j, j < N → j ≠ i → j ∈ order := by
  have hn : i ∉ order := by
    intro hmem
    obtain ⟨_, c2, hc2, hc2i, hlt⟩ := h.inv.elig i hmem hne
    have := hcol c2 (h.inv.bound c2 hc2) hc2i
    omega
  refine ⟨hn, ?_⟩
  rcases h.fin with hfull | ⟨_, hstuck⟩
  · intro j hj _
    exact mem_of_complete N order h.inv.nodup h.inv.bound hfull j hj
  · intro j hj hji
    by_contra hjn
    have hcurr := h.inv.curr_mem
    have hci : t.curr_node ≠ i := fun he => hn (he ▸ hcurr)
    have hcj : t.curr_node ≠ j := fun he => hjn (he ▸ hcurr)
    exact (hstuck j hj hjn).2
      ⟨hisl j hj hji, (hreach t.curr_node j (h.inv.bound _ hcurr) hj hci hji hcj).2⟩

/-- When location `i` is cut off and the other locations (at least two)
reach each other, the call is defined, every start other than `i` is tried
and every tour visits exactly the other locations. -/
theorem cutOff_others_covered (oracle : List PhantomNodes → Int) (N : Nat)
    (dist : List Int) (i : Nat) (hi : i < N) (hN : 3 ≤ N)
    (hrow : ∀ j, j < N → (entry N dist i j = 0 ∨ entry N dist i j = INT_MAX))
    (hcol : ∀ j, j < N → j ≠ i → entry N dist j i = INT_MAX)
    (hreach : ∀ a b, a < N → b < N → a ≠ i → b ≠ i → a ≠ b →
      entry N dist a b ≠ 0 ∧ entry N dist a b < INT_MAX) :
    ∃ r, runNN oracle N dist = some r ∧
      (∀ s, s < N → s ≠ i → ∃ c ∈ r.calls, c.start_node = s) ∧
      (∀ c ∈ r.calls, ∀ j, j < N → (c.loc_permutation.getD j (-1) = -1 ↔ j = i)) := by
  have key := startLoop_progress oracle N dist
    (fun k st => st.is_lonely_island.length = N ∧
      (∀ j, j < N → j ≠ i → st.is_lonely_island.getD j 0 ≤ 0) ∧
      (st.is_lonely_island.getD i 0 = 0 ∨ st.is_lonely_island.getD i 0 = 1) ∧
      (∀ s, s < k → s ≠ i → ∃ c ∈ st.calls, c.start_node = s) ∧
      ∀ c ∈ st.calls, ∀ j, j < N → (c.loc_permutation.getD j (-1) = -1 ↔ j = i))
    (by
      intro k st hk hP
      obtain ⟨hlen, hothers, hself, htried, hcalls⟩ := hP
      have hdef : ∃ st2, tryStart oracle N dist st k = some st2 := by
        apply tryStart_defined oracle N dist st k hlen hk
        intro order hres hskip hmark
        by_cases hki : k = i
        · exfalso
          subst hki
          rcases hself with h0 | h1
          · exact hmark ⟨by omega, (countUnreachables_ge_iff N dist k).mpr hrow⟩
          · exact hskip ⟨by omega, by omega⟩
        · have hcov := hres.covers i (Ne.symm hki) hcol hreach (by
            intro j hj hji
            by_cases hjk : k = j
            · subst hjk
              rw [getD_set_self _ _ _ _ (by rw [hlen]; exact hj)]
              omega
            · rw [getD_set_ne _ _ _ _ _ hjk]
              have := hothers j hj hji
              omega)
          obtain ⟨b, hb, hbi, hbk⟩ := exists_third N i k hN
          exact two_le_length_of_mem (hcov.2 b hb hbi) hres.inv.start_mem hbk
      obtain ⟨st2, hts⟩ := hdef
      refine ⟨st2, hts, ?_⟩
      rcases tryStart_cases oracle N dist st st2 k hlen hk hts with
        ⟨hpos, h2⟩ | ⟨hzero, hsent, h2⟩ | ⟨hc, t, order, c, hcall, hcs, hisl, hcalls2, _⟩
      · subst h2
        have hki : k = i := by
          by_contra hki
          have := hothers k hk hki
          omega
        refine ⟨hlen, hothers, hself, ?_, hcalls⟩
        intro s hs hsi
        exact htried s (by omega) hsi
      · subst h2
        have hki : k = i := by
          by_contra hki
          obtain ⟨b, hb, hbi, hbk⟩ := exists_third N i k hN
          have h1 := hreach k b hk hb hki hbi (Ne.symm hbk)
          have h2 := hsent b hb
          omega
        refine ⟨by simp [hlen], ?_, ?_, ?_, hcalls⟩
        · intro j hj hji
          show (st.is_lonely_island.set k 1).getD j 0 ≤ 0
          rw [getD_set_ne _ _ _ _ _ (by rw [hki]; exact Ne.symm hji)]
          exact hothers j hj hji
        · right
          show (st.is_lonely_island.set k 1).getD i 0 = 1
          rw [hki]
          exact getD_set_self _ _ _ _ (by rw [hlen]; exact hi)
        · intro s hs hsi
          exact htried s (by omega) hsi
      · have hki : k ≠ i := by
          intro hki
          subst hki
          rcases hself with h0 | h1
          · rcases hc with hc | ⟨_, hc⟩
            · omega
            · exact hc hrow
          · rcases hc with hc | ⟨hc, _⟩ <;> omega
        have hres := hcall.res
        rw [hcs] at hres
        have hcov := hres.covers i (Ne.symm hki) hcol hreach (by
          intro j hj hji
          by_cases hjk : k = j
          · subst hjk
            rw [getD_set_self _ _ _ _ (by rw [hlen]; exact hj)]
            omega
          · rw [getD_set_ne _ _ _ _ _ hjk]
            have := hothers j hj hji
            omega)
        have hnot := hcall.of_not_mem i hi hcov.1
        refine ⟨by rw [hisl]; exact hres.inv.len_isl, ?_, ?_, ?_, ?_⟩
        · intro j hj hji
          rw [hisl, hres.inv.conn j (hcov.2 j hj hji)]
          omega
        · right; rw [hisl]; exact hnot.2
        · intro s hs hsi
          by_cases hsk : s = k
          · exact ⟨c, by rw [hcalls2]; simp, by rw [hcs, hsk]⟩
          · obtain ⟨c2, hc2, hc2s⟩ := htried s (by omega) hsi
            exact ⟨c2, by rw [hcalls2]; exact List.mem_append_left _ hc2, hc2s⟩
        · intro c2 hc2
          rw [hcalls2] at hc2
          rcases List.mem_append.mp hc2 with hc2 | hc2
          · exact hcalls c2 hc2
          · rw [List.mem_singleton] at hc2
            rw [hc2]
            intro j hj
            constructor
            · intro hneg
              by_contra hji
              obtain ⟨m, hm⟩ := List.mem_iff_getElem?.mp (hcov.2 j hj hji)
              have := hres.inv.pos m j hm
              rw [← hcall.cperm, hneg] at this
              omega
            · intro hji
              rw [hji]; exact hnot.1)
    N 0 (initState N InternalRouteResult.default []) (by omega)
    ⟨by simp [initState],
      fun j hj _ => by
        show (List.replicate N (0 : Int)).getD j 0 ≤ 0
        rw [getD_replicate_lt N j 0 0 hj],
      Or.inl (by
        show (List.replicate N (0 : Int)).getD i 0 = 0
        exact getD_replicate_lt N i 0 0 hi),
      fun s hs _ => by omega,
      by intro c hc; simp [initState] at hc⟩
  obtain ⟨r, hrun, _, _, _, htried, hcalls⟩ := key
  have he : 0 + N = N := by omega
  rw [he] at htried
  exact ⟨r, hrun, htried, hcalls⟩

/-- The start check marks a start of unknown status whose whole row consists
of `0` and `INT_MAX`, and ends the iteration. -/
theorem tryStart_mark (oracle : List PhantomNodes → Int) (N : Nat) (dist : List Int)
    (st : NNState) (start : Nat) (hz : st.is_lonely_island.getD start 0 = 0)
    (hrow : ∀ j, j < N → (entry N dist start j = 0 ∨ entry N dist start j = INT_MAX)) :
    tryStart oracle N dist st start
      = some { st with is_lonely_island := st.is_lonely_island.set start 1 } := by
  rw [tryStart_flat]
  unfold buildTour
  rw [if_neg (by rw [hz]; omega),
    if_pos ⟨by rw [hz], (countUnreachables_ge_iff N dist start).mpr hrow⟩]

/-- An iteration of the start loop does the same to `is_lonely_island` and
builds the same tour whatever the oracle answers, now or before. -/
theorem tryStart_trace (o1 o2 : List PhantomNodes → Int) (N : Nat) (dist : List Int)
    (st1 st2 : NNState) (k : Nat) (h : trace st1 = trace st2) :
    (tryStart o1 N dist st1 k).map trace = (tryStart o2 N dist st2 k).map trace := by
  have hisl : st1.is_lonely_island = st2.is_lonely_island := congrArg Prod.fst h
  have hcalls : st1.calls.map Candidate.tour = st2.calls.map Candidate.tour :=
    congrArg Prod.snd h
  rw [tryStart_flat, tryStart_flat]
  unfold buildTour
  rw [← hisl]
  by_cases h1 : 0 ≤ st1.is_lonely_island.getD k 0 ∧ st1.is_lonely_island.getD k 0 ≠ 0
  · rw [if_pos h1, if_pos h1]
    simp only [Option.map_some']
    rw [h]
  · rw [if_neg h1, if_neg h1]
    by_cases h2 : 0 ≤ st1.is_lonely_island.getD k 0 ∧ N ≤ countUnreachables N dist k
    · rw [if_pos h2, if_pos h2]
      simp only [Option.map_some', trace]
      rw [hcalls]
    · rw [if_neg h2, if_neg h2]
      simp only
      cases (viaLoop N dist (N - 1) 1
          (initTour N st1.is_lonely_island k)).segment_end_coordinates.getLast? with
      | none => rfl
      | some last =>
        simp only
        split <;> split <;>
          simp only [Option.map_some', trace, List.map_append, List.map_cons, List.map_nil,
            Candidate.tour, hcalls]

/-- The start loop does the same to `is_lonely_island` and builds the same
tours whatever the oracle answers. -/
theorem startLoop_trace (o1 o2 : List PhantomNodes → Int) (N : Nat) (dist : List Int)
    (remaining : Nat) : ∀ (s0 : Nat) (st1 st2 : NNState), trace st1 = trace st2 →
      (startLoop o1 N dist remaining s0 st1).map trace
        = (startLoop o2 N dist remaining s0 st2).map trace := by
  induction remaining with
  | zero =>
    intro s0 st1 st2 h
    simp only [startLoop, Option.map_some']
    rw [h]
  | succ remaining ih =>
    intro s0 st1 st2 h
    have hstep := tryStart_trace o1 o2 N dist st1 st2 s0 h
    simp only [startLoop]
    cases h1 : tryStart o1 N dist st1 s0 with
    | none =>
      rw [h1] at hstep
      cases h2 : tryStart o2 N dist st2 s0 with
      | none => rfl
      | some b => rw [h2] at hstep; simp at hstep
    | some a =>
      rw [h1] at hstep
      cases h2 : tryStart o2 N dist st2 s0 with
      | none => rw [h2] at hstep; simp at hstep
      | some b =>
        rw [h2] at hstep
        simp only [Option.map_some'] at hstep
        injection hstep with hstep
        exact ih (s0 + 1) a b hstep

/-- A logged call has visited at least two locations, so its permutation
and its leg list are not empty. -/
theorem TourCall.nonempty {oracle : List PhantomNodes → Int} {N : Nat} {dist : List Int}
    {isl : List Int} {t : TourState} {order : List Nat} {c : Candidate}
    (h : TourCall oracle N dist isl t order c) :
    c.loc_permutation ≠ [] ∧ c.raw_route.segment_end_coordinates ≠ [] := by
  constructor
  · intro hnil
    have hlen := h.res.inv.len_perm
    rw [← h.cperm, hnil] at hlen
    have := h.lt
    simp at hlen
    omega
  · rw [h.clegs]
    simp

/-- The retained pair is the one the call started with, or it belongs to a
logged call with a length below `INT_MAX`, which is the only logged call with
its permutation. -/
theorem retained_origin (oracle : List PhantomNodes → Int) (N : Nat) (dist : List Int)
    (r : NNState) (h : runNN oracle N dist = some r) :
    (r.min_route = { InternalRouteResult.default with shortest_path_length := INT_MAX } ∧
      r.min_loc_permutation = [] ∧
      ∀ c ∈ r.calls, INT_MAX ≤ c.raw_route.shortest_path_length) ∨
    (∃ c0 ∈ r.calls, r.min_route = c0.raw_route ∧
      r.min_loc_permutation = c0.loc_permutation ∧
      c0.raw_route.shortest_path_length < INT_MAX ∧
      (∀ c ∈ r.calls,
        c0.raw_route.shortest_path_length ≤ c.raw_route.shortest_path_length) ∧
      (∀ c ∈ r.calls, c.start_node < c0.start_node →
        c0.raw_route.shortest_path_length < c.raw_route.shortest_path_length) ∧
      (∀ c ∈ r.calls, c.loc_permutation = c0.loc_permutation → c = c0)) := by
  have hinv := runNN_inv oracle N dist r h
  rcases retained_cases r.calls
      ((initState N InternalRouteResult.default []).min_route,
        (initState N InternalRouteResult.default []).min_loc_permutation) hinv.sorted with
    ⟨heq, hall⟩ | ⟨c0, hc0, heq, hlt, hmin, hfirst⟩
  · left
    have hb := hinv.best
    rw [heq] at hb
    exact ⟨congrArg Prod.fst hb, congrArg Prod.snd hb, hall⟩
  · right
    have hb := hinv.best
    rw [heq] at hb
    refine ⟨c0, hc0, congrArg Prod.fst hb, congrArg Prod.snd hb, hlt, hmin, hfirst, ?_⟩
    intro c hc hperm
    obtain ⟨isl, t, order, hcall⟩ := hinv.ok c hc
    obtain ⟨isl0, t0, order0, hcall0⟩ := hinv.ok c0 hc0
    obtain ⟨hto, hhead⟩ := hcall.isTourOrder
    obtain ⟨hto0, hhead0⟩ := hcall0.isTourOrder
    rw [hperm] at hto
    exact eq_of_start_eq r.calls c c0 hinv.sorted hc hc0
      (IsTourOrder.start_unique hto hto0 hhead hhead0)

theorem lt_of_getD_eq_one (isl : List Int) (N i : Nat) (hlen : isl.length = N)
    (h : isl.getD i 0 = 1) : i < N := by
  by_contra hge
  have : isl.getD i 0 = 0 := by
    rw [List.getD_eq_getElem?_getD, List.getElem?_eq_none_iff.mpr (by rw [hlen]; omega)]
    rfl
  omega

/-- The tour of a logged call is complete exactly when it has visited `N`
locations. -/
theorem TourCall.complete_iff {oracle : List PhantomNodes → Int} {N : Nat} {dist : List Int}
    {isl : List Int} {t : TourState} {order : List Nat} {c : Candidate}
    (h : TourCall oracle N dist isl t order c) :
    Complete N c ↔ order.length = N := by
  constructor
  · intro hc
    rcases h.res.fin with hfull | ⟨hlt, _⟩
    · exact hfull
    · obtain ⟨j, hj, hjn⟩ := exists_not_mem_of_incomplete N order hlt
      exact absurd (h.of_not_mem j hj hjn).1 (hc j hj)
  · intro hfull j hj
    have hmem := mem_of_complete N order h.res.inv.nodup h.res.inv.bound hfull j hj
    obtain ⟨m, hm⟩ := List.mem_iff_getElem?.mp hmem
    rw [h.cperm, h.res.inv.pos m j hm]
    omega

/-- In the log, the calls with a complete tour come before the calls with
an incomplete tour: once a tour has ended early, some location is marked as
a lonely island for the rest of the call. -/
theorem complete_before_incomplete (oracle : List PhantomNodes → Int) (N : Nat)
    (dist : List Int) (r : NNState) (h : runNN oracle N dist = some r) :
    ∀ c1 ∈ r.calls, ∀ c2 ∈ r.calls, Complete N c1 → ¬ Complete N c2 →
      c1.start_node < c2.start_node := by
  have key := startLoop_induction oracle N dist
    (fun k st => st.is_lonely_island.length = N ∧
      (∀ c ∈ st.calls, c.start_node < k) ∧
      (∀ c1 ∈ st.calls, ∀ c2 ∈ st.calls, Complete N c1 → ¬ Complete N c2 →
        c1.start_node < c2.start_node) ∧
      ((∃ c ∈ st.calls, ¬ Complete N c) → ∃ u, st.is_lonely_island.getD u 0 = 1))
    (by
      intro k st st2 hk hP hts
      obtain ⟨hlen, hstarts, hpairs, hmarked⟩ := hP
      have hstarts2 : ∀ c ∈ st.calls, c.start_node < k + 1 := by
        intro c hc
        have := hstarts c hc
        omega
      rcases tryStart_cases oracle N dist st st2 k hlen hk hts with
        ⟨_, h2⟩ | ⟨hzero, _, h2⟩ | ⟨_, t, order, c, hcall, hcs, hisl, hcalls2, _⟩
      · subst h2
        exact ⟨hlen, hstarts2, hpairs, hmarked⟩
      · subst h2
        refine ⟨by simp [hlen], hstarts2, hpairs, ?_⟩
        intro hex
        obtain ⟨u, hu⟩ := hmarked hex
        refine ⟨u, ?_⟩
        show (st.is_lonely_island.set k 1).getD u 0 = 1
        rw [getD_set_ne _ _ _ _ _ (by intro he; rw [he] at hzero; omega)]
        exact hu
      · have hnew : (∃ c2 ∈ st.calls, ¬ Complete N c2) → ¬ Complete N c := by
          rintro hex hcomp
          obtain ⟨u, hu⟩ := hmarked hex
          have hab := hcall.absorb u hu
          exact hcomp u (lt_of_getD_eq_one _ N u hlen hu) hab.2.2.1
        refine ⟨by rw [hisl]; exact hcall.res.inv.len_isl, ?_, ?_, ?_⟩
        · intro c2 hc2
          rw [hcalls2] at hc2
          rcases List.mem_append.mp hc2 with hc2 | hc2
          · exact hstarts2 c2 hc2
          · rw [List.mem_singleton] at hc2
            rw [hc2, hcs]; omega
        · intro c1 hc1 c2 hc2 hcomp1 hcomp2
          rw [hcalls2] at hc1 hc2
          rcases List.mem_append.mp hc1 with hc1 | hc1 <;>
            rcases List.mem_append.mp hc2 with hc2 | hc2
          · exact hpairs c1 hc1 c2 hc2 hcomp1 hcomp2
          · rw [List.mem_singleton] at hc2
            rw [hc2, hcs]
            exact hstarts c1 hc1
          · rw [List.mem_singleton] at hc1
            rw [hc1] at hcomp1
            exact absurd hcomp1 (hnew ⟨c2, hc2, hcomp2⟩)
          · rw [List.mem_singleton] at hc1 hc2
            rw [hc1] at hcomp1
            rw [hc2] at hcomp2
            exact absurd hcomp1 hcomp2
        · rintro ⟨c2, hc2, hcomp2⟩
          rw [hcalls2] at hc2
          rw [hisl]
          rcases List.mem_append.mp hc2 with hc2 | hc2
          · obtain ⟨u, hu⟩ := hmarked ⟨c2, hc2, hcomp2⟩
            exact ⟨u, (hcall.absorb u hu).2.2.2⟩
          · rw [List.mem_singleton] at hc2
            rw [hc2] at hcomp2
            have hlt : order.length < N := by
              rcases hcall.res.fin with hfull | ⟨hlt, _⟩
              · exact absurd (hcall.complete_iff.mpr hfull) hcomp2
              · exact hlt
            obtain ⟨j, hj, hjn⟩ := exists_not_mem_of_incomplete N order hlt
            exact ⟨j, (hcall.of_not_mem j hj hjn).2⟩)
    N 0 (initState N InternalRouteResult.default []) r (by omega)
    ⟨by simp [initState], by intro c hc; simp [initState] at hc,
      by intro c hc; simp [initState] at hc,
      by rintro ⟨c, hc, _⟩; simp [initState] at hc⟩ h
  exact key.2.2.1

/-- The legs of a logged call connect visited locations only. -/
theorem TourCall.leg_mem {oracle : List PhantomNodes → Int} {N : Nat} {dist : List Int}
    {isl : List Int} {t : TourState} {order : List Nat} {c : Candidate}
    (h : TourCall oracle N dist isl t order c) (leg : PhantomNodes)
    (hleg : leg ∈ c.raw_route.segment_end_coordinates) :
    leg.source_phantom ∈ order ∧ leg.target_phantom ∈ order := by
  rw [h.legs_closed] at hleg
  obtain ⟨m, hm⟩ := List.mem_iff_getElem?.mp hleg
  obtain ⟨hs, ht⟩ := consecutiveLegs_getElem_inv _ m leg hm
  have hsm := List.getElem?_mem hs
  have htm := List.getElem?_mem ht
  have hstart := h.res.inv.start_mem
  constructor
  · rcases List.mem_append.mp hsm with hx | hx
    · exact hx
    · rw [List.mem_singleton] at hx; rw [hx]; exact hstart
  · rcases List.mem_append.mp htm with hx | hx
    · exact hx
    · rw [List.mem_singleton] at hx; rw [hx]; exact hstart

/-- A start that is marked as a lonely island is skipped: the iteration
returns the state as it is, whatever the table and the oracle are. -/
theorem tryStart_skip (oracle : List PhantomNodes → Int) (N : Nat) (dist : List Int)
    (st : NNState) (i : Nat) (h : st.is_lonely_island.getD i 0 = 1) :
    tryStart oracle N dist st i = some st := by
  rw [tryStart_flat]
  unfold buildTour
  rw [if_pos (by rw [h]; omega)]

/-- When there are at least two locations and every entry off the diagonal
is neither `0` nor `INT_MAX` (nor above), the call is defined, every start
is tried and every tour is complete. -/
theorem allReachable_defined (oracle : List PhantomNodes → Int) (N : Nat)
    (dist : List Int) (hN : 2 ≤ N)
    (hreach : ∀ a b, a < N → b < N → a ≠ b →
      entry N dist a b ≠ 0 ∧ entry N dist a b < INT_MAX) :
    ∃ r, runNN oracle N dist = some r ∧
      (∀ s, s < N → ∃ c ∈ r.calls, c.start_node = s) ∧
      (∀ c ∈ r.calls, Complete N c) := by
  have hother : ∀ k, k < N → ∃ b, b < N ∧ b ≠ k := by
    intro k _
    by_cases h0 : k = 0
    · exact ⟨1, by omega, by omega⟩
    · exact ⟨0, by omega, by omega⟩
  have key := startLoop_progress oracle N dist
    (fun k st => st.is_lonely_island.length = N ∧
      (∀ j, j < N → st.is_lonely_island.getD j 0 ≤ 0) ∧
      (∀ s, s < k → ∃ c ∈ st.calls, c.start_node = s) ∧
      ∀ c ∈ st.calls, Complete N c)
    (by
      intro k st hk hP
      obtain ⟨hlen, hisl, htried, hcalls⟩ := hP
      have hfull : ∀ order, TourResult N dist k (st.is_lonely_island.set k (-1))
          (viaLoop N dist (N - 1) 1 (initTour N st.is_lonely_island k)) order →
          order.length = N := by
        intro order hres
        rcases hres.fin with hfull | ⟨hlt, hstuck⟩
        · exact hfull
        · exfalso
          obtain ⟨j, hj, hjn⟩ := exists_not_mem_of_incomplete N order hlt
          have hcurr := hres.inv.curr_mem
          have hcj : (viaLoop N dist (N - 1) 1
              (initTour N st.is_lonely_island k)).curr_node ≠ j :=
            fun he => hjn (he ▸ hcurr)
          refine (hstuck j hj hjn).2 ⟨?_, (hreach _ j (hres.inv.bound _ hcurr) hj hcj).2⟩
          by_cases hjk : k = j
          · subst hjk
            rw [getD_set_self _ _ _ _ (by rw [hlen]; exact hj)]
            omega
          · rw [getD_set_ne _ _ _ _ _ hjk]
            have := hisl j hj
            omega
      obtain ⟨st2, hts⟩ := tryStart_defined oracle N dist st k hlen hk
        (fun order hres _ _ => by rw [hfull order hres]; exact hN)
      refine ⟨st2, hts, ?_⟩
      rcases tryStart_cases oracle N dist st st2 k hlen hk hts with
        ⟨hpos, _⟩ | ⟨_, hsent, _⟩ | ⟨_, t, order, c, hcall, hcs, hisl2, hcalls2, _⟩
      · have := hisl k hk
        omega
      · exfalso
        obtain ⟨b, hb, hbk⟩ := hother k hk
        have h1 := hreach k b hk hb (Ne.symm hbk)
        have h2 := hsent b hb
        omega
      · have hres := hcall.res
        have hlenN : order.length = N := by
          rcases hres.fin with hfull2 | ⟨hlt, hstuck⟩
          · exact hfull2
          · exfalso
            obtain ⟨j, hj, hjn⟩ := exists_not_mem_of_incomplete N order hlt
            have hcurr := hres.inv.curr_mem
            have hcj : t.curr_node ≠ j := fun he => hjn (he ▸ hcurr)
            refine (hstuck j hj hjn).2 ⟨?_, (hreach _ j (hres.inv.bound _ hcurr) hj hcj).2⟩
            by_cases hjk : c.start_node = j
            · rw [hjk, getD_set_self _ _ _ _ (by rw [hlen]; exact hj)]
              omega
            · rw [getD_set_ne _ _ _ _ _ hjk]
              have := hisl j hj
              omega
        refine ⟨by rw [hisl2]; exact hres.inv.len_isl, ?_, ?_, ?_⟩
        · intro j hj
          rw [hisl2, hres.inv.conn j
            (mem_of_complete N order hres.inv.nodup hres.inv.bound hlenN j hj)]
          omega
        · intro s hs
          by_cases hsk : s = k
          · exact ⟨c, by rw [hcalls2]; simp, by rw [hcs, hsk]⟩
          · obtain ⟨c2, hc2, hc2s⟩ := htried s (by omega)
            exact ⟨c2, by rw [hcalls2]; exact List.mem_append_left _ hc2, hc2s⟩
        · intro c2 hc2
          rw [hcalls2] at hc2
          rcases List.mem_append.mp hc2 with hc2 | hc2
          · exact hcalls c2 hc2
          · rw [List.mem_singleton] at hc2
            rw [hc2]
            exact hcall.complete_iff.mpr hlenN)
    N 0 (initState N InternalRouteResult.default []) (by omega)
    ⟨by simp [initState],
      fun j hj => by
        show (List.replicate N (0 : Int)).getD j 0 ≤ 0
        rw [getD_replicate_lt N j 0 0 hj],
      fun s hs => by omega,
      by intro c hc; simp [initState] at hc⟩
  obtain ⟨r, hrun, _, _, htried, hcalls⟩ := key
  have he : 0 + N = N := by omega
  rw [he] at htried
  exact ⟨r, hrun, htried, hcalls⟩

/-- When the start check lets a start of unknown status through, the body
of the start loop is the tour construction. -/
theorem tryStart_build (oracle : List PhantomNodes → Int) (N : Nat) (dist : List Int)
    (st : NNState) (start : Nat) (hz : st.is_lonely_island.getD start 0 = 0)
    (hrow : ¬ ∀ j, j < N → (entry N dist start j = 0 ∨ entry N dist start j = INT_MAX)) :
    tryStart oracle N dist st start = buildTour oracle N dist st start := by
  rw [tryStart_flat, if_neg (by rw [hz]; omega),
    if_neg (fun hc => hrow ((countUnreachables_ge_iff N dist start).mp hc.2))]

/-- When every entry of the table, the diagonal entries included, is `0` or
`INT_MAX`, `NearestNeighbour` returns and reports no route: every start is
marked as a lonely island by the start check, the oracle is never called,
`min_route` is left as it was with length `INT_MAX` and
`min_loc_permutation` is left empty. -/
theorem allSentinel_no_route (oracle : List PhantomNodes → Int) (N : Nat)
    (dist : List Int) (_hdist : dist.length = N * N)
    (hall : ∀ i, i < N → ∀ j, j < N → (entry N dist i j = 0 ∨ entry N dist i j = INT_MAX)) :
    ∃ r, runNN oracle N dist = some r ∧
      r.calls = [] ∧
      r.min_route = { InternalRouteResult.default with shortest_path_length := INT_MAX } ∧
      r.min_route.shortest_path_length = INT_MAX ∧
      r.min_loc_permutation = [] ∧
      r.is_lonely_island.length = N ∧
      ∀ j, j < N → r.is_lonely_island.getD j 0 = 1 := by
  have key := startLoop_progress oracle N dist
    (fun k st => st.calls = [] ∧
      st.min_route = { InternalRouteResult.default with shortest_path_length := INT_MAX } ∧
      st.min_loc_permutation = [] ∧
      st.is_lonely_island.length = N ∧
      (∀ j, j < k → st.is_lonely_island.getD j 0 = 1) ∧
      (∀ j, k ≤ j → j < N → st.is_lonely_island.getD j 0 = 0))
    (by
      intro k st hk hP
      obtain ⟨hcalls, hroute, hperm, hlen, hdone, htodo⟩ := hP
      refine ⟨_, tryStart_mark oracle N dist st k (htodo k (le_refl k) hk) (hall k hk),
        hcalls, hroute, hperm, by simp [hlen], ?_, ?_⟩
      · intro j hj
        show (st.is_lonely_island.set k 1).getD j 0 = 1
        by_cases hjk : k = j
        · subst hjk
          exact getD_set_self _ _ _ _ (by rw [hlen]; exact hk)
        · rw [getD_set_ne _ _ _ _ _ hjk]
          exact hdone j (by omega)
      · intro j hj hjN
        show (st.is_lonely_island.set k 1).getD j 0 = 0
        rw [getD_set_ne _ _ _ _ _ (by omega)]
        exact htodo j (by omega) hjN)
    N 0 (initState N InternalRouteResult.default []) (by omega)
    ⟨rfl, rfl, rfl, by simp [initState], fun j hj => by omega,
      fun j _ hj => by
        show (List.replicate N (0 : Int)).getD j 0 = 0
        exact getD_replicate_lt N j 0 0 hj⟩
  obtain ⟨r, hrun, hcalls, hroute, hperm, hlen, hdone, _⟩ := key
  have he : 0 + N = N := by omega
  rw [he] at hdone
  exact ⟨r, hrun, hcalls, hroute, by rw [hroute], hperm, hlen, hdone⟩

/-- The start check, for a start whose status is unknown (`0`) when its turn
comes: if all `N` entries of its row are `0` or `INT_MAX`, the iteration
marks it as a lonely island (`1`) and ends without building a tour;
otherwise the iteration is the tour construction from that start, which is
entered with the start marked connected (`-1`), and whenever it returns the
start is still marked `-1` and exactly one call of the oracle, for a tour
from that start, has been logged. -/
theorem startCheck_decides (oracle : List PhantomNodes → Int) (N : Nat)
    (dist : List Int) (st : NNState) (start : Nat) (_hdist : dist.length = N * N)
    (hs : start < N) (hlen : st.is_lonely_island.length = N)
    (hz : st.is_lonely_island.getD start 0 = 0) :
    ((∀ j, j < N → (entry N dist start j = 0 ∨ entry N dist start j = INT_MAX)) →
      tryStart oracle N dist st start
        = some { st with is_lonely_island := st.is_lonely_island.set start 1 } ∧
      (st.is_lonely_island.set start 1).getD start 0 = 1) ∧
    (¬ (∀ j, j < N → (entry N dist start j = 0 ∨ entry N dist start j = INT_MAX)) →
      tryStart oracle N dist st start = buildTour oracle N dist st start ∧
      (initTour N st.is_lonely_island start).is_lonely_island.getD start 0 = -1 ∧
      ∀ st2, tryStart oracle N dist st start = some st2 →
        st2.is_lonely_island.getD start 0 = -1 ∧
        ∃ c, st2.calls = st.calls ++ [c] ∧ c.start_node = start ∧
          c.loc_permutation.getD start (-1) = 0) := by
  constructor
  · intro hrow
    exact ⟨tryStart_mark oracle N dist st start hz hrow,
      getD_set_self _ _ _ _ (by rw [hlen]; exact hs)⟩
  · intro hrow
    refine ⟨tryStart_build oracle N dist st start hz hrow, ?_, ?_⟩
    · show (st.is_lonely_island.set start (-1)).getD start 0 = -1
      exact getD_set_self _ _ _ _ (by rw [hlen]; exact hs)
    · intro st2 hts
      rcases tryStart_cases oracle N dist st st2 start hlen hs hts with
        ⟨hpos, _⟩ | ⟨_, hsent, _⟩ | ⟨_, t, order, c, hcall, hcs, hisl, hcalls, _⟩
      · omega
      · exact absurd hsent hrow
      · have hmem : start ∈ order := by
          have := hcall.res.inv.start_mem
          rw [hcs] at this
          exact this
        refine ⟨by rw [hisl]; exact hcall.res.inv.conn start hmem, c, hcalls, hcs, ?_⟩
        have e0 : order[0]? = some start := by
          rw [← List.head?_eq_getElem?, ← hcs]; exact hcall.res.inv.head
        have := hcall.res.inv.pos 0 start e0
        rw [hcall.cperm]
        simpa using this

/-- In a row whose diagonal entry is `0`, all `N` entries are `0` or
`INT_MAX` exactly when the `N - 1` entries other than the diagonal entry
are. -/
theorem row_sentinel_iff (N : Nat) (dist : List Int) (start : Nat)
    (hdiag : entry N dist start start = 0) :
    (∀ j, j < N → (entry N dist start j = 0 ∨ entry N dist start j = INT_MAX)) ↔
      (∀ j, j < N → j ≠ start →
        (entry N dist start j = 0 ∨ entry N dist start j = INT_MAX)) := by
  constructor
  · intro h j hj _
    exact h j hj
  · intro h j hj
    by_cases hjs : j = start
    · subst hjs
      exact Or.inl hdiag
    · exact h j hj hjs

/-- The start check on a row whose diagonal entry is `0`, for a start whose
status is unknown (`0`) when its turn comes: the start is marked as a lonely
island (`1`), without a tour, exactly when the `N - 1` entries of its row
other than the diagonal entry are `0` or `INT_MAX`; otherwise the iteration
is the tour construction from that start, entered with the start marked
connected (`-1`), and whenever it returns the start is still marked `-1` and
exactly one call of the oracle, for a tour from that start, has been
logged. -/
theorem startCheck_off_diagonal (oracle : List PhantomNodes → Int) (N : Nat)
    (dist : List Int) (st : NNState) (start : Nat) (hdist : dist.length = N * N)
    (hs : start < N) (hlen : st.is_lonely_island.length = N)
    (hz : st.is_lonely_island.getD start 0 = 0)
    (hdiag : entry N dist start start = 0) :
    ((∀ j, j < N → j ≠ start →
        (entry N dist start j = 0 ∨ entry N dist start j = INT_MAX)) ↔
      tryStart oracle N dist st start
        = some { st with is_lonely_island := st.is_lonely_island.set start 1 }) ∧
    (¬ (∀ j, j < N → j ≠ start →
        (entry N dist start j = 0 ∨ entry N dist start j = INT_MAX)) →
      tryStart oracle N dist st start = buildTour oracle N dist st start ∧
      (initTour N st.is_lonely_island start).is_lonely_island.getD start 0 = -1 ∧
      ∀ st2, tryStart oracle N dist st start = some st2 →
        st2.is_lonely_island.getD start 0 = -1 ∧
        ∃ c, st2.calls = st.calls ++ [c] ∧ c.start_node = start ∧
          c.loc_permutation.getD start (-1) = 0) := by
  have hd := startCheck_decides oracle N dist st start hdist hs hlen hz
  have hiff := row_sentinel_iff N dist start hdiag
  refine ⟨⟨fun h => (hd.1 (hiff.2 h)).1, ?_⟩, fun h => hd.2 (fun hall => h (hiff.1 hall))⟩
  intro hmark
  by_contra hnot
  have hb := hd.2 (fun hall => hnot (hiff.1 hall))
  have h1 := (hb.2.2 _ hmark).1
  have h2 : (st.is_lonely_island.set start 1).getD start 0 = 1 :=
    getD_set_self _ _ _ _ (by rw [hlen]; exact hs)
  have h3 : ({ st with is_lonely_island := st.is_lonely_island.set start 1 } :
      NNState).is_lonely_island.getD start 0 = 1 := h2
  rw [h3] at h1
  omega

/-! ## The descriptor and the request handler -/

/-- For a raw route with a shortest path and an alternative path,
`alternative_route` of the response is the local `mainRoute` as it is at
line 236, before the route names are added. -/
theorem PBF.Run_alternative (config : PBF.Config) (GetEscapedNameForNameID : Nat → String)
    (encode : PBF.PhantomNode → String) (raw_route : PBF.RawRouteData)
    (main alt : PBF.Description) (route_names : PBF.RouteNames)
    (first last : PBF.PhantomNodes)
    (hvalid : INVALID_EDGE_WEIGHT ≠ raw_route.shortest_path_length)
    (halt : INVALID_EDGE_WEIGHT ≠ raw_route.alternative_path_length)
    (hfirst : raw_route.segment_end_coordinates.head? = some first)
    (hlast : raw_route.segment_end_coordinates.getLast? = some last) :
    ∃ res, PBF.Run config GetEscapedNameForNameID encode raw_route main alt route_names
        = some res ∧
      res.response.alternative_route
        = some (PBF.mainRouteOf config GetEscapedNameForNameID raw_route first main) ∧
      res.alternativeRoute
        = some (PBF.alternativeRouteOf config GetEscapedNameForNameID main alt
            route_names) := by
  unfold PBF.Run
  rw [if_neg hvalid, hfirst, hlast]
  simp only [if_pos halt]
  exact ⟨_, rfl, rfl, rfl⟩

/-- When `check_all_coordinates` rejects the coordinates, `HandleRequest`
returns 400 with `json_result` as it was and without a call of a
collaborator. -/
theorem HandleRequest_rejected (facade : Collaborators) (route_parameters : RouteParameters)
    (json_result : List (String × JsonValue))
    (h : facade.check_all_coordinates route_parameters.coordinates = false) :
    HandleRequest facade route_parameters json_result
      = some { status := 400, json_result := json_result, events := [] } := by
  unfold HandleRequest
  rw [if_pos h]

/-- When the coordinates are accepted and a lookup has found no phantom
node, the call of `HandleRequest` has no defined result. -/
theorem HandleRequest_empty_lookup (facade : Collaborators)
    (route_parameters : RouteParameters) (json_result : List (String × JsonValue))
    (h : facade.check_all_coordinates route_parameters.coordinates ≠ false)
    (hmem : [] ∈ (findPhantoms facade route_parameters).1) :
    HandleRequest facade route_parameters json_result = none := by
  unfold HandleRequest
  rw [if_neg h]
  simp only
  rw [if_pos hmem]

/-- When the coordinates are accepted, every lookup has found a phantom node
and there is no distance table, `HandleRequest` returns 400 with
`json_result` as it was, after the phantom node lookups and the request for
the table. -/
theorem HandleRequest_no_table (facade : Collaborators) (route_parameters : RouteParameters)
    (json_result : List (String × JsonValue))
    (h : facade.check_all_coordinates route_parameters.coordinates ≠ false)
    (hne : [] ∉ (findPhantoms facade route_parameters).1)
    (ht : facade.distance_table (findPhantoms facade route_parameters).1 = none) :
    HandleRequest facade route_parameters json_result
      = some { status := 400, json_result := json_result
               events := (findPhantoms facade route_parameters).2
                 ++ [Event.distanceTable] } := by
  unfold HandleRequest
  rw [if_neg h]
  simp only
  rw [if_neg hne, ht]

/-- When the coordinates are accepted, every lookup has found a phantom node
and there is a distance table, the result of `HandleRequest` is defined
exactly when the result of `NearestNeighbour` is, and then the status is
200. -/
theorem HandleRequest_table (facade : Collaborators) (route_parameters : RouteParameters)
    (json_result : List (String × JsonValue)) (result_table : List Int)
    (h : facade.check_all_coordinates route_parameters.coordinates ≠ false)
    (hne : [] ∉ (findPhantoms facade route_parameters).1)
    (ht : facade.distance_table (findPhantoms facade route_parameters).1
      = some result_table) :
    (HandleRequest facade route_parameters json_result).map (fun res => res.status)
      = (NearestNeighbour (facade.shortest_path (findPhantoms facade route_parameters).1)
          (findPhantoms facade route_parameters).1.length result_table
          InternalRouteResult.default []).map (fun _ => 200) := by
  unfold HandleRequest
  rw [if_neg h]
  simp only
  rw [if_neg hne, ht]
  simp only
  cases NearestNeighbour (facade.shortest_path (findPhantoms facade route_parameters).1)
      (findPhantoms facade route_parameters).1.length result_table
      InternalRouteResult.default [] with
  | none => rfl
  | some r => rfl

/-- Whenever `HandleRequest` returns, the status is 400 exactly when the
coordinates were rejected or there was no distance table, and it is 200
otherwise. -/
theorem HandleRequest_status (facade : Collaborators) (route_parameters : RouteParameters)
    (json_result : List (String × JsonValue)) (res : HandleResult)
    (h : HandleRequest facade route_parameters json_result = some res) :
    (res.status = 400 ↔
      (facade.check_all_coordinates route_parameters.coordinates = false ∨
        facade.distance_table (findPhantoms facade route_parameters).1 = none)) ∧
    (res.status = 400 ∨ res.status = 200) := by
  by_cases hc : facade.check_all_coordinates route_parameters.coordinates = false
  · rw [HandleRequest_rejected facade route_parameters json_result hc] at h
    injection h with h
    rw [← h]
    exact ⟨⟨fun _ => Or.inl hc, fun _ => rfl⟩, Or.inl rfl⟩
  · have hne : [] ∉ (findPhantoms facade route_parameters).1 := by
      intro hmem
      rw [HandleRequest_empty_lookup facade route_parameters json_result hc hmem] at h
      exact Option.noConfusion h
    cases ht : facade.distance_table (findPhantoms facade route_parameters).1 with
    | none =>
      rw [HandleRequest_no_table facade route_parameters json_result hc hne ht] at h
      injection h with h
      rw [← h]
      exact ⟨⟨fun _ => Or.inr rfl, fun _ => rfl⟩, Or.inl rfl⟩
    | some result_table =>
      have hs := HandleRequest_table facade route_parameters json_result result_table hc
        hne ht
      rw [h] at hs
      have h200 : res.status = 200 := by
        cases hn : NearestNeighbour
            (facade.shortest_path (findPhantoms facade route_parameters).1)
            (findPhantoms facade route_parameters).1.length result_table
            InternalRouteResult.default [] with
        | none => rw [hn] at hs; simp at hs
        | some r =>
          rw [hn] at hs
          simp only [Option.map_some'] at hs
          injection hs
      refine ⟨⟨?_, ?_⟩, Or.inr h200⟩
      · intro h400
        rw [h200] at h400
        omega
      · rintro (h1 | h1)
        · exact absurd h1 hc
        · exact Option.noConfusion h1

/-! ## The properties of the round-trip plugin and of the descriptor -/

/-- C1. For every `N`, every `N * N` table and every oracle, the permutation
that `NearestNeighbour` returns is empty, or it is the `loc_permutation` of a
logged call and describes a well-formed tour: the locations with a position,
listed by position, form a sequence `order` without repetition and inside
`[0, N)`, the location at place `m` has position `m`, the others have `-1`,
the start location has position `0`; `order` is a permutation of `[0, N)`
when it has `N` entries and of a strict subset otherwise. The call does
return when there are at least two locations and every entry off the
diagonal is neither `0` nor `INT_MAX`; every tour is complete then. -/
theorem C1_retained_permutation_well_formed (oracle : List PhantomNodes → Int) (N : Nat)
    (dist : List Int) (_hdist : dist.length = N * N) :
    (∀ r, runNN oracle N dist = some r →
      (r.min_loc_permutation = [] ∨
      ∃ c ∈ r.calls, ∃ order : List Nat,
        r.min_loc_permutation = c.loc_permutation ∧
        IsTourOrder N r.min_loc_permutation order ∧
        order.head? = some c.start_node ∧
        r.min_loc_permutation.getD c.start_node (-1) = 0 ∧
        (order.length = N → order.Perm (List.range N)) ∧
        (order.length < N → order ⊆ List.range N ∧ ∃ j, j < N ∧ j ∉ order))) ∧
    (2 ≤ N →
      (∀ a, a < N → ∀ b, b < N → a ≠ b →
        entry N dist a b ≠ 0 ∧ entry N dist a b < INT_MAX) →
      ∃ r, runNN oracle N dist = some r ∧ ∀ c ∈ r.calls, Complete N c) := by
  constructor
  · intro r h
    have hinv := runNN_inv oracle N dist r h
    rcases retained_cases r.calls
        ((initState N InternalRouteResult.default []).min_route,
          (initState N InternalRouteResult.default []).min_loc_permutation) hinv.sorted with
      ⟨heq, _⟩ | ⟨c, hc, heq, _, _, _⟩
    · left
      have := hinv.best
      rw [heq] at this
      exact congrArg Prod.snd this
    · right
      have hb := hinv.best
      rw [heq] at hb
      have hperm : r.min_loc_permutation = c.loc_permutation := congrArg Prod.snd hb
      obtain ⟨isl, t, order, hcall⟩ := hinv.ok c hc
      obtain ⟨hto, hhead⟩ := hcall.isTourOrder
      refine ⟨c, hc, order, hperm, by rw [hperm]; exact hto, hhead, ?_, ?_, ?_⟩
      · rw [hperm]
        have e : order[0]? = some c.start_node := by
          rw [← List.head?_eq_getElem?]; exact hhead
        have := hto.2.2.2.1 0 c.start_node e
        simpa using this
      · intro hlen
        have hsub : order ⊆ List.range N :=
          fun x hx => List.mem_range.mpr (hto.2.2.1 x hx)
        exact (List.subperm_of_subset hto.2.1 hsub).perm_of_length_le (by simp [hlen])
      · intro hlen
        exact ⟨fun x hx => List.mem_range.mpr (hto.2.2.1 x hx),
          exists_not_mem_of_incomplete N order hlen⟩
  · intro hN hreach
    obtain ⟨r, hrun, _, hcomp⟩ := allReachable_defined oracle N dist hN
      (fun a b ha hb hab => hreach a ha b hb hab)
    exact ⟨r, hrun, hcomp⟩

/-- C1, at `tableA`, where the run returns the permutation `[0, 1, -1]` of
an incomplete tour, and at `tableT`, where every location reaches every
other. -/
theorem C1_retained_permutation_well_formed_witness :
    (runNN legCount 3 tableA = some resultA ∧
      (resultA.min_loc_permutation = [] ∨
      ∃ c ∈ resultA.calls, ∃ order : List Nat,
        resultA.min_loc_permutation = c.loc_permutation ∧
        IsTourOrder 3 resultA.min_loc_permutation order ∧
        order.head? = some c.start_node ∧
        resultA.min_loc_permutation.getD c.start_node (-1) = 0 ∧
        (order.length = 3 → order.Perm (List.range 3)) ∧
        (order.length < 3 → order ⊆ List.range 3 ∧ ∃ j, j < 3 ∧ j ∉ order))) ∧
    ((∀ a, a < 4 → ∀ b, b < 4 → a ≠ b →
        entry 4 tableT a b ≠ 0 ∧ entry 4 tableT a b < INT_MAX) ∧
      ∃ r, runNN legCount 4 tableT = some r ∧ ∀ c ∈ r.calls, Complete 4 c) :=
  ⟨⟨by decide,
      (C1_retained_permutation_well_formed legCount 3 tableA (by decide)).1 resultA
        (by decide)⟩,
    ⟨by decide,
      (C1_retained_permutation_well_formed legCount 4 tableT (by decide)).2 (by decide)
        (by decide)⟩⟩

/-- C2. For every table and every oracle, the length that `NearestNeighbour`
retains is at most the length of every logged call; the retained pair is
the one the call started with (nothing was shorter than `INT_MAX`), or it is
the route and permutation of a logged call whose length is at most the
length of every logged call and whose start index is the lowest among the
logged calls of that length. The start indices of the log increase. -/
theorem C2_retained_is_first_minimum (oracle : List PhantomNodes → Int) (N : Nat)
    (dist : List Int) (r : NNState) (_hdist : dist.length = N * N)
    (h : runNN oracle N dist = some r) :
    (∀ c ∈ r.calls,
      r.min_route.shortest_path_length ≤ c.raw_route.shortest_path_length) ∧
    r.calls.Pairwise (fun a b => a.start_node < b.start_node) ∧
    ((r.min_route = { InternalRouteResult.default with shortest_path_length := INT_MAX } ∧
        r.min_loc_permutation = [] ∧
        ∀ c ∈ r.calls, INT_MAX ≤ c.raw_route.shortest_path_length) ∨
      ∃ c0 ∈ r.calls, r.min_route = c0.raw_route ∧
        r.min_loc_permutation = c0.loc_permutation ∧
        c0.raw_route.shortest_path_length < INT_MAX ∧
        (∀ c ∈ r.calls,
          c0.raw_route.shortest_path_length ≤ c.raw_route.shortest_path_length) ∧
        (∀ c ∈ r.calls,
          c.raw_route.shortest_path_length = c0.raw_route.shortest_path_length →
          c0.start_node ≤ c.start_node)) := by
  have hinv := runNN_inv oracle N dist r h
  rcases retained_cases r.calls
      ((initState N InternalRouteResult.default []).min_route,
        (initState N InternalRouteResult.default []).min_loc_permutation) hinv.sorted with
    ⟨heq, hall⟩ | ⟨c0, hc0, heq, hlt, hmin, hfirst⟩
  · have hb := hinv.best
    rw [heq] at hb
    have hroute : r.min_route
        = { InternalRouteResult.default with shortest_path_length := INT_MAX } :=
      congrArg Prod.fst hb
    have hperm : r.min_loc_permutation = [] := congrArg Prod.snd hb
    refine ⟨?_, hinv.sorted, Or.inl ⟨hroute, hperm, hall⟩⟩
    intro c hc
    rw [hroute]
    exact hall c hc
  · have hb := hinv.best
    rw [heq] at hb
    have hroute : r.min_route = c0.raw_route := congrArg Prod.fst hb
    have hperm : r.min_loc_permutation = c0.loc_permutation := congrArg Prod.snd hb
    refine ⟨?_, hinv.sorted, Or.inr ⟨c0, hc0, hroute, hperm, hlt, hmin, ?_⟩⟩
    · intro c hc
      rw [hroute]
      exact hmin c hc
    · intro c hc hceq
      by_contra hcon
      have := hfirst c hc (by omega)
      omega

/-- C2, at `tableA`: both starts give length `2` and the retained
candidate is the one of start `0`. -/
theorem C2_retained_is_first_minimum_witness :
    runNN legCount 3 tableA = some resultA ∧
    (∀ c ∈ resultA.calls,
      resultA.min_route.shortest_path_length ≤ c.raw_route.shortest_path_length) ∧
    resultA.calls.Pairwise (fun a b => a.start_node < b.start_node) ∧
    ((resultA.min_route
          = { InternalRouteResult.default with shortest_path_length := INT_MAX } ∧
        resultA.min_loc_permutation = [] ∧
        ∀ c ∈ resultA.calls, INT_MAX ≤ c.raw_route.shortest_path_length) ∨
      ∃ c0 ∈ resultA.calls, resultA.min_route = c0.raw_route ∧
        resultA.min_loc_permutation = c0.loc_permutation ∧
        c0.raw_route.shortest_path_length < INT_MAX ∧
        (∀ c ∈ resultA.calls,
          c0.raw_route.shortest_path_length ≤ c.raw_route.shortest_path_length) ∧
        (∀ c ∈ resultA.calls,
          c.raw_route.shortest_path_length = c0.raw_route.shortest_path_length →
          c0.start_node ≤ c.start_node)) :=
  ⟨by decide,
    C2_retained_is_first_minimum legCount 3 tableA resultA (by decide) (by decide)⟩

/-- C3. For every logged call, the leg list handed to the oracle is the list
of consecutive pairs of the tour `order` in visiting order followed by the
leg from the last visited location back to the start: leg `m` goes from the
location at place `m` to the location at place `m + 1`, the source of each
leg is the target of the leg before it, there are as many legs as visited
locations (one less interior legs, one wrap-around leg), hence `N` legs for
a complete tour, and the logged length is the answer of the oracle on that
list. -/
theorem C3_legs_follow_tour (oracle : List PhantomNodes → Int) (N : Nat)
    (dist : List Int) (r : NNState) (_hdist : dist.length = N * N)
    (h : runNN oracle N dist = some r) :
    ∀ c ∈ r.calls, ∃ (order : List Nat) (last : Nat),
      IsTourOrder N c.loc_permutation order ∧
      order.head? = some c.start_node ∧ order.getLast? = some last ∧
      c.raw_route.segment_end_coordinates
        = consecutiveLegs order ++ [⟨last, c.start_node⟩] ∧
      (∀ (m a b : Nat), order[m]? = some a → order[m + 1]? = some b →
        c.raw_route.segment_end_coordinates[m]? = some ⟨a, b⟩) ∧
      (∀ (m : Nat) (l1 l2 : PhantomNodes),
        c.raw_route.segment_end_coordinates[m]? = some l1 →
        c.raw_route.segment_end_coordinates[m + 1]? = some l2 →
        l2.source_phantom = l1.target_phantom) ∧
      (consecutiveLegs order).length + 1 = order.length ∧
      c.raw_route.segment_end_coordinates.length = order.length ∧
      (order.length = N → c.raw_route.segment_end_coordinates.length = N) ∧
      c.raw_route.shortest_path_length = oracle c.raw_route.segment_end_coordinates := by
  have hinv := runNN_inv oracle N dist r h
  intro c hc
  obtain ⟨isl, t, order, hcall⟩ := hinv.ok c hc
  obtain ⟨hto, hhead⟩ := hcall.isTourOrder
  have hclosed := hcall.legs_closed
  have hlen1 := consecutiveLegs_length order
  have htwo := hcall.two
  have hlen : c.raw_route.segment_end_coordinates.length = order.length := by
    rw [hcall.clegs]; simp [hlen1]; omega
  refine ⟨order, t.curr_node, hto, hhead, hcall.res.inv.last, hcall.clegs, ?_, ?_,
    by omega, hlen, fun hN => by rw [hlen, hN], hcall.clen⟩
  · intro m a b ha hb
    rw [hclosed]
    have hm : m + 1 < order.length := by
      rcases List.getElem?_eq_some.mp hb with ⟨hlt, _⟩
      exact hlt
    apply consecutiveLegs_getElem
    · rw [List.getElem?_append_left (by omega)]; exact ha
    · rw [List.getElem?_append_left hm]; exact hb
  · intro m l1 l2 h1 h2
    rw [hclosed] at h1 h2
    have e1 := (consecutiveLegs_getElem_inv _ m l1 h1).2
    have e2 := (consecutiveLegs_getElem_inv _ (m + 1) l2 h2).1
    rw [e1] at e2
    injection e2 with e2
    exact e2.symm

/-- C3, at `tableT`: four complete tours, each handed to the oracle as four
legs. -/
theorem C3_legs_follow_tour_witness :
    runNN (tableOracle 4 tableT) 4 tableT = some resultT ∧
    ∀ c ∈ resultT.calls, ∃ (order : List Nat) (last : Nat),
      IsTourOrder 4 c.loc_permutation order ∧
      order.head? = some c.start_node ∧ order.getLast? = some last ∧
      c.raw_route.segment_end_coordinates
        = consecutiveLegs order ++ [⟨last, c.start_node⟩] ∧
      (∀ (m a b : Nat), order[m]? = some a → order[m + 1]? = some b →
        c.raw_route.segment_end_coordinates[m]? = some ⟨a, b⟩) ∧
      (∀ (m : Nat) (l1 l2 : PhantomNodes),
        c.raw_route.segment_end_coordinates[m]? = some l1 →
        c.raw_route.segment_end_coordinates[m + 1]? = some l2 →
        l2.source_phantom = l1.target_phantom) ∧
      (consecutiveLegs order).length + 1 = order.length ∧
      c.raw_route.segment_end_coordinates.length = order.length ∧
      (order.length = 4 → c.raw_route.segment_end_coordinates.length = 4) ∧
      c.raw_route.shortest_path_length
        = tableOracle 4 tableT c.raw_route.segment_end_coordinates :=
  ⟨by decide,
    C3_legs_follow_tour (tableOracle 4 tableT) 4 tableT resultT (by decide) (by decide)⟩

/-- C4, as amended. If the whole row of location `i`, the diagonal entry
included, consists of `0` and `INT_MAX`, and `is_lonely_island[i]` is not
negative when the turn of start `i` comes (no tour of an earlier start has
visited `i` and marked it connected), then no tour is built from `i`: no
logged call has start `i` and no leg list handed to the oracle has a first
leg that departs from `i`. -/
theorem C4_sentinel_row_not_a_start (oracle : List PhantomNodes → Int) (N : Nat)
    (dist : List Int) (i : Nat) (st r : NNState) (_hdist : dist.length = N * N)
    (hi : i < N)
    (hrow : ∀ j, j < N → (entry N dist i j = 0 ∨ entry N dist i j = INT_MAX))
    (hturn : startLoop oracle N dist i 0 (initState N InternalRouteResult.default [])
      = some st)
    (hstatus : 0 ≤ st.is_lonely_island.getD i 0)
    (h : runNN oracle N dist = some r) :
    ∀ c ∈ r.calls, c.start_node ≠ i ∧
      ∀ leg, c.raw_route.segment_end_coordinates.head? = some leg →
        leg.source_phantom ≠ i := by
  obtain ⟨st1, hts, hrest⟩ := runNN_split oracle N dist i hi st r hturn h
  obtain ⟨new1, hinv1⟩ := startLoop_inv oracle N dist i 0
    (initState N InternalRouteResult.default []) st (by omega) (by simp [initState]) hturn
  have hcalls1 : st1.calls = st.calls ∧ st1.is_lonely_island.length = N := by
    rcases tryStart_cases oracle N dist st st1 i hinv1.len hi hts with
      ⟨_, h2⟩ | ⟨_, _, h2⟩ | ⟨hc, _⟩
    · rw [h2]; exact ⟨rfl, hinv1.len⟩
    · rw [h2]; exact ⟨rfl, by simp [hinv1.len]⟩
    · exfalso
      rcases hc with hc | ⟨_, hc⟩
      · omega
      · exact hc hrow
  obtain ⟨new2, hinv2⟩ := startLoop_inv oracle N dist (N - i - 1) (i + 1) st1 r
    (by omega) hcalls1.2 hrest
  have hall := runNN_inv oracle N dist r h
  have hstart : ∀ c ∈ r.calls, c.start_node ≠ i := by
    intro c hc
    rw [hinv2.calls, hcalls1.1, hinv1.calls] at hc
    simp only [initState, List.nil_append] at hc
    rcases List.mem_append.mp hc with hc | hc
    · have := (hinv1.starts c hc).2; omega
    · have := (hinv2.starts c hc).1; omega
  intro c hc
  refine ⟨hstart c hc, ?_⟩
  intro leg hleg
  obtain ⟨isl, t, order, hcall⟩ := hall.ok c hc
  obtain ⟨b, hb⟩ := hcall.first_leg
  rw [hb] at hleg
  injection hleg with hleg
  rw [← hleg]
  exact hstart c hc

/-- C4 as amended, at `tableD` and location 0, whose status is unknown
when its turn comes. -/
theorem C4_sentinel_row_not_a_start_witness :
    (∀ j, j < 3 → (entry 3 tableD 0 j = 0 ∨ entry 3 tableD 0 j = INT_MAX)) ∧
    startLoop legCount 3 tableD 0 0 (initState 3 InternalRouteResult.default [])
      = some (initState 3 InternalRouteResult.default []) ∧
    runNN legCount 3 tableD = some resultD ∧
    ∀ c ∈ resultD.calls, c.start_node ≠ 0 ∧
      ∀ leg, c.raw_route.segment_end_coordinates.head? = some leg →
        leg.source_phantom ≠ 0 :=
  ⟨by decide, by decide, by decide,
    C4_sentinel_row_not_a_start legCount 3 tableD 0
      (initState 3 InternalRouteResult.default []) resultD (by decide) (by decide)
      (by decide) (by decide) (by decide) (by decide)⟩

/-- C4 fails as stated, in two ways. In `tableC` the entries of row 1 off
the diagonal are `0` and `INT_MAX`; location 1 is visited by the tour of
start 0 and marked connected, the start check is skipped for it, and the
oracle receives a leg list whose first leg departs from location 1. In
`tableG` the entry of row 0 off the diagonal is `0`, but the diagonal entry
`5` is not counted as unreachable: start 0 passes the start check and the
oracle receives a leg list whose first leg departs from location 0. -/
theorem C4_counterexample :
    ((∀ j, j < 3 → j ≠ 1 → (entry 3 tableC 1 j = 0 ∨ entry 3 tableC 1 j = INT_MAX)) ∧
      runNN legCount 3 tableC = some resultC ∧
      (⟨1, [1, 0, -1], ⟨[⟨1, 0⟩, ⟨0, 1⟩], 2⟩⟩ : Candidate) ∈ resultC.calls) ∧
    ((∀ j, j < 2 → j ≠ 0 → (entry 2 tableG 0 j = 0 ∨ entry 2 tableG 0 j = INT_MAX)) ∧
      runNN legCount 2 tableG = some resultG ∧
      (⟨0, [0, 1], ⟨[⟨0, 1⟩, ⟨1, 0⟩], 2⟩⟩ : Candidate) ∈ resultG.calls) := by
  refine ⟨⟨by decide, by decide, by decide⟩, ⟨by decide, by decide, by decide⟩⟩

/-- C5, as amended. Let the whole row of location `i`, the diagonal entry
included, consist of `0` and `INT_MAX`, and let every entry of column `i`
off the diagonal be `INT_MAX`. Then, whenever the call returns, `i` is marked
as a lonely island, no logged call starts at `i` and `i` has position `-1`
in every logged `loc_permutation`. If moreover there are at least three
locations and every entry between two different locations other than `i` is
neither `0` nor `INT_MAX`, then the call returns, every start other than
`i` is tried, every tour visits exactly the `N - 1` other locations, and so
does the retained permutation unless nothing is retained, which happens
only if no logged length is below `INT_MAX`. -/
theorem C5_cut_off_location_excluded (oracle : List PhantomNodes → Int) (N : Nat)
    (dist : List Int) (i : Nat) (_hdist : dist.length = N * N) (hi : i < N)
    (hrow : ∀ j, j < N → (entry N dist i j = 0 ∨ entry N dist i j = INT_MAX))
    (hcol : ∀ j, j < N → j ≠ i → entry N dist j i = INT_MAX) :
    (∀ r, runNN oracle N dist = some r →
      r.is_lonely_island.getD i 0 = 1 ∧
      ∀ c ∈ r.calls, c.start_node ≠ i ∧ c.loc_permutation.getD i (-1) = -1) ∧
    (3 ≤ N →
      (∀ a, a < N → ∀ b, b < N → a ≠ i ∧ b ≠ i ∧ a ≠ b →
        entry N dist a b ≠ 0 ∧ entry N dist a b < INT_MAX) →
      ∃ r, runNN oracle N dist = some r ∧
        (∀ s, s < N → s ≠ i → ∃ c ∈ r.calls, c.start_node = s) ∧
        (∀ c ∈ r.calls, ∀ j, j < N → (c.loc_permutation.getD j (-1) = -1 ↔ j = i)) ∧
        (r.min_loc_permutation = [] ∨
          ∀ j, j < N → (r.min_loc_permutation.getD j (-1) = -1 ↔ j = i)) ∧
        ((∃ c ∈ r.calls, c.raw_route.shortest_path_length < INT_MAX) →
          r.min_loc_permutation ≠ [])) := by
  refine ⟨fun r h => cutOff_never_visited oracle N dist i r hi hrow hcol h, ?_⟩
  intro hN hreach
  obtain ⟨r, hrun, htried, hcalls⟩ := cutOff_others_covered oracle N dist i hi hN hrow hcol
    (fun a b ha hb hai hbi hab => hreach a ha b hb ⟨hai, hbi, hab⟩)
  have hinv := runNN_inv oracle N dist r hrun
  refine ⟨r, hrun, htried, hcalls, ?_, ?_⟩
  · rcases retained_cases r.calls
        ((initState N InternalRouteResult.default []).min_route,
          (initState N InternalRouteResult.default []).min_loc_permutation) hinv.sorted with
      ⟨heq, _⟩ | ⟨c, hc, heq, _, _, _⟩
    · left
      have hb := hinv.best
      rw [heq] at hb
      exact congrArg Prod.snd hb
    · right
      have hb := hinv.best
      rw [heq] at hb
      have hperm : r.min_loc_permutation = c.loc_permutation := congrArg Prod.snd hb
      rw [hperm]
      exact hcalls c hc
  · rintro ⟨c, hc, hlt⟩
    rcases retained_cases r.calls
        ((initState N InternalRouteResult.default []).min_route,
          (initState N InternalRouteResult.default []).min_loc_permutation) hinv.sorted with
      ⟨_, hall⟩ | ⟨c0, hc0, heq, _, _, _⟩
    · have := hall c hc
      simp only [initState] at this
      omega
    · have hb := hinv.best
      rw [heq] at hb
      have hperm : r.min_loc_permutation = c0.loc_permutation := congrArg Prod.snd hb
      obtain ⟨isl, t, order, hcall⟩ := hinv.ok c0 hc0
      intro hnil
      have hlen := hcall.res.inv.len_perm
      rw [← hcall.cperm, ← hperm, hnil] at hlen
      simp at hlen
      omega

/-- C5 as amended, at the five-location table `tableS` with location 3 cut
off. -/
theorem C5_cut_off_location_excluded_witness :
    (∀ j, j < 5 → (entry 5 tableS 3 j = 0 ∨ entry 5 tableS 3 j = INT_MAX)) ∧
    (∀ j, j < 5 → j ≠ 3 → entry 5 tableS j 3 = INT_MAX) ∧
    (∀ a, a < 5 → ∀ b, b < 5 → a ≠ 3 ∧ b ≠ 3 ∧ a ≠ b →
        entry 5 tableS a b ≠ 0 ∧ entry 5 tableS a b < INT_MAX) ∧
    (∀ r, runNN (tableOracle 5 tableS) 5 tableS = some r →
      r.is_lonely_island.getD 3 0 = 1 ∧
      ∀ c ∈ r.calls, c.start_node ≠ 3 ∧ c.loc_permutation.getD 3 (-1) = -1) ∧
    ∃ r, runNN (tableOracle 5 tableS) 5 tableS = some r ∧
        (∀ s, s < 5 → s ≠ 3 → ∃ c ∈ r.calls, c.start_node = s) ∧
        (∀ c ∈ r.calls, ∀ j, j < 5 → (c.loc_permutation.getD j (-1) = -1 ↔ j = 3)) ∧
        (r.min_loc_permutation = [] ∨
          ∀ j, j < 5 → (r.min_loc_permutation.getD j (-1) = -1 ↔ j = 3)) ∧
        ((∃ c ∈ r.calls, c.raw_route.shortest_path_length < INT_MAX) →
          r.min_loc_permutation ≠ []) :=
  ⟨by decide, by decide, by decide,
    (C5_cut_off_location_excluded (tableOracle 5 tableS) 5 tableS 3 (by decide) (by decide)
      (by decide) (by decide)).1,
    (C5_cut_off_location_excluded (tableOracle 5 tableS) 5 tableS 3 (by decide) (by decide)
      (by decide) (by decide)).2 (by decide) (by decide)⟩

/-- C5 fails as stated, in two ways. In `tableF` every entry of the row and
of the column of location 2 off the diagonal is `0`, yet the scan of row 0
takes the entry `0` as the smallest distance: the tour of start 0 visits
location 2 at position 1, and location 2 ends marked connected. In `tableK`
the row of location 0 is `0` and `INT_MAX` off the diagonal and its column
is `INT_MAX` off the diagonal, but its diagonal entry `5` is not counted as
unreachable: start 0 passes the start check and builds a tour. -/
theorem C5_counterexample :
    ((∀ j, j < 3 → j ≠ 2 →
        (entry 3 tableF 2 j = 0 ∨ entry 3 tableF 2 j = INT_MAX) ∧
        (entry 3 tableF j 2 = 0 ∨ entry 3 tableF j 2 = INT_MAX)) ∧
      runNN legCount 3 tableF = some resultF ∧
      (⟨0, [0, 2, 1], ⟨[⟨0, 2⟩, ⟨2, 1⟩, ⟨1, 0⟩], 3⟩⟩ : Candidate) ∈ resultF.calls ∧
      resultF.is_lonely_island.getD 2 0 = -1) ∧
    ((∀ j, j < 3 → j ≠ 0 →
        (entry 3 tableK 0 j = 0 ∨ entry 3 tableK 0 j = INT_MAX) ∧
        (entry 3 tableK j 0 = 0 ∨ entry 3 tableK j 0 = INT_MAX)) ∧
      runNN legCount 3 tableK = some resultK ∧
      (⟨0, [0, 1, 2], ⟨[⟨0, 1⟩, ⟨1, 2⟩, ⟨2, 0⟩], 3⟩⟩ : Candidate) ∈ resultK.calls) := by
  refine ⟨⟨by decide, by decide, by decide, by decide⟩, ⟨by decide, by decide, by decide⟩⟩

/-- C6. For every `N * N` distance table, in which the cost from a location
to itself is `0`, and in which every entry off the diagonal is `0` or
`INT_MAX`: `NearestNeighbour` returns and reports no route. Every start is
marked as a lonely island by the start check and skipped, the oracle is
never called, `min_route` is left as it was with `shortest_path_length` at
`INT_MAX`, and `min_loc_permutation` is left empty. -/
theorem C6_all_sentinel_no_route (oracle : List PhantomNodes → Int) (N : Nat)
    (dist : List Int) (hdist : dist.length = N * N)
    (hdiag : ∀ i, i < N → entry N dist i i = 0)
    (hoff : ∀ i, i < N → ∀ j, j < N → i ≠ j →
      (entry N dist i j = 0 ∨ entry N dist i j = INT_MAX)) :
    ∃ r, runNN oracle N dist = some r ∧
      r.calls = [] ∧
      r.min_route = { InternalRouteResult.default with shortest_path_length := INT_MAX } ∧
      r.min_route.shortest_path_length = INT_MAX ∧
      r.min_loc_permutation = [] ∧
      r.is_lonely_island.length = N ∧
      ∀ j, j < N → r.is_lonely_island.getD j 0 = 1 := by
  apply allSentinel_no_route oracle N dist hdist
  intro i hi j hj
  by_cases hij : i = j
  · subst hij
    exact Or.inl (hdiag i hi)
  · exact hoff i hi j hj hij

/-- C6 at `tableH`, whose diagonal is `0` and whose other entries are `0` or
`INT_MAX`. -/
theorem C6_all_sentinel_no_route_witness :
    (∀ i, i < 3 → entry 3 tableH i i = 0) ∧
    (∀ i, i < 3 → ∀ j, j < 3 → i ≠ j →
      (entry 3 tableH i j = 0 ∨ entry 3 tableH i j = INT_MAX)) ∧
    ∃ r, runNN legCount 3 tableH = some r ∧
      r.calls = [] ∧
      r.min_route = { InternalRouteResult.default with shortest_path_length := INT_MAX } ∧
      r.min_route.shortest_path_length = INT_MAX ∧
      r.min_loc_permutation = [] ∧
      r.is_lonely_island.length = 3 ∧
      ∀ j, j < 3 → r.is_lonely_island.getD j 0 = 1 :=
  ⟨by decide, by decide,
    C6_all_sentinel_no_route legCount 3 tableH (by decide) (by decide) (by decide)⟩

/-- C7. For every table and every oracle whose answers are `int` values: a
logged call whose route came back with the no-path length is not the
retained result; the state of `is_lonely_island` and the starts tried and
tours built are the same whatever the oracle answers, so the starts after a
failed one are still tried; when the call ends with the no-path length the
permutation is empty and every logged call came back with the no-path
length; and when some logged call came back with another length, a route
with a valid length and a non-empty permutation are retained. -/
theorem C7_no_path_candidate_discarded (oracle : List PhantomNodes → Int) (N : Nat)
    (dist : List Int) (r : NNState) (_hdist : dist.length = N * N)
    (hor : ∀ legs, oracle legs ≤ INT_MAX)
    (h : runNN oracle N dist = some r) :
    (∀ c ∈ r.calls, c.raw_route.shortest_path_length = INVALID_EDGE_WEIGHT →
      r.min_route ≠ c.raw_route ∧ r.min_loc_permutation ≠ c.loc_permutation) ∧
    (∀ oracle2 : List PhantomNodes → Int,
      (runNN oracle2 N dist).map trace = some (trace r)) ∧
    (r.min_route.shortest_path_length = INVALID_EDGE_WEIGHT →
      r.min_loc_permutation = [] ∧
      ∀ c ∈ r.calls, c.raw_route.shortest_path_length = INVALID_EDGE_WEIGHT) ∧
    ((∃ c ∈ r.calls, c.raw_route.shortest_path_length ≠ INVALID_EDGE_WEIGHT) →
      r.min_route.shortest_path_length < INVALID_EDGE_WEIGHT ∧
      r.min_loc_permutation ≠ []) := by
  have hinv := runNN_inv oracle N dist r h
  have hle : ∀ c ∈ r.calls, c.raw_route.shortest_path_length ≤ INT_MAX := by
    intro c hc
    obtain ⟨isl, t, order, hcall⟩ := hinv.ok c hc
    rw [hcall.clen]
    exact hor _
  have horigin := retained_origin oracle N dist r h
  refine ⟨?_, ?_, ?_, ?_⟩
  · intro c hc hlen
    obtain ⟨isl, t, order, hcall⟩ := hinv.ok c hc
    rcases horigin with ⟨hroute, hperm, _⟩ | ⟨c0, hc0, hroute, hperm, hlt, _, _, huniq⟩
    · constructor
      · intro he
        have := congrArg InternalRouteResult.segment_end_coordinates he
        rw [hroute] at this
        exact hcall.nonempty.2 this.symm
      · intro he
        rw [hperm] at he
        exact hcall.nonempty.1 he.symm
    · have hne : c ≠ c0 := by
        intro he
        rw [he] at hlen
        unfold INVALID_EDGE_WEIGHT at hlen
        omega
      constructor
      · intro he
        rw [hroute] at he
        have := congrArg InternalRouteResult.shortest_path_length he
        rw [hlen] at this
        unfold INVALID_EDGE_WEIGHT at this
        omega
      · intro he
        rw [hperm] at he
        exact hne (huniq c hc he.symm)
  · intro oracle2
    have := startLoop_trace oracle2 oracle N dist N 0
      (initState N InternalRouteResult.default [])
      (initState N InternalRouteResult.default []) rfl
    unfold runNN NearestNeighbour at h ⊢
    rw [this, h]
    rfl
  · intro hlen
    unfold INVALID_EDGE_WEIGHT at hlen ⊢
    rcases horigin with ⟨_, hperm, hall⟩ | ⟨c0, _, hroute, _, hlt, _, _, _⟩
    · refine ⟨hperm, ?_⟩
      intro c hc
      have h1 := hall c hc
      have h2 := hle c hc
      omega
    · rw [hroute] at hlen
      omega
  · rintro ⟨c, hc, hne⟩
    unfold INVALID_EDGE_WEIGHT at hne ⊢
    rcases horigin with ⟨_, _, hall⟩ | ⟨c0, hc0, hroute, hperm, hlt, _, _, _⟩
    · have h1 := hall c hc
      have h2 := hle c hc
      omega
    · obtain ⟨isl, t, order, hcall⟩ := hinv.ok c0 hc0
      exact ⟨by rw [hroute]; exact hlt, by rw [hperm]; exact hcall.nonempty.1⟩

/-- C7, at `tableA` with `blockedOracle`: the route of start 0 comes back
with the no-path length, start 1 is tried after it and its route is
retained. -/
theorem C7_no_path_candidate_discarded_witness :
    (∀ legs, blockedOracle legs ≤ INT_MAX) ∧
    runNN blockedOracle 3 tableA = some resultBlocked ∧
    (∀ c ∈ resultBlocked.calls, c.raw_route.shortest_path_length = INVALID_EDGE_WEIGHT →
      resultBlocked.min_route ≠ c.raw_route ∧
      resultBlocked.min_loc_permutation ≠ c.loc_permutation) ∧
    (∀ oracle2 : List PhantomNodes → Int,
      (runNN oracle2 3 tableA).map trace = some (trace resultBlocked)) ∧
    (resultBlocked.min_route.shortest_path_length = INVALID_EDGE_WEIGHT →
      resultBlocked.min_loc_permutation = [] ∧
      ∀ c ∈ resultBlocked.calls,
        c.raw_route.shortest_path_length = INVALID_EDGE_WEIGHT) ∧
    ((∃ c ∈ resultBlocked.calls,
        c.raw_route.shortest_path_length ≠ INVALID_EDGE_WEIGHT) →
      resultBlocked.min_route.shortest_path_length < INVALID_EDGE_WEIGHT ∧
      resultBlocked.min_loc_permutation ≠ []) :=
  have hor : ∀ legs, blockedOracle legs ≤ INT_MAX := by
    intro legs
    unfold blockedOracle
    split
    · exact le_refl _
    · decide
  ⟨hor, by decide,
    C7_no_path_candidate_discarded blockedOracle 3 tableA resultBlocked (by decide) hor
      (by decide)⟩

/-- C8. If within one call one start produced a complete tour (every
location has a position) and another start produced an incomplete tour, and
the length of the incomplete one is equal to or higher than the length of
the complete one, then the incomplete tour is not the retained result:
neither its permutation nor its route is retained, and the retained length
is at most the length of the complete tour. The complete tour was built
first. -/
theorem C8_complete_tour_preferred (oracle : List PhantomNodes → Int) (N : Nat)
    (dist : List Int) (r : NNState) (_hdist : dist.length = N * N)
    (h : runNN oracle N dist = some r)
    (c1 c2 : Candidate) (h1 : c1 ∈ r.calls) (h2 : c2 ∈ r.calls)
    (hc1 : Complete N c1) (hc2 : ¬ Complete N c2)
    (hlen : c1.raw_route.shortest_path_length ≤ c2.raw_route.shortest_path_length) :
    c1.start_node < c2.start_node ∧
    r.min_loc_permutation ≠ c2.loc_permutation ∧
    r.min_route ≠ c2.raw_route ∧
    r.min_route.shortest_path_length ≤ c1.raw_route.shortest_path_length := by
  have hinv := runNN_inv oracle N dist r h
  have horder := complete_before_incomplete oracle N dist r h c1 h1 c2 h2 hc1 hc2
  obtain ⟨isl2, t2, order2, hcall2⟩ := hinv.ok c2 h2
  refine ⟨horder, ?_⟩
  rcases retained_origin oracle N dist r h with
    ⟨hroute, hperm, hall⟩ | ⟨c0, hc0, hroute, hperm, hlt, hmin, hfirst, huniq⟩
  · refine ⟨?_, ?_, ?_⟩
    · rw [hperm]; exact fun he => hcall2.nonempty.1 he.symm
    · intro he
      have := congrArg InternalRouteResult.segment_end_coordinates he
      rw [hroute] at this
      exact hcall2.nonempty.2 this.symm
    · rw [hroute]; exact hall c1 h1
  · have hne : c2 ≠ c0 := by
      intro he
      have := hfirst c1 h1 (by rw [← he]; exact horder)
      rw [← he] at this
      omega
    refine ⟨?_, ?_, ?_⟩
    · rw [hperm]
      exact fun he => hne (huniq c2 h2 he.symm)
    · rw [hroute]
      intro he
      obtain ⟨isl0, t0, order0, hcall0⟩ := hinv.ok c0 hc0
      obtain ⟨b0, hb0⟩ := hcall0.first_leg
      obtain ⟨b2, hb2⟩ := hcall2.first_leg
      rw [he, hb2] at hb0
      injection hb0 with hb0
      injection hb0 with hs _
      exact hne (eq_of_start_eq r.calls c2 c0 hinv.sorted h2 hc0 hs)
    · rw [hroute]; exact hmin c1 h1

/-- C8, at `tableP` with `constOracle`: the tour of start 0 is complete,
the tour of start 1 is not, both have length `7`, and the permutation of
start 0 is retained. -/
theorem C8_complete_tour_preferred_witness :
    runNN constOracle 3 tableP = some resultP ∧
    Complete 3 ⟨0, [0, 1, 2], ⟨[⟨0, 1⟩, ⟨1, 2⟩, ⟨2, 0⟩], 7⟩⟩ ∧
    ¬ Complete 3 ⟨1, [-1, 0, 1], ⟨[⟨1, 2⟩, ⟨2, 1⟩], 7⟩⟩ ∧
    ((0 : Nat) < 1 ∧
    resultP.min_loc_permutation ≠ [-1, 0, 1] ∧
    resultP.min_route ≠ ⟨[⟨1, 2⟩, ⟨2, 1⟩], 7⟩ ∧
    resultP.min_route.shortest_path_length ≤ 7) :=
  ⟨by decide, by unfold Complete; decide, by unfold Complete; decide,
    C8_complete_tour_preferred constOracle 3 tableP resultP (by decide) (by decide)
      ⟨0, [0, 1, 2], ⟨[⟨0, 1⟩, ⟨1, 2⟩, ⟨2, 0⟩], 7⟩⟩ ⟨1, [-1, 0, 1], ⟨[⟨1, 2⟩, ⟨2, 1⟩], 7⟩⟩
      (by decide) (by decide) (by unfold Complete; decide) (by unfold Complete; decide)
      (by decide)⟩

/-- C9, at the failing input `tableA`. The tour of start 0 visits location 1
and stops there, because location 2 is not reached from location 1; location
2 is omitted and marked as a lonely island, although the entry from
location 0, which is in the tour, to location 2 is `10`. -/
theorem C9_omitted_location_reachable :
    runNN legCount 3 tableA = some resultA ∧
    (⟨0, [0, 1, -1], ⟨[⟨0, 1⟩, ⟨1, 0⟩], 2⟩⟩ : Candidate) ∈ resultA.calls ∧
    ([0, 1, -1] : List Int).getD 0 (-1) = 0 ∧
    ([0, 1, -1] : List Int).getD 2 (-1) = -1 ∧
    resultA.is_lonely_island.getD 2 0 = 1 ∧
    entry 3 tableA 0 2 = 10 ∧
    ¬ (entry 3 tableA 0 2 = 0 ∨ entry 3 tableA 0 2 = INT_MAX) := by
  refine ⟨by decide, by decide, by decide, by decide, by decide, by decide, by decide⟩

/-- C10. Once `is_lonely_island[i]` is `1`, it is `1` after every further
iteration of the start loop; the iteration of start `i` returns the state
unchanged whatever the table is, so the row of `i` is not scanned; and `i`
is not added to a tour built afterwards: no later logged call starts at
`i`, `i` has position `-1` in every later `loc_permutation`, and no later
leg departs from or arrives at `i`. -/
theorem C10_isolated_is_absorbing (oracle : List PhantomNodes → Int) (N : Nat)
    (dist : List Int) (st st2 : NNState) (i remaining s0 : Nat)
    (_hdist : dist.length = N * N) (hlen : st.is_lonely_island.length = N)
    (hle : s0 + remaining ≤ N) (hmark : st.is_lonely_island.getD i 0 = 1)
    (hrun : startLoop oracle N dist remaining s0 st = some st2) :
    st2.is_lonely_island.getD i 0 = 1 ∧
    (∀ (oracle2 : List PhantomNodes → Int) (dist2 : List Int),
      tryStart oracle2 N dist2 st i = some st ∧ tryStart oracle2 N dist2 st2 i = some st2) ∧
    ∃ new, st2.calls = st.calls ++ new ∧
      ∀ c ∈ new, c.start_node ≠ i ∧ c.loc_permutation.getD i (-1) = -1 ∧
        ∀ leg ∈ c.raw_route.segment_end_coordinates,
          leg.source_phantom ≠ i ∧ leg.target_phantom ≠ i := by
  have key := startLoop_induction oracle N dist
    (fun _ st1 => st1.is_lonely_island.length = N ∧
      st1.is_lonely_island.getD i 0 = 1 ∧
      ∃ new, st1.calls = st.calls ++ new ∧
        ∀ c ∈ new, c.start_node ≠ i ∧ c.loc_permutation.getD i (-1) = -1 ∧
          ∀ leg ∈ c.raw_route.segment_end_coordinates,
            leg.source_phantom ≠ i ∧ leg.target_phantom ≠ i)
    (by
      intro k st1 st3 hk hP hts
      obtain ⟨hlen1, hmark1, new, hcalls, hnew⟩ := hP
      rcases tryStart_cases oracle N dist st1 st3 k hlen1 hk hts with
        ⟨_, h2⟩ | ⟨hzero, _, h2⟩ | ⟨_, t, order, c, hcall, hcs, hisl, hcalls2, _⟩
      · subst h2
        exact ⟨hlen1, hmark1, new, hcalls, hnew⟩
      · subst h2
        refine ⟨by simp [hlen1], ?_, new, hcalls, hnew⟩
        show (st1.is_lonely_island.set k 1).getD i 0 = 1
        rw [getD_set_ne _ _ _ _ _ (by intro he; rw [he] at hzero; omega)]
        exact hmark1
      · obtain ⟨hne, hnot, hpos, hstay⟩ := hcall.absorb i hmark1
        refine ⟨by rw [hisl]; exact hcall.res.inv.len_isl, by rw [hisl]; exact hstay,
          new ++ [c], by rw [hcalls2, hcalls, List.append_assoc], ?_⟩
        intro c2 hc2
        rcases List.mem_append.mp hc2 with hc2 | hc2
        · exact hnew c2 hc2
        · rw [List.mem_singleton] at hc2
          rw [hc2]
          refine ⟨Ne.symm hne, hpos, ?_⟩
          intro leg hleg
          obtain ⟨hs, ht⟩ := hcall.leg_mem leg hleg
          exact ⟨fun he => hnot (he ▸ hs), fun he => hnot (he ▸ ht)⟩)
    remaining s0 st st2 hle
    ⟨hlen, hmark, [], by simp, by intro c hc; simp at hc⟩ hrun
  obtain ⟨_, hmark2, hnew⟩ := key
  exact ⟨hmark2,
    fun oracle2 dist2 => ⟨tryStart_skip oracle2 N dist2 st i hmark,
      tryStart_skip oracle2 N dist2 st2 i hmark2⟩,
    hnew⟩

/-- C10, at `tableA`: location 2 is marked by the iteration of start 0 and
stays marked through the iterations of starts 1 and 2. -/
theorem C10_isolated_is_absorbing_witness :
    startLoop legCount 3 tableA 2 1 stateA1 = some resultA ∧
    stateA1.is_lonely_island.getD 2 0 = 1 ∧
    resultA.is_lonely_island.getD 2 0 = 1 ∧
    (∀ (oracle2 : List PhantomNodes → Int) (dist2 : List Int),
      tryStart oracle2 3 dist2 stateA1 2 = some stateA1 ∧
      tryStart oracle2 3 dist2 resultA 2 = some resultA) ∧
    ∃ new, resultA.calls = stateA1.calls ++ new ∧
      ∀ c ∈ new, c.start_node ≠ 2 ∧ c.loc_permutation.getD 2 (-1) = -1 ∧
        ∀ leg ∈ c.raw_route.segment_end_coordinates,
          leg.source_phantom ≠ 2 ∧ leg.target_phantom ≠ 2 :=
  ⟨by decide, by decide,
    C10_isolated_is_absorbing legCount 3 tableA stateA1 resultA 2 2 1 (by decide)
      (by decide) (by decide) (by decide) (by decide)⟩

/-- C11, at a failing input: a request with two coordinates that
`check_all_coordinates` accepts and for which the oracle returns the
distance table `tableU`. `NearestNeighbour` reads `back()` of an empty leg
list for start 1, so the call of `HandleRequest` has no defined result: it
returns neither 400 nor 200. -/
theorem C11_no_status_returned :
    facadeU.check_all_coordinates requestU.coordinates = true ∧
    (findPhantoms facadeU requestU).1 = [[1], [2]] ∧
    facadeU.distance_table (findPhantoms facadeU requestU).1 = some tableU ∧
    NearestNeighbour (facadeU.shortest_path (findPhantoms facadeU requestU).1) 2 tableU
      InternalRouteResult.default [] = none ∧
    HandleRequest facadeU requestU [] = none := by
  refine ⟨by decide, by decide, by decide, by decide, by decide⟩

/-- C12, as amended. At every iteration of the via-point loop, either the
scan finds nothing, which happens exactly when every index that is not
visited and not marked as a lonely island has an entry of at least `INT_MAX`
in the row of the current location, and the loop ends after marking the
locations that are not visited; or the loop goes on with the index `k`
found, which is not visited and not marked, has an entry below `INT_MAX`,
has the smallest entry among all indices that are not visited and not
marked, and is the lowest index with that entry. -/
theorem C12_next_is_nearest (N : Nat) (dist : List Int) (s : TourState)
    (remaining via_point : Nat) :
    ((findNearest N dist s.is_lonely_island s.visited s.curr_node).2 = -1 ∧
      (∀ j, j < N → s.is_lonely_island.getD j 0 < 1 → s.visited.getD j false = false →
        INT_MAX ≤ entry N dist s.curr_node j) ∧
      viaLoop N dist (remaining + 1) via_point s
        = { s with is_lonely_island := markUnvisited s.visited s.is_lonely_island }) ∨
    (∃ k, k < N ∧
      (findNearest N dist s.is_lonely_island s.visited s.curr_node).2 = (k : Int) ∧
      s.is_lonely_island.getD k 0 < 1 ∧ s.visited.getD k false = false ∧
      entry N dist s.curr_node k < INT_MAX ∧
      (∀ j, j < N → s.is_lonely_island.getD j 0 < 1 → s.visited.getD j false = false →
        entry N dist s.curr_node k ≤ entry N dist s.curr_node j) ∧
      (∀ j, j < k → s.is_lonely_island.getD j 0 < 1 → s.visited.getD j false = false →
        entry N dist s.curr_node k < entry N dist s.curr_node j) ∧
      viaLoop N dist (remaining + 1) via_point s
        = viaLoop N dist remaining (via_point + 1)
            { is_lonely_island := s.is_lonely_island.set k (-1)
              loc_permutation := s.loc_permutation.set k (via_point : Int)
              visited := s.visited.set k true
              segment_end_coordinates := s.segment_end_coordinates ++ [⟨s.curr_node, k⟩]
              curr_node := k }) := by
  have hspec := findNearest_spec N dist s.is_lonely_island s.visited s.curr_node
  rcases hspec with ⟨hacc, hnone⟩ | ⟨k, hk, hacc, hisl, hvis, hlt, hmin, hfirst⟩
  · left
    refine ⟨by rw [hacc], ?_, ?_⟩
    · intro j hj hji hjv
      by_contra hcon
      exact hnone j hj ⟨hji, hjv, by omega⟩
    · simp only [viaLoop]
      rw [hacc]
      simp only [if_true]
  · right
    refine ⟨k, hk, by rw [hacc], hisl, hvis, hlt, hmin, hfirst, ?_⟩
    simp only [viaLoop]
    rw [hacc]
    have hne : ((k : Int) = -1) = False := by
      apply propext; constructor
      · intro hc; omega
      · intro hc; exact False.elim hc
    simp only [hne, if_false, Int.toNat_ofNat]

/-- C12 fails as stated. On `tableA` the first iteration of the tour of
start 0 leads to `tourA1`; there location 2 is neither visited nor marked
as a lonely island, but its entry in the row of location 1 is `INT_MAX`, so
the scan finds nothing and the construction stops early. -/
theorem C12_counterexample :
    viaLoop 3 tableA 1 1 (initTour 3 [0, 0, 0] 0) = tourA1 ∧
    tourA1.visited.getD 2 false = false ∧
    tourA1.is_lonely_island.getD 2 0 = 0 ∧
    entry 3 tableA 1 2 = INT_MAX ∧
    viaLoop 3 tableA 1 2 tourA1 = { tourA1 with is_lonely_island := [-1, -1, 1] } := by
  refine ⟨by decide, by decide, by decide, by decide, by decide⟩

/-- C13, at the failing input `tableU`, a table of non-negative costs with
the diagonal `0`. The status of start 1 is unknown (`0`) when its turn comes,
and the one entry of its row other than the diagonal entry is `5`, neither
`0` nor `INT_MAX`. The start check lets start 1 pass and the tour
construction marks it connected (`-1`), but no tour is built from it: the
only other location is marked as a lonely island, the via-point loop ends
with an empty leg list, `back()` is read on it, and the iteration has no
defined result, whatever the oracle is; no leg list is handed to the
oracle. -/
theorem C13_no_tour_built :
    (∀ x ∈ tableU, 0 ≤ x) ∧
    (∀ i, i < 2 → entry 2 tableU i i = 0) ∧
    startLoop legCount 2 tableU 1 0 (initState 2 InternalRouteResult.default [])
      = some stateU1 ∧
    stateU1.is_lonely_island.getD 1 0 = 0 ∧
    ¬ (∀ j, j < 2 → j ≠ 1 → (entry 2 tableU 1 j = 0 ∨ entry 2 tableU 1 j = INT_MAX)) ∧
    (initTour 2 stateU1.is_lonely_island 1).is_lonely_island.getD 1 0 = -1 ∧
    (viaLoop 2 tableU (2 - 1) 1
      (initTour 2 stateU1.is_lonely_island 1)).segment_end_coordinates = [] ∧
    (∀ oracle : List PhantomNodes → Int,
      tryStart oracle 2 tableU stateU1 1 = buildTour oracle 2 tableU stateU1 1 ∧
      buildTour oracle 2 tableU stateU1 1 = none) := by
  refine ⟨by decide, by decide, by decide, by decide, by decide, by decide, by decide, ?_⟩
  intro oracle
  exact ⟨rfl, rfl⟩

/-- C14, at the failing input `tableP`. The tour of start 0 visits all three
locations, so location 0 is marked connected (`-1`) after the first
iteration. The tour of start 1 goes to location 2 and stops there, because
location 0 is not reached from location 2; the marking loop then sets
`is_lonely_island[0]` to `1`, although it was `-1` and location 0 is
reached from location 1 with cost `9`. -/
theorem C14_connected_overwritten :
    startLoop constOracle 3 tableP 1 0 (initState 3 InternalRouteResult.default [])
      = some stateP1 ∧
    stateP1.is_lonely_island.getD 0 0 = -1 ∧
    (tryStart constOracle 3 tableP stateP1 1).map
      (fun st => st.is_lonely_island.getD 0 0) = some 1 ∧
    runNN constOracle 3 tableP = some resultP ∧
    resultP.is_lonely_island.getD 0 0 = 1 ∧
    entry 3 tableP 1 0 = 9 := by
  refine ⟨by decide, by decide, by decide, by decide, by decide, by decide⟩

/-- C15, at the failing input `tableU`. Start 0 is marked as a lonely island
by the start check. Start 1 has unknown status and passes the start check,
because its row holds the entry `5`; the only other location is marked, so
the scan finds nothing, the via-point loop ends with an empty leg list, and
`back()` is read on an empty list: the call has no defined result. -/
theorem C15_empty_leg_list :
    startLoop legCount 2 tableU 1 0 (initState 2 InternalRouteResult.default [])
      = some stateU1 ∧
    stateU1.is_lonely_island.getD 1 0 = 0 ∧
    countUnreachables 2 tableU 1 = 1 ∧
    (viaLoop 2 tableU (2 - 1) 1
      (initTour 2 stateU1.is_lonely_island 1)).segment_end_coordinates = [] ∧
    (viaLoop 2 tableU (2 - 1) 1
      (initTour 2 stateU1.is_lonely_island 1)).loc_permutation = [-1, 0] ∧
    tryStart legCount 2 tableU stateU1 1 = none ∧
    runNN legCount 2 tableU = none := by
  refine ⟨by decide, by decide, by decide, by decide, by decide, by decide, by decide⟩

/-- C16, at a failing input: a raw route with a shortest path of length
`100` and an alternative path of length `150`. The response carries as
`alternative_route` the main route (its geometry, its summary, its via
points and via indices, and no route name), which differs from the route
that lines 184-234 build from the alternative description; and that route
itself carries the summary of the main route. -/
theorem C16_alternative_route_is_main_route :
    INVALID_EDGE_WEIGHT ≠ PBF.exampleRaw.shortest_path_length ∧
    INVALID_EDGE_WEIGHT ≠ PBF.exampleRaw.alternative_path_length ∧
    (PBF.Run PBF.exampleConfig PBF.exampleName PBF.exampleEncode PBF.exampleRaw
        PBF.exampleMain PBF.exampleAlt PBF.exampleNames).map
      (fun res => res.response.alternative_route) = some (some PBF.exampleCarried) ∧
    (PBF.Run PBF.exampleConfig PBF.exampleName PBF.exampleEncode PBF.exampleRaw
        PBF.exampleMain PBF.exampleAlt PBF.exampleNames).map
      (fun res => res.alternativeRoute) = some (some PBF.exampleLocal) ∧
    PBF.exampleCarried.route_geometry = some PBF.exampleMain.geometry ∧
    PBF.exampleCarried.route_geometry ≠ some PBF.exampleAlt.geometry ∧
    PBF.exampleCarried.route_summary
      = some (PBF.summaryOf PBF.exampleName PBF.exampleMain) ∧
    PBF.exampleCarried.route_summary
      ≠ some (PBF.summaryOf PBF.exampleName PBF.exampleAlt) ∧
    PBF.exampleCarried.via_indices = PBF.exampleMain.via_indices ∧
    PBF.exampleCarried.via_indices ≠ PBF.exampleAlt.via_indices ∧
    PBF.exampleCarried.route_name = [] ∧
    PBF.exampleLocal.route_summary
      ≠ some (PBF.summaryOf PBF.exampleName PBF.exampleAlt) := by
  refine ⟨by decide, by decide, by decide, by decide, by decide, by decide, by decide,
    by decide, by decide, by decide, by decide, by decide⟩

end RoundTrip
